import Mathlib

/-!
Verification development for the head-to-head merge/reconciliation engine
(`src/utils/upsert_on_head_to_head.py`).

The embedding models the polars operations the three merge strategies use:
tables are ordered schemas (column name, dtype) plus rows, a row being an
association list from column name to a nullable cell.  Float64 values are
modelled as the rationals binary64 can represent, and Float64 addition is
the exact sum rounded back to 53 significand bits with ties to even
(`roundD`), so reordering effects of IEEE arithmetic are visible to the
theorems.
-/

set_option linter.unusedVariables false

namespace HeadToHead

/-- Primitive column dtypes of the embedded polars model: `pl.Int64`,
`pl.Float64` (modelled as rationals), `pl.String`, and the `Null` dtype
of a `pl.lit(None)` column. -/
inductive DType where
  | i64 | f64 | str | null
deriving DecidableEq

/-- A non-null primitive value. -/
inductive PVal where
  | i (n : Int)
  | f (q : ℚ)
  | s (t : String)
deriving DecidableEq

/-- A nullable cell. -/
abbrev Cell := Option PVal

/-- A row: an association list from column name to cell, kept aligned with
the table schema by every operation below. -/
abbrev Row := List (String × Cell)

/-- First-occurrence lookup in an association list (polars column names are
unique, so this is plain name lookup). -/
def lookupL {α : Type} (c : String) : List (String × α) → Option α
  | [] => none
  | (k, v) :: l => if c = k then some v else lookupL c l

/-- The cell of row `r` in column `c`; a column absent from the row reads
as null (used to model diagonal concatenation's null filling). -/
def cellR (r : Row) (c : String) : Cell :=
  match lookupL c r with
  | some v => v
  | none => none

/-- `pl.coalesce` of two same-typed columns: first non-null value. -/
def cOr (a b : Cell) : Cell :=
  match a with
  | some v => some v
  | none => b

/-- A table: ordered, typed columns plus rows. -/
structure DF where
  schema : List (String × DType)
  rows : List Row
deriving DecidableEq

def DF.cols (df : DF) : List String := df.schema.map Prod.fst

def DF.dtypeOf (df : DF) (c : String) : Option DType := lookupL c df.schema

/-- Every row carries exactly the schema's columns, in schema order. -/
def DF.WF (df : DF) : Prop := ∀ r ∈ df.rows, r.map Prod.fst = df.cols

/-- The first row whose `key` cell is the (non-null) value `k`. -/
def DF.rowAt (df : DF) (key : String) (k : PVal) : Option Row :=
  df.rows.find? (fun r => decide (cellR r key = some k))

/-- The value in column `c` of the row keyed `k` (null if no such row). -/
def DF.valAt (df : DF) (key : String) (k : PVal) (c : String) : Cell :=
  match df.rowAt key k with
  | some r => cellR r c
  | none => none

/-- The table has a row keyed by the (non-null) value `k`. -/
def DF.hasKey (df : DF) (key : String) (k : PVal) : Prop :=
  (df.rowAt key k).isSome = true

instance (df : DF) (key : String) (k : PVal) : Decidable (df.hasKey key k) :=
  inferInstanceAs (Decidable ((df.rowAt key k).isSome = true))

/-- The canonical head-to-head schema (`head_to_head_schema` in the source),
in declaration order. -/
def head_to_head_schema : List (String × DType) :=
  [("MatchId", .i64), ("BetType", .i64), ("HomeId", .i64), ("AwayId", .i64),
   ("HtHomeScore", .i64), ("HtAwayScore", .i64),
   ("FinalHomeScore", .i64), ("FinalAwayScore", .i64),
   ("EventDate", .str), ("KickOffTime", .str),
   ("LeagueId", .i64), ("SportId", .i64),
   ("FirstOddsId", .i64), ("LastOddsId", .i64),
   ("FirstOdds1", .f64), ("LastOdds1", .f64),
   ("FirstOdds2", .f64), ("LastOdds2", .f64),
   ("FirstCom1", .f64), ("FirstCom2", .f64), ("FirstComx", .f64),
   ("LastCom1", .f64), ("LastCom2", .f64), ("LastComx", .f64),
   ("Winlost_SGD", .f64), ("TurnOver_SGD", .f64),
   ("ModifiedOn", .str)]

/-- The error outcomes of the engine (`ValueError`/`TypeError` in the
source, classified as the spec's error kinds). -/
inductive MergeErr where
  | missingColumns (cs : List String)
  | typeMismatch (cs : List String)
  | unexpectedColumns (cs : List String)
  | missingKey (k : String)
  | missingTimestamp (c : String)
  | castFail (c : String)
  | superTypeFail (c : String)
deriving DecidableEq

/-- Project a row to the named columns, in the given order (`df.select`). -/
def rowProj (ns : List String) (r : Row) : Row :=
  ns.filterMap (fun c => (lookupL c r).map (fun v => (c, v)))

/-- `df.select(ns)`: reorder/project columns by name. -/
def DF.select (df : DF) (ns : List String) : DF :=
  ⟨ns.filterMap (fun c => (lookupL c df.schema).map (fun t => (c, t))),
   df.rows.map (rowProj ns)⟩

/-- `ordenar_y_validar`: validate presence and dtypes of the schema columns,
optionally reject extras, then reorder: schema columns first (in schema
order), extras after (input order). -/
def ordenar_y_validar (df : DF) (esquema : List (String × DType))
    (permitir_extras : Bool := true) : Except MergeErr DF :=
  let columnas := esquema.map Prod.fst
  let faltan := columnas.filter (fun c => decide (c ∉ df.cols))
  if faltan ≠ [] then .error (.missingColumns faltan)
  else
    let malos := columnas.filter (fun c => decide (df.dtypeOf c ≠ lookupL c esquema))
    if malos ≠ [] then .error (.typeMismatch malos)
    else
      let extras := df.cols.filter (fun c => decide (c ∉ columnas))
      if extras ≠ [] ∧ permitir_extras = false then .error (.unexpectedColumns extras)
      else .ok (df.select (columnas ++ extras))

/-- Two rows agree on a non-null join key (polars joins do not match nulls). -/
def matchKeyB (key : String) (r1 r2 : Row) : Bool :=
  match cellR r1 key, cellR r2 key with
  | some a, some b => decide (a = b)
  | _, _ => false

def concatMap {α β : Type} (f : α → List β) : List α → List β
  | [] => []
  | a :: l => f a ++ concatMap f l

/-- The joined name of a right-side column: suffixed when it collides with
a left-side column. -/
def renN (base : DF) (suffix c : String) : String :=
  if c ∈ base.cols then c ++ suffix else c

/-- The right-side columns that survive the join (the right key column is
dropped when the join coalesces keys). -/
def dPairsD (delta : DF) (key : String) (coal : Bool) : List (String × DType) :=
  delta.schema.filter (fun p => decide (¬ (coal = true ∧ p.1 = key)))

/-- The right-side fragment of a joined row. -/
def dPartD (base delta : DF) (key suffix : String) (coal : Bool) (rd : Row) : Row :=
  (dPairsD delta key coal).map (fun p => (renN base suffix p.1, cellR rd p.1))

/-- The all-null right-side fragment of a left-only joined row. -/
def dNullD (base delta : DF) (key suffix : String) (coal : Bool) : Row :=
  (dPairsD delta key coal).map (fun p => (renN base suffix p.1, (none : Cell)))

/-- The left-side fragment of a right-only joined row: all nulls, except
that a coalescing join fills the key from the right row. -/
def bNullD (base : DF) (key : String) (coal : Bool) (rd : Row) : Row :=
  base.schema.map (fun p =>
    (p.1, if coal = true ∧ p.1 = key then cellR rd key else (none : Cell)))

/-- Full outer join on `key` with the given suffix for colliding right-side
column names.  With `coal = true` (the `coalesce=True` of `upsert_match`) the
right key column is merged into the left one; with `coal = false` (the
`upsert_bets` join) it appears suffixed and the left key stays null on
right-only rows.  Row order: left rows (expanded by their matches) first,
then unmatched right rows. -/
def DF.joinFull (base delta : DF) (key suffix : String) (coal : Bool) : DF :=
  ⟨base.schema ++ (dPairsD delta key coal).map (fun p => (renN base suffix p.1, p.2)),
   concatMap (fun rb =>
      match delta.rows.filter (fun rd => matchKeyB key rb rd) with
      | [] => [rb ++ dNullD base delta key suffix coal]
      | ms => ms.map (fun rd => rb ++ dPartD base delta key suffix coal rd)) base.rows
   ++ (delta.rows.filter
      (fun rd => !(base.rows.any (fun rb => matchKeyB key rb rd)))).map
      (fun rd => bNullD base key coal rd ++ dPartD base delta key suffix coal rd)⟩

/-- Truncation toward zero, the behaviour of a polars Float64 → Int64 cast. -/
def ratTrunc (q : ℚ) : Int := if 0 ≤ q then q.floor else -(-q).floor

/-- Decimal rendering of a float value when cast to text.  Exact decimal
formatting of floats is irrelevant to every verified path (casts fire only
on dtype mismatches, which the pipeline's inputs do not have). -/
def ratToStr (q : ℚ) : String := toString q

/-- Strict polars cast of a single value; `none` is a cast failure. -/
def castV : DType → PVal → Option PVal
  | .i64, .i n => some (.i n)
  | .i64, .f q => some (.i (ratTrunc q))
  | .i64, .s t => t.toInt?.map .i
  | .f64, .i n => some (.f (n : ℚ))
  | .f64, .f q => some (.f q)
  | .f64, .s t => t.toInt?.map (fun n => .f (n : ℚ))
  | .str, .i n => some (.s (toString n))
  | .str, .f q => some (.s (ratToStr q))
  | .str, .s t => some (.s t)
  | .null, _ => none

/-- Cast of a cell: nulls cast to nulls, values cast strictly. -/
def castCell (t : DType) : Cell → Option Cell
  | none => some none
  | some v => (castV t v).map some

/-- polars supertype of two dtypes (`Null` absorbs, numerics widen,
text absorbs numerics). -/
def superType : DType → DType → Option DType
  | t, .null => some t
  | .null, t => some t
  | .i64, .i64 => some .i64
  | .f64, .f64 => some .f64
  | .str, .str => some .str
  | .i64, .f64 => some .f64
  | .f64, .i64 => some .f64
  | .str, .i64 => some .str
  | .i64, .str => some .str
  | .str, .f64 => some .str
  | .f64, .str => some .str

/-- The literal `0` of `pl.lit(0)` after the supertype cast against a column
of dtype `t` (for a text column the integer is rendered as text). -/
def zeroOf : DType → PVal
  | .i64 => .i 0
  | .f64 => .f 0
  | .str => .s "0"
  | .null => .i 0

/-- Round to the nearest integer, ties to the even integer — the
significand rounding of IEEE round-to-nearest-even. -/
def rne (s : ℚ) : ℤ :=
  if s - ⌊s⌋ < 1/2 then ⌊s⌋
  else if 1/2 < s - ⌊s⌋ then ⌊s⌋ + 1
  else if 2 ∣ ⌊s⌋ then ⌊s⌋ else ⌊s⌋ + 1

/-- The correctly-rounded binary64 value of an exact rational: the
significand is rounded to 53 bits, to nearest with ties to even, as IEEE
Float64 arithmetic does.  The exponent is left unbounded (head-to-head
odds, commissions and turnovers never reach the overflow or subnormal
ranges, so those binary64 edge behaviours are never exercised). -/
def roundD (q : ℚ) : ℚ :=
  if q = 0 then 0
  else ((rne (q / 2 ^ (Int.log 2 |q| - 52)) : ℚ)) * 2 ^ (Int.log 2 |q| - 52)

/-- polars `+` on two values of a common supertype: Int64 addition, Float64
addition (exact sum, then rounded back to binary64 by `roundD`), string
concatenation; mixed operands go through the supertype cast first. -/
def padd : PVal → PVal → PVal
  | .i a, .i b => .i (a + b)
  | .f a, .f b => .f (roundD (a + b))
  | .s a, .s b => .s (a ++ b)
  | .i a, .f b => .f (roundD ((a : ℚ) + b))
  | .f a, .i b => .f (roundD (a + (b : ℚ)))
  | .s a, .i b => .s (a ++ toString b)
  | .i a, .s b => .s (toString a ++ b)
  | .s a, .f b => .s (a ++ ratToStr b)
  | .f a, .s b => .s (ratToStr a ++ b)

/-- `pl.col(c).cast(t)` applied to a whole column (strict). -/
def DF.castColumn (df : DF) (c : String) (t : DType) : Except MergeErr DF := do
  let rows ← df.rows.mapM (fun r => r.mapM (fun p =>
      if p.1 = c then
        match castCell t p.2 with
        | some cell => pure (p.1, cell)
        | none => Except.error (.castFail c)
      else pure p))
  pure ⟨df.schema.map (fun p => if p.1 = c then (p.1, t) else p), rows⟩

/-- The delta-alignment loop of the upserts: for each listed column whose
delta dtype differs from base's, cast the delta column to base's dtype
(base's types are authoritative; columns already aligned are untouched,
exactly as the source only emits a cast on a dtype mismatch). -/
def castColsTo (delta base : DF) : List String → Except MergeErr DF
  | [] => .ok delta
  | c :: cs =>
    if delta.dtypeOf c = base.dtypeOf c then castColsTo delta base cs
    else
      match delta.castColumn c ((base.dtypeOf c).getD .str) with
      | .ok d => castColsTo d base cs
      | .error e => .error e

/-- Add the key as an all-null column typed from delta when base lacks it
(`base.with_columns(pl.lit(None, dtype=key_dtype).alias(key))`). -/
def ensureKey (base delta : DF) (key : String) : DF :=
  if key ∈ base.cols then base
  else ⟨base.schema ++ [(key, (delta.dtypeOf key).getD .str)],
        base.rows.map (fun r => r ++ [(key, (none : Cell))])⟩

/-- Replace-Merge (`upsert_match`): full outer join on `key` with coalesced
key; every overlapping non-key column resolves to
`coalesce(delta value, base value)`; output column order
base-only ++ resolved overlap ++ delta-only, then canonical validation. -/
def upsert_match (base delta : DF) (key : String) : Except MergeErr DF := do
  if key ∈ delta.cols then
    let base := ensureKey base delta key
    let overlap := base.cols.filter (fun c => decide (c ∈ delta.cols ∧ c ≠ key))
    let delta ← castColsTo delta base (key :: overlap)
    let j := base.joinFull delta key "_upd" true
    let baseOnly := base.cols.filter (fun c => decide (c ∉ overlap))
    let deltaOnly := delta.cols.filter (fun c => decide (c ∉ overlap ∧ c ≠ key))
    let outSchema := (baseOnly ++ overlap ++ deltaOnly).filterMap
        (fun c => (j.dtypeOf c).map (fun t => (c, t)))
    let out : DF := ⟨outSchema, j.rows.map (fun r => outSchema.map (fun p =>
        (p.1, if p.1 ∈ overlap then cOr (cellR r (p.1 ++ "_upd")) (cellR r p.1)
              else cellR r p.1)))⟩
    ordenar_y_validar out head_to_head_schema true
  else Except.error (.missingKey key)

/-- Additive-Merge (`upsert_bets`): full outer join on `key` without key
coalescing (suffix `_r`); every overlapping non-key column becomes
`coalesce(base, 0) + coalesce(delta, 0)`; each base-only column whose
suffixed name exists in the join (in the generic case exactly the key)
becomes `coalesce(base side, delta side)`; the suffixed columns are then
dropped and the result canonically validated. -/
def upsert_bets (base delta : DF) (key : String) : Except MergeErr DF := do
  if key ∈ delta.cols then
    let base := ensureKey base delta key
    let overlap := base.cols.filter (fun c => decide (c ∈ delta.cols ∧ c ≠ key))
    let baseOnly := base.cols.filter (fun c => decide (c ∉ overlap))
    let delta ← castColsTo delta base (key :: overlap)
    let j := base.joinFull delta key "_r" false
    let dropCols := ((overlap ++ baseOnly).filter
        (fun c => decide ((c ++ "_r") ∈ j.cols))).map (fun c => c ++ "_r")
    let keep := j.schema.filter (fun p => decide (p.1 ∉ dropCols))
    let out : DF := ⟨keep, j.rows.map (fun r => keep.map (fun p =>
        (p.1,
         if p.1 ∈ overlap then
           some (padd ((cellR r p.1).getD (zeroOf p.2))
                      ((cellR r (p.1 ++ "_r")).getD (zeroOf p.2)))
         else if p.1 ∈ baseOnly ∧ (p.1 ++ "_r") ∈ j.cols then
           cOr (cellR r p.1) (cellR r (p.1 ++ "_r"))
         else cellR r p.1)))⟩
    ordenar_y_validar out head_to_head_schema true
  else Except.error (.missingKey key)

def pvalRank : PVal → Nat
  | .i _ => 0
  | .f _ => 1
  | .s _ => 2

/-- A total Bool order on primitive values (within one dtype it is the
value order polars sorts by; across dtypes, an arbitrary fixed rank —
real columns never mix dtypes). -/
def pvalLe (x y : PVal) : Bool :=
  match x, y with
  | .i a, .i b => decide (a ≤ b)
  | .f a, .f b => decide (a ≤ b)
  | .s a, .s b => decide (a ≤ b)
  | x, y => decide (pvalRank x ≤ pvalRank y)

/-- Comparison by the timestamp cell inside `sort_by`: nulls sort first
(polars `nulls_last` defaults to false, for ascending and descending
alike), and non-null values by `pvalLe`, flipped when `desc`. -/
def cellLeTs (desc : Bool) : Cell → Cell → Bool
  | none, _ => true
  | some _, none => false
  | some a, some b => if desc then pvalLe b a else pvalLe a b

/-- The candidate order of `upsert_odds` for column `c`:
`sort_by([col(c).is_null(), col(ts)], descending=[False, desc])` —
is-null ascending (non-nulls first), then the timestamp, descending when
`desc`. -/
def aggLe (tsCol c : String) (desc : Bool) (r1 r2 : Row) : Bool :=
  let n1 := (cellR r1 c).isNone
  let n2 := (cellR r2 c).isNone
  if n1 = n2 then cellLeTs desc (cellR r1 tsCol) (cellR r2 tsCol)
  else (!n1 && n2)

/-- Stable insertion into a sorted list. -/
def insertL {α : Type} (le : α → α → Bool) (a : α) : List α → List α
  | [] => [a]
  | b :: l => if le a b then a :: b :: l else b :: insertL le a l

/-- Stable sort (the deterministic model of the polars sort). -/
def sortL {α : Type} (le : α → α → Bool) : List α → List α
  | [] => []
  | a :: l => insertL le a (sortL le l)

def dedupAux {α : Type} [DecidableEq α] (seen : List α) : List α → List α
  | [] => []
  | a :: l => if a ∈ seen then dedupAux seen l else a :: dedupAux (a :: seen) l

/-- First-occurrence deduplication.  The source builds the united column
list with a Python set, whose order is unspecified; the embedding fixes
first-occurrence order, on which no result value depends (the validator
reorders columns at the end). -/
def dedupF {α : Type} [DecidableEq α] (l : List α) : List α := dedupAux [] l

/-- `_alinear`: add each absent column as a `pl.lit(None)` column (dtype
Null), then select the united column list. -/
def alinear (df : DF) (todas : List String) : DF :=
  let faltantes := todas.filter (fun c => decide (c ∉ df.cols))
  let df2 : DF := ⟨df.schema ++ faltantes.map (fun c => (c, DType.null)),
                   df.rows.map (fun r => r ++ faltantes.map (fun c => (c, (none : Cell))))⟩
  df2.select todas

/-- Error-propagating map (the monadic `mapM` over `Except`, written
structurally). -/
def mapME {α β : Type} (f : α → Except MergeErr β) : List α → Except MergeErr (List β)
  | [] => .ok []
  | a :: l =>
    match f a with
    | .error e => .error e
    | .ok b =>
      match mapME f l with
      | .error e => .error e
      | .ok bs => .ok (b :: bs)

/-- `pl.concat([a, b], how="diagonal")` for two frames already aligned to
the same column list: per column the dtype becomes the supertype of the two
sides and any side of a different dtype is cast to it; rows stack, `a`'s
first. -/
def concatDiagonal (a b : DF) : Except MergeErr DF := do
  let sch ← mapME (fun p =>
      match superType p.2 ((b.dtypeOf p.1).getD .null) with
      | some t => .ok (p.1, t)
      | none => Except.error (MergeErr.superTypeFail p.1)) a.schema
  let castRow (df : DF) (r : Row) : Except MergeErr Row :=
    mapME (fun p =>
      if df.dtypeOf p.1 = some p.2 then .ok (p.1, cellR r p.1)
      else match castCell p.2 (cellR r p.1) with
        | some cell => .ok (p.1, cell)
        | none => Except.error (MergeErr.castFail p.1)) sch
  let ra ← mapME (castRow a) a.rows
  let rb ← mapME (castRow b) b.rows
  pure ⟨sch, ra ++ rb⟩

/-- `combo.group_by(pk).agg(...)`: one output row per distinct key cell
(nulls form a group of their own); for every non-key column the first
candidate of the group under `aggLe` (descending timestamp unless the
column prefers oldest).  The source's `elif c in preferir_reciente`
branch re-selects the default, so only the oldest-wins set matters. -/
def group_by_agg (combo : DF) (pk tsCol : String) (antiguo : List String)
    (todas : List String) : DF :=
  let keys := dedupF (combo.rows.map (fun r => cellR r pk))
  let aggCols := todas.filter (fun c => decide (c ≠ pk))
  ⟨(pk, (combo.dtypeOf pk).getD .null) ::
     aggCols.filterMap (fun c => (combo.dtypeOf c).map (fun t => (c, t))),
   keys.map (fun kc =>
     let grp := combo.rows.filter (fun r => decide (cellR r pk = kc))
     (pk, kc) :: aggCols.map (fun c =>
       (c, match (sortL (aggLe tsCol c (decide (c ∉ antiguo))) grp).head? with
           | some r => cellR r c
           | none => none)))⟩

/-- Timestamp-Arbitrated Merge (`upsert_odds`): unite the column sets, fail
only if the key (resp. timestamp) is absent from both sides, align both
frames, stack them diagonally, group by the key and pick every column
per `aggLe`, then validate canonically. -/
def upsert_odds (df_base df_delta : DF) (pk ts_col : String)
    (preferir_reciente preferir_antiguo : List String) : Except MergeErr DF := do
  let todas := dedupF (df_base.cols ++ df_delta.cols)
  if pk ∈ todas then
    if ts_col ∈ todas then
      let a := alinear df_base todas
      let b := alinear df_delta todas
      let combo ← concatDiagonal a b
      let resultado := group_by_agg combo pk ts_col preferir_antiguo todas
      ordenar_y_validar resultado head_to_head_schema true
    else Except.error (.missingTimestamp ts_col)
  else Except.error (.missingKey pk)

/-- The overlapping non-key columns of the two inputs (base order). -/
def overlapCols (base delta : DF) (key : String) : List String :=
  base.cols.filter (fun c => decide (c ∈ delta.cols ∧ c ≠ key))

/-- The base-only columns of the join-based merges (base order). -/
def boCols (base delta : DF) (key : String) : List String :=
  base.cols.filter (fun c => decide (c ∉ overlapCols base delta key))

/-- The delta-only columns of the join-based merges (delta order). -/
def dlCols (base delta : DF) (key : String) : List String :=
  delta.cols.filter (fun c => decide (c ∉ overlapCols base delta key ∧ c ≠ key))

/-- The output schema of `upsert_match` before validation. -/
def umSchema (base delta : DF) (key : String) : List (String × DType) :=
  (boCols base delta key ++ overlapCols base delta key ++ dlCols base delta key).filterMap
    (fun c => ((base.joinFull delta key "_upd" true).dtypeOf c).map (fun t => (c, t)))

/-- The pre-validation frame of `upsert_match` for dtype-aligned inputs
(the cast loop is the identity there): join, resolve the overlap with
`coalesce(delta, base)`, and lay out base-only, overlap, delta-only
columns in that order. -/
def umOut (base delta : DF) (key : String) : DF :=
  ⟨umSchema base delta key,
   (base.joinFull delta key "_upd" true).rows.map (fun r =>
     (umSchema base delta key).map (fun p =>
       (p.1, if p.1 ∈ overlapCols base delta key
             then cOr (cellR r (p.1 ++ "_upd")) (cellR r p.1)
             else cellR r p.1)))⟩

/-- The dropped (suffixed) columns of `upsert_bets`. -/
def buDrop (base delta : DF) (key : String) : List String :=
  ((overlapCols base delta key ++ boCols base delta key).filter
    (fun c => decide ((c ++ "_r") ∈ (base.joinFull delta key "_r" false).cols))).map
    (fun c => c ++ "_r")

/-- The kept columns of `upsert_bets` (join schema minus the drops). -/
def buKeep (base delta : DF) (key : String) : List (String × DType) :=
  (base.joinFull delta key "_r" false).schema.filter
    (fun p => decide (p.1 ∉ buDrop base delta key))

/-- The pre-validation frame of `upsert_bets` for dtype-aligned inputs:
non-coalescing join with suffix `_r`, numeric accumulation on the overlap,
`coalesce(left, right)` on each base-only column whose suffixed partner
exists in the join (the key), and the suffixed columns dropped. -/
def buOut (base delta : DF) (key : String) : DF :=
  ⟨buKeep base delta key,
   (base.joinFull delta key "_r" false).rows.map (fun r =>
     (buKeep base delta key).map (fun p =>
       (p.1,
        if p.1 ∈ overlapCols base delta key then
          some (padd ((cellR r p.1).getD (zeroOf p.2))
                     ((cellR r (p.1 ++ "_r")).getD (zeroOf p.2)))
        else if p.1 ∈ boCols base delta key ∧
            (p.1 ++ "_r") ∈ (base.joinFull delta key "_r" false).cols then
          cOr (cellR r p.1) (cellR r (p.1 ++ "_r"))
        else cellR r p.1)))⟩

/-- Key sanity from the data model (§3): every key cell non-null, key
values unique. -/
def keyUniq (df : DF) (key : String) : Prop :=
  (∀ r ∈ df.rows, (cellR r key).isSome = true) ∧
  (df.rows.map (fun r => cellR r key)).Nodup

/-- Side conditions under which the join-based merges are characterised:
well-formed rows, key present on both sides, unique non-null keys, no
column-name collisions in the join, and delta dtypes already aligned to
base's on the key and the overlap. -/
def mergeReady (base delta : DF) (key suffix : String) (coal : Bool) : Prop :=
  base.WF ∧ delta.WF ∧ key ∈ base.cols ∧ key ∈ delta.cols ∧
  keyUniq base key ∧ keyUniq delta key ∧
  (base.joinFull delta key suffix coal).cols.Nodup ∧ delta.cols.Nodup ∧
  (∀ c ∈ key :: overlapCols base delta key, delta.dtypeOf c = base.dtypeOf c)

/-- Side conditions for `upsert_odds`: well-formed rows and equal dtypes on
shared columns. -/
def oddsReady (a b : DF) : Prop :=
  a.WF ∧ b.WF ∧ (∀ c, c ∈ a.cols → c ∈ b.cols → a.dtypeOf c = b.dtypeOf c)

/-- No input column name is a suffixed version of a base column (real
schemas never end in the join suffix), so the drop list of `upsert_bets`
removes exactly the suffixed join columns. -/
def noSuffixClash (base delta : DF) (suffix : String) : Prop :=
  ∀ d ∈ base.cols, (d ++ suffix) ∉ base.cols ∧ (d ++ suffix) ∉ delta.cols

/-- The cell's value (if any) has the given dtype (only dtype-homogeneous
columns: real data never mixes). -/
def cellNum (t : DType) : Cell → Bool
  | none => true
  | some (.i _) => decide (t = .i64)
  | some (.f _) => decide (t = .f64)
  | some (.s _) => decide (t = .str)

/-- The recent-wins column set configured in `app.py`. -/
def preferir_reciente : List String :=
  ["BetType", "LastOddsId", "LastOdds1", "LastOdds2", "LastCom1", "LastCom2", "LastComx"]

/-- The oldest-wins column set configured in `app.py`. -/
def preferir_antiguo : List String :=
  ["FirstOddsId", "FirstOdds1", "FirstOdds2", "FirstCom1", "FirstCom2", "FirstComx"]

/-- The ok payload of a merge result (empty frame on error); names concrete
results of sample merges. -/
def getOk : Except MergeErr DF → DF
  | .ok df => df
  | .error _ => ⟨[], []⟩

/-- Cell values of the sample base row (match 7). -/
def wVal (c : String) (t : DType) : Cell :=
  if c = "MatchId" then some (.i 7)
  else if c = "TurnOver_SGD" then some (.f 100)
  else if c = "EventDate" then some (.s "a")
  else some (zeroOf t)

/-- A canonical one-row base table. -/
def wBase : DF :=
  ⟨head_to_head_schema, [head_to_head_schema.map (fun p => (p.1, wVal p.1 p.2))]⟩

/-- A bets delta: match 7 adds 50 turnover. -/
def wDeltaB : DF :=
  ⟨[("MatchId", .i64), ("TurnOver_SGD", .f64)],
   [[("MatchId", some (.i 7)), ("TurnOver_SGD", some (.f 50))]]⟩

/-- A second bets delta: match 7 adds 25 turnover. -/
def wDeltaB2 : DF :=
  ⟨[("MatchId", .i64), ("TurnOver_SGD", .f64)],
   [[("MatchId", some (.i 7)), ("TurnOver_SGD", some (.f 25))]]⟩

/-- A match delta: updated event date and final score for match 7. -/
def wDeltaM : DF :=
  ⟨[("MatchId", .i64), ("EventDate", .str), ("FinalHomeScore", .i64)],
   [[("MatchId", some (.i 7)), ("EventDate", some (.s "b")),
     ("FinalHomeScore", some (.i 2))]]⟩

/-- A bets delta overlapping the base on a text column. -/
def wDeltaS : DF :=
  ⟨[("MatchId", .i64), ("EventDate", .str)],
   [[("MatchId", some (.i 7)), ("EventDate", some (.s "b"))]]⟩

/-- Cell values of the sample odds base row (match 1, timestamp t1). -/
def wOddsVal (c : String) (t : DType) : Cell :=
  if c = "MatchId" then some (.i 1)
  else if c = "ModifiedOn" then some (.s "t1")
  else if c = "FirstOdds1" then some (.f (3/2))
  else if c = "LastOdds1" then some (.f (3/2))
  else some (zeroOf t)

/-- A canonical one-row odds base table. -/
def wOddsBase : DF :=
  ⟨head_to_head_schema, [head_to_head_schema.map (fun p => (p.1, wOddsVal p.1 p.2))]⟩

/-- An odds delta: match 1 at the later timestamp t2 with new quotes. -/
def wOddsDelta : DF :=
  ⟨[("MatchId", .i64), ("ModifiedOn", .str), ("FirstOdds1", .f64), ("LastOdds1", .f64)],
   [[("MatchId", some (.i 1)), ("ModifiedOn", some (.s "t2")),
     ("FirstOdds1", some (.f (9/5))), ("LastOdds1", some (.f (9/5)))]]⟩

/-- An odds delta lacking the key column. -/
def wOddsDeltaNoKey : DF :=
  ⟨[("ModifiedOn", .str)], [[("ModifiedOn", some (.s "t2"))]]⟩

/-- A bets delta carrying an Int64 accumulator: match 7 adds 5 home goals. -/
def wDeltaI : DF :=
  ⟨[("MatchId", .i64), ("FinalHomeScore", .i64)],
   [[("MatchId", some (.i 7)), ("FinalHomeScore", some (.i 5))]]⟩

/-- A second Int64 bets delta: match 7 adds 3 home goals. -/
def wDeltaI2 : DF :=
  ⟨[("MatchId", .i64), ("FinalHomeScore", .i64)],
   [[("MatchId", some (.i 7)), ("FinalHomeScore", some (.i 3))]]⟩

/-- Cell values of a base row whose turnover sits at the edge of Float64
precision (2^53). -/
def fVal (c : String) (t : DType) : Cell :=
  if c = "MatchId" then some (.i 7)
  else if c = "TurnOver_SGD" then some (.f (2 ^ 53))
  else some (zeroOf t)

/-- A canonical one-row base table with turnover 2^53. -/
def fBase : DF :=
  ⟨head_to_head_schema, [head_to_head_schema.map (fun p => (p.1, fVal p.1 p.2))]⟩

/-- A bets delta adding turnover 1 (absorbed next to 2^53 by rounding). -/
def fD1 : DF :=
  ⟨[("MatchId", .i64), ("TurnOver_SGD", .f64)],
   [[("MatchId", some (.i 7)), ("TurnOver_SGD", some (.f 1))]]⟩

/-- A bets delta cancelling the 2^53 turnover. -/
def fD2 : DF :=
  ⟨[("MatchId", .i64), ("TurnOver_SGD", .f64)],
   [[("MatchId", some (.i 7)), ("TurnOver_SGD", some (.f (-(2 ^ 53))))]]⟩

instance (df : DF) : Decidable df.WF :=
  inferInstanceAs (Decidable (∀ r ∈ df.rows, r.map Prod.fst = df.cols))

instance (df : DF) (key : String) : Decidable (keyUniq df key) :=
  inferInstanceAs (Decidable ((∀ r ∈ df.rows, (cellR r key).isSome = true) ∧
    (df.rows.map (fun r => cellR r key)).Nodup))

instance (base delta : DF) (key suffix : String) (coal : Bool) :
    Decidable (mergeReady base delta key suffix coal) :=
  inferInstanceAs (Decidable (base.WF ∧ delta.WF ∧ key ∈ base.cols ∧ key ∈ delta.cols ∧
    keyUniq base key ∧ keyUniq delta key ∧
    (base.joinFull delta key suffix coal).cols.Nodup ∧ delta.cols.Nodup ∧
    (∀ c ∈ key :: overlapCols base delta key, delta.dtypeOf c = base.dtypeOf c)))

instance (a b : DF) : Decidable (oddsReady a b) :=
  inferInstanceAs (Decidable (a.WF ∧ b.WF ∧
    (∀ c, c ∈ a.cols → c ∈ b.cols → a.dtypeOf c = b.dtypeOf c)))

instance (base delta : DF) (suffix : String) : Decidable (noSuffixClash base delta suffix) :=
  inferInstanceAs (Decidable
    (∀ d ∈ base.cols, (d ++ suffix) ∉ base.cols ∧ (d ++ suffix) ∉ delta.cols))

end HeadToHead

namespace HeadToHead

/-! ### Generic lemmas about the list primitives of the embedding -/

theorem lookupL_append {α : Type} (c : String) (l₁ l₂ : List (String × α)) :
    lookupL c (l₁ ++ l₂) =
      match lookupL c l₁ with
      | some v => some v
      | none => lookupL c l₂ := by
  induction l₁ with
  | nil => simp [lookupL]
  | cons p l ih =>
    simp only [List.cons_append, lookupL]
    split <;> simp [ih]

theorem lookupL_eq_none_of_not_mem {α : Type} (c : String) (l : List (String × α))
    (h : c ∉ l.map Prod.fst) : lookupL c l = none := by
  induction l with
  | nil => rfl
  | cons p l ih =>
    simp only [List.map_cons, List.mem_cons] at h
    push_neg at h
    simp only [lookupL, if_neg h.1]
    exact ih h.2

theorem lookupL_isSome_iff {α : Type} (c : String) (l : List (String × α)) :
    (lookupL c l).isSome = true ↔ c ∈ l.map Prod.fst := by
  induction l with
  | nil => simp [lookupL]
  | cons p l ih =>
    simp only [lookupL, List.map_cons, List.mem_cons]
    split
    · simp [*]
    · simp only [ih]
      constructor
      · exact Or.inr
      · rintro (h | h)
        · exact absurd h (by assumption)
        · exact h

theorem lookupL_map_of_nodup {α β : Type} (l : List α) (g : α → String) (F : α → β) (a : α)
    (hnd : (l.map g).Nodup) (ha : a ∈ l) :
    lookupL (g a) (l.map (fun x => (g x, F x))) = some (F a) := by
  induction l with
  | nil => cases ha
  | cons b l ih =>
    simp only [List.map_cons, List.nodup_cons] at hnd
    simp only [List.map_cons, lookupL]
    rcases List.mem_cons.mp ha with rfl | ha'
    · simp
    · have hne : g a ≠ g b := by
        intro h
        exact hnd.1 (h ▸ List.mem_map_of_mem g ha')
      rw [if_neg hne]
      exact ih hnd.2 ha'

theorem lookupL_map_eq_none {α β : Type} (c : String) (l : List α) (g : α → String) (F : α → β)
    (h : c ∉ l.map g) : lookupL c (l.map (fun x => (g x, F x))) = none := by
  apply lookupL_eq_none_of_not_mem
  simpa using h

theorem lookupL_proj {α : Type} (c : String) (ns : List String) (src : List (String × α)) :
    lookupL c (ns.filterMap (fun x => (lookupL x src).map (fun v => (x, v)))) =
      if c ∈ ns then lookupL c src else none := by
  induction ns with
  | nil => simp [lookupL]
  | cons n ns ih =>
    simp only [List.filterMap_cons]
    cases hn : lookupL n src with
    | none =>
      simp only [Option.map_none']
      rw [ih]
      by_cases hc : c = n
      · subst hc
        simp [hn]
      · simp [List.mem_cons, hc]
    | some v =>
      simp only [Option.map_some']
      by_cases hc : c = n
      · subst hc
        simp [lookupL, hn]
      · simp only [lookupL, if_neg hc]
        rw [ih]
        simp [List.mem_cons, hc]

theorem findq_append {α : Type} (p : α → Bool) (l₁ l₂ : List α) :
    (l₁ ++ l₂).find? p =
      match l₁.find? p with
      | some a => some a
      | none => l₂.find? p := by
  induction l₁ with
  | nil => simp
  | cons a l ih =>
    by_cases h : p a = true
    · simp [List.find?_cons_of_pos _ h]
    · simp only [List.cons_append]
      rw [List.find?_cons_of_neg _ (by simpa using h),
        List.find?_cons_of_neg _ (by simpa using h)]
      exact ih

theorem findq_map {α β : Type} (p : β → Bool) (f : α → β) (l : List α) :
    (l.map f).find? p = (l.find? (fun a => p (f a))).map f := by
  induction l with
  | nil => simp
  | cons a l ih =>
    by_cases h : p (f a) <;> simp [List.find?_cons, h, ih]

theorem findq_congr {α : Type} (p q : α → Bool) (l : List α)
    (h : ∀ a ∈ l, p a = q a) : l.find? p = l.find? q := by
  induction l with
  | nil => rfl
  | cons a l ih =>
    have ha := h a (List.mem_cons_self a l)
    by_cases hp : p a = true
    · rw [List.find?_cons_of_pos _ hp, List.find?_cons_of_pos _ (ha ▸ hp)]
    · rw [List.find?_cons_of_neg _ hp, List.find?_cons_of_neg _ (ha ▸ hp)]
      exact ih (fun a h' => h a (List.mem_cons_of_mem _ h'))

theorem findq_filter {α : Type} (p q : α → Bool) (l : List α) :
    (l.filter q).find? p = l.find? (fun a => q a && p a) := by
  induction l with
  | nil => simp
  | cons a l ih =>
    by_cases hq : q a
    · by_cases hp : p a <;>
        simp [List.filter_cons, hq, List.find?_cons, hp, ih]
    · simp [List.filter_cons, hq, List.find?_cons, ih]

theorem filterD_eq_nil {α : Type} (p : α → Bool) (l : List α)
    (h : ∀ a ∈ l, p a = false) : l.filter p = [] := by
  induction l with
  | nil => rfl
  | cons a l ih =>
    simp [List.filter_cons, h a (List.mem_cons_self a l),
      ih (fun a h' => h a (List.mem_cons_of_mem _ h'))]

theorem filterD_nil_iff {α : Type} (p : α → Bool) (l : List α) :
    l.filter p = [] ↔ ∀ a ∈ l, p a = false := by
  constructor
  · intro h a ha
    by_contra hp
    have : a ∈ l.filter p := List.mem_filter.mpr ⟨ha, by simpa using hp⟩
    simp [h] at this
  · exact filterD_eq_nil p l

theorem concatMap_eq_map {α β : Type} (f : α → List β) (g : α → β) (l : List α)
    (h : ∀ a ∈ l, f a = [g a]) : concatMap f l = l.map g := by
  induction l with
  | nil => rfl
  | cons a l ih =>
    simp only [concatMap, List.map_cons, h a (List.mem_cons_self a l)]
    rw [ih (fun a h' => h a (List.mem_cons_of_mem _ h'))]
    rfl

theorem mem_concatMap {α β : Type} (f : α → List β) (l : List α) (b : β) :
    b ∈ concatMap f l ↔ ∃ a ∈ l, b ∈ f a := by
  induction l with
  | nil => simp [concatMap]
  | cons a l ih => simp [concatMap, ih]

theorem filter_singleton_of_nodup {α β : Type} [DecidableEq β] (f : α → β) (v : β) (l : List α)
    (hnd : (l.map f).Nodup) :
    l.filter (fun a => decide (f a = v)) =
      match l.find? (fun a => decide (f a = v)) with
      | some a => [a]
      | none => [] := by
  induction l with
  | nil => simp
  | cons a l ih =>
    simp only [List.map_cons, List.nodup_cons] at hnd
    by_cases h : f a = v
    · have : l.filter (fun a => decide (f a = v)) = [] := by
        apply filterD_eq_nil
        intro b hb
        simp only [decide_eq_false_iff_not]
        intro hbv
        exact hnd.1 (h ▸ hbv ▸ List.mem_map_of_mem f hb)
      rw [List.filter_cons_of_pos (by simpa using h),
        List.find?_cons_of_pos _ (by simpa using h), this]
    · rw [List.filter_cons_of_neg (by simpa using h),
        List.find?_cons_of_neg _ (by simpa using h)]
      exact ih hnd.2

theorem rowProj_eq_map (ns : List String) (r : Row)
    (h : ∀ c ∈ ns, (lookupL c r).isSome = true) :
    rowProj ns r = ns.map (fun c => (c, cellR r c)) := by
  induction ns with
  | nil => rfl
  | cons n ns ih =>
    have hn := h n (List.mem_cons_self n ns)
    rw [Option.isSome_iff_exists] at hn
    obtain ⟨v, hv⟩ := hn
    simp only [rowProj, List.filterMap_cons, hv, Option.map_some', List.map_cons]
    rw [← rowProj, ih (fun c hc => h c (List.mem_cons_of_mem _ hc))]
    simp [cellR, hv]

theorem cellR_proj (c : String) (ns : List String) (r : Row) :
    cellR (rowProj ns r) c = if c ∈ ns then cellR r c else none := by
  unfold cellR rowProj
  rw [lookupL_proj]
  by_cases h : c ∈ ns
  · simp [h]
  · simp [h]

theorem cellR_append_left (c : String) (r₁ r₂ : Row) (h : c ∈ r₁.map Prod.fst) :
    cellR (r₁ ++ r₂) c = cellR r₁ c := by
  unfold cellR
  rw [lookupL_append]
  cases hl : lookupL c r₁ with
  | none =>
    rw [← lookupL_isSome_iff] at h
    simp [hl] at h
  | some v => rfl

theorem cellR_append_right (c : String) (r₁ r₂ : Row) (h : c ∉ r₁.map Prod.fst) :
    cellR (r₁ ++ r₂) c = cellR r₂ c := by
  unfold cellR
  rw [lookupL_append, lookupL_eq_none_of_not_mem c r₁ h]

theorem cellR_map_of_nodup {α : Type} (l : List α) (g : α → String) (F : α → Cell) (a : α)
    (hnd : (l.map g).Nodup) (ha : a ∈ l) :
    cellR (l.map (fun x => (g x, F x))) (g a) = F a := by
  unfold cellR
  rw [lookupL_map_of_nodup l g F a hnd ha]

theorem cellR_map_eq_none {α : Type} (c : String) (l : List α) (g : α → String) (F : α → Cell)
    (h : c ∉ l.map g) : cellR (l.map (fun x => (g x, F x))) c = none := by
  unfold cellR
  rw [lookupL_map_eq_none c l g F h]

end HeadToHead

namespace HeadToHead

/-! ### Select and validator lemmas -/

theorem filterD_congr {α : Type} (p q : α → Bool) (l : List α)
    (h : ∀ a ∈ l, p a = q a) : l.filter p = l.filter q := by
  induction l with
  | nil => rfl
  | cons a l ih =>
    have ha := h a (List.mem_cons_self a l)
    have ih' := ih (fun a h' => h a (List.mem_cons_of_mem _ h'))
    by_cases hp : p a = true
    · rw [List.filter_cons_of_pos hp, List.filter_cons_of_pos (ha ▸ hp), ih']
    · rw [List.filter_cons_of_neg hp, List.filter_cons_of_neg (ha ▸ hp), ih']

theorem dtypeOf_isSome_iff (df : DF) (c : String) :
    (df.dtypeOf c).isSome = true ↔ c ∈ df.cols :=
  lookupL_isSome_iff c df.schema

theorem rowProj_names (ns : List String) (r : Row) :
    (rowProj ns r).map Prod.fst = ns.filter (fun c => (lookupL c r).isSome) := by
  induction ns with
  | nil => rfl
  | cons n ns ih =>
    cases hn : lookupL n r with
    | none => simp [rowProj, List.filterMap_cons, hn, List.filter_cons, ← ih, rowProj]
    | some v => simp [rowProj, List.filterMap_cons, hn, List.filter_cons, ← ih, rowProj]

theorem select_cols_general (df : DF) (ns : List String) :
    (df.select ns).cols = ns.filter (fun c => (lookupL c df.schema).isSome) := by
  unfold DF.select DF.cols
  induction ns with
  | nil => rfl
  | cons n ns ih =>
    cases hn : lookupL n df.schema with
    | none => simpa [List.filterMap_cons, hn, List.filter_cons] using ih
    | some t => simpa [List.filterMap_cons, hn, List.filter_cons] using ih

theorem select_cols (df : DF) (ns : List String) (h : ∀ c ∈ ns, c ∈ df.cols) :
    (df.select ns).cols = ns := by
  rw [select_cols_general]
  have hall : ∀ c ∈ ns, (fun c => (lookupL c df.schema).isSome) c = (fun _ => true) c := by
    intro c hc
    exact (lookupL_isSome_iff c df.schema).mpr (h c hc)
  rw [filterD_congr _ _ _ hall, List.filter_true]

theorem dtypeOf_select (df : DF) (ns : List String) (c : String) :
    (df.select ns).dtypeOf c = if c ∈ ns then df.dtypeOf c else none :=
  lookupL_proj c ns df.schema

theorem select_WF (df : DF) (ns : List String) (hwf : df.WF) : (df.select ns).WF := by
  intro r hr
  simp only [DF.select, List.mem_map] at hr
  obtain ⟨r₀, hr₀, rfl⟩ := hr
  rw [rowProj_names, select_cols_general]
  apply filterD_congr
  intro c hc
  have hnames : r₀.map Prod.fst = df.cols := hwf r₀ hr₀
  by_cases h : c ∈ df.cols
  · rw [(lookupL_isSome_iff c r₀).mpr (hnames ▸ h),
      (lookupL_isSome_iff c df.schema).mpr h]
  · rw [Bool.eq_iff_iff, lookupL_isSome_iff, lookupL_isSome_iff, hnames]
    exact Iff.rfl

/-- Successful validation: all schema columns present with the declared
dtypes, and the output is the canonical-first reordering `select`. -/
theorem validar_ok {df out : DF} {esq : List (String × DType)} {pe : Bool}
    (h : ordenar_y_validar df esq pe = .ok out) :
    (∀ c ∈ esq.map Prod.fst, c ∈ df.cols) ∧
    (∀ c ∈ esq.map Prod.fst, df.dtypeOf c = lookupL c esq) ∧
    out = df.select (esq.map Prod.fst ++
      df.cols.filter (fun c => decide (c ∉ esq.map Prod.fst))) := by
  unfold ordenar_y_validar at h
  dsimp only at h
  split_ifs at h with h1 h2 h3
  push_neg at h1 h2
  refine ⟨?_, ?_, (Except.ok.inj h).symm⟩
  · intro c hc
    have := (filterD_nil_iff _ _).mp h1 c hc
    simpa using this
  · intro c hc
    have := (filterD_nil_iff _ _).mp h2 c hc
    simpa using this

theorem validar_mem_ns {df : DF} {esq : List (String × DType)}
    (hcov : ∀ c ∈ esq.map Prod.fst, c ∈ df.cols) :
    ∀ c, c ∈ df.cols ∨ c ∈ esq.map Prod.fst →
      c ∈ esq.map Prod.fst ++ df.cols.filter (fun c => decide (c ∉ esq.map Prod.fst)) := by
  intro c hc
  rcases hc with hc | hc
  · by_cases h : c ∈ esq.map Prod.fst
    · exact List.mem_append_left _ h
    · exact List.mem_append_right _ (List.mem_filter.mpr ⟨hc, by simpa using h⟩)
  · exact List.mem_append_left _ hc

/-- Validation only reorders columns: every per-key lookup is preserved. -/
theorem validar_valAt {df out : DF} {esq : List (String × DType)} {pe : Bool}
    (h : ordenar_y_validar df esq pe = .ok out) (key : String)
    (hkey : key ∈ df.cols ∨ key ∈ esq.map Prod.fst) (k : PVal) :
    (out.hasKey key k ↔ df.hasKey key k) ∧
    (∀ c, c ∈ df.cols ∨ c ∈ esq.map Prod.fst →
      out.valAt key k c = df.valAt key k c) := by
  obtain ⟨hcov, _, hout⟩ := validar_ok h
  set ns := esq.map Prod.fst ++ df.cols.filter (fun c => decide (c ∉ esq.map Prod.fst)) with hns
  have hkey' : key ∈ ns := validar_mem_ns hcov key hkey
  have hrowAt : out.rowAt key k = (df.rowAt key k).map (rowProj ns) := by
    rw [hout]
    unfold DF.rowAt DF.select
    simp only
    rw [findq_map]
    rw [findq_congr _ (fun r => decide (cellR r key = some k))]
    intro r _
    rw [cellR_proj, if_pos hkey']
  constructor
  · unfold DF.hasKey
    rw [hrowAt]
    cases df.rowAt key k <;> simp
  · intro c hc
    have hc' : c ∈ ns := validar_mem_ns hcov c hc
    unfold DF.valAt
    rw [hrowAt]
    cases df.rowAt key k with
    | none => rfl
    | some r =>
      simp only [Option.map_some']
      rw [cellR_proj, if_pos hc']

theorem validar_WF {df out : DF} {esq : List (String × DType)} {pe : Bool}
    (h : ordenar_y_validar df esq pe = .ok out) (hwf : df.WF) : out.WF := by
  obtain ⟨_, _, hout⟩ := validar_ok h
  rw [hout]
  exact select_WF _ _ hwf

theorem selfFilterMap_eq (esq : List (String × DType)) (hnd : (esq.map Prod.fst).Nodup) :
    (esq.map Prod.fst).filterMap (fun c => (lookupL c esq).map (fun t => (c, t))) = esq := by
  induction esq with
  | nil => rfl
  | cons p rest ih =>
    obtain ⟨c, t⟩ := p
    simp only [List.map_cons, List.nodup_cons] at hnd
    have hhead : lookupL c ((c, t) :: rest) = some t := by
      simp [lookupL]
    rw [List.map_cons, List.filterMap_cons, hhead, Option.map_some']
    dsimp only
    congr 1
    have hstep : ∀ c' ∈ List.map Prod.fst rest,
        (lookupL c' ((c, t) :: rest)).map (fun t' => (c', t')) =
        (lookupL c' rest).map (fun t' => (c', t')) := by
      intro c' hc'
      have hne : c' ≠ c := fun h => hnd.1 (h ▸ hc')
      rw [show lookupL c' ((c, t) :: rest) = lookupL c' rest by
        simp [lookupL, if_neg hne]]
    rw [List.filterMap_congr hstep]
    exact ih hnd.2

/-- When the input's columns are a subset of the schema's, successful
validation returns the canonical schema itself. -/
theorem validar_schema_canonical {df out : DF} {esq : List (String × DType)} {pe : Bool}
    (h : ordenar_y_validar df esq pe = .ok out)
    (hnd : (esq.map Prod.fst).Nodup)
    (hsub : ∀ c ∈ df.cols, c ∈ esq.map Prod.fst) :
    out.schema = esq ∧ out.rows = df.rows.map (rowProj (esq.map Prod.fst)) := by
  obtain ⟨hcov, htype, hout⟩ := validar_ok h
  have hext : df.cols.filter (fun c => decide (c ∉ esq.map Prod.fst)) = [] := by
    apply filterD_eq_nil
    intro c hc
    simpa using hsub c hc
  rw [hext, List.append_nil] at hout
  constructor
  · rw [hout]
    show (esq.map Prod.fst).filterMap (fun c => (lookupL c df.schema).map (fun t => (c, t))) = esq
    have hstep : ∀ c ∈ esq.map Prod.fst,
        (lookupL c df.schema).map (fun t => (c, t)) =
        (lookupL c esq).map (fun t => (c, t)) := by
      intro c hc
      rw [show lookupL c df.schema = df.dtypeOf c from rfl, htype c hc]
    rw [List.filterMap_congr hstep]
    exact selfFilterMap_eq esq hnd
  · rw [hout]
    rfl

end HeadToHead

namespace HeadToHead

/-! ### Join lemmas -/

theorem matchKeyB_eq (key : String) (rb : Row) (kb : PVal) (hkb : cellR rb key = some kb)
    (rd : Row) : matchKeyB key rb rd = decide (cellR rd key = some kb) := by
  unfold matchKeyB
  rw [hkb]
  cases h : cellR rd key with
  | none => simp
  | some b =>
    by_cases hb : kb = b
    · subst hb
      simp
    · simp [hb, Ne.symm hb]

theorem rowAt_mem {df : DF} {key : String} {k : PVal} {r : Row}
    (h : df.rowAt key k = some r) : r ∈ df.rows ∧ cellR r key = some k :=
  ⟨List.mem_of_find?_eq_some h, by simpa using List.find?_some h⟩

theorem findq_key_unique {α β : Type} [DecidableEq β] (f : α → β) (v : β) (l : List α) (a : α)
    (hnd : (l.map f).Nodup) (ha : a ∈ l) (hv : f a = v) :
    l.find? (fun x => decide (f x = v)) = some a := by
  induction l with
  | nil => cases ha
  | cons b t ih =>
    simp only [List.map_cons, List.nodup_cons] at hnd
    by_cases hb : f b = v
    · rw [List.find?_cons_of_pos _ (by simpa using hb)]
      rcases List.mem_cons.mp ha with rfl | hat
      · rfl
      · have : f b ∈ List.map f t := by
          rw [hb, ← hv]
          exact List.mem_map_of_mem f hat
        exact absurd this hnd.1
    · rw [List.find?_cons_of_neg _ (by simpa using hb)]
      rcases List.mem_cons.mp ha with rfl | hat
      · exact absurd hv hb
      · exact ih hnd.2 hat

theorem rowAt_eq_some_of_mem {df : DF} {key : String} {k : PVal} {r : Row}
    (hnd : (df.rows.map (fun r => cellR r key)).Nodup)
    (hr : r ∈ df.rows) (hk : cellR r key = some k) : df.rowAt key k = some r :=
  findq_key_unique (fun r => cellR r key) (some k) df.rows r hnd hr hk

theorem joinFull_cols (base delta : DF) (key suffix : String) (coal : Bool) :
    (base.joinFull delta key suffix coal).cols =
      base.cols ++ (dPairsD delta key coal).map (fun p => renN base suffix p.1) := by
  show (base.schema ++ _).map Prod.fst = _
  rw [List.map_append, List.map_map]
  rfl

theorem joinFull_nodup_parts {base delta : DF} {key suffix : String} {coal : Bool}
    (hjnd : (base.joinFull delta key suffix coal).cols.Nodup) :
    base.cols.Nodup ∧
    ((dPairsD delta key coal).map (fun p => renN base suffix p.1)).Nodup ∧
    (∀ c ∈ (dPairsD delta key coal).map (fun p => renN base suffix p.1), c ∉ base.cols) := by
  rw [joinFull_cols, List.nodup_append] at hjnd
  exact ⟨hjnd.1, hjnd.2.1, fun c hc hcb => hjnd.2.2 hcb hc⟩

theorem joinFull_dtypeOf_base (base delta : DF) (key suffix : String) (coal : Bool)
    (c : String) (hc : c ∈ base.cols) :
    (base.joinFull delta key suffix coal).dtypeOf c = base.dtypeOf c := by
  show lookupL c (base.schema ++ _) = lookupL c base.schema
  rw [lookupL_append]
  cases hl : lookupL c base.schema with
  | some t => rfl
  | none =>
    have hs : (lookupL c base.schema).isSome = true :=
      (lookupL_isSome_iff c base.schema).mpr hc
    rw [hl] at hs
    cases hs

theorem joinFull_dtypeOf_ren (base delta : DF) (key suffix : String) (coal : Bool)
    (c : String) (t : DType) (hct : (c, t) ∈ dPairsD delta key coal)
    (hjnd : (base.joinFull delta key suffix coal).cols.Nodup) :
    (base.joinFull delta key suffix coal).dtypeOf (renN base suffix c) = some t := by
  obtain ⟨hnd1, hnd2, hdisj⟩ := joinFull_nodup_parts hjnd
  have hmem : renN base suffix c ∈
      (dPairsD delta key coal).map (fun p => renN base suffix p.1) := by
    exact List.mem_map_of_mem _ hct
  show lookupL _ (base.schema ++ _) = some t
  rw [lookupL_append, lookupL_eq_none_of_not_mem _ _ (hdisj _ hmem)]
  exact lookupL_map_of_nodup (dPairsD delta key coal)
    (fun p => renN base suffix p.1) Prod.snd (c, t) hnd2 hct

theorem dPartD_names (base delta : DF) (key suffix : String) (coal : Bool) (rd : Row) :
    (dPartD base delta key suffix coal rd).map Prod.fst =
      (dPairsD delta key coal).map (fun p => renN base suffix p.1) := by
  unfold dPartD
  rw [List.map_map]
  rfl

theorem dNullD_names (base delta : DF) (key suffix : String) (coal : Bool) :
    (dNullD base delta key suffix coal).map Prod.fst =
      (dPairsD delta key coal).map (fun p => renN base suffix p.1) := by
  unfold dNullD
  rw [List.map_map]
  rfl

theorem bNullD_names (base : DF) (key : String) (coal : Bool) (rd : Row) :
    (bNullD base key coal rd).map Prod.fst = base.cols := by
  unfold bNullD DF.cols
  rw [List.map_map]
  rfl

theorem cellR_pre_base {base : DF} (rb x : Row) (c : String)
    (hnames : rb.map Prod.fst = base.cols) (hc : c ∈ base.cols) :
    cellR (rb ++ x) c = cellR rb c :=
  cellR_append_left c rb x (by rw [hnames]; exact hc)

theorem cellR_dPart {base delta : DF} {key suffix : String} {coal : Bool}
    (hjnd : (base.joinFull delta key suffix coal).cols.Nodup)
    (rd : Row) (c : String) (t : DType) (hct : (c, t) ∈ dPairsD delta key coal)
    (pre : Row) (hpre : pre.map Prod.fst = base.cols) :
    cellR (pre ++ dPartD base delta key suffix coal rd) (renN base suffix c) =
      cellR rd c := by
  obtain ⟨hnd1, hnd2, hdisj⟩ := joinFull_nodup_parts hjnd
  rw [cellR_append_right]
  · exact cellR_map_of_nodup (dPairsD delta key coal)
      (fun p => renN base suffix p.1) (fun p => cellR rd p.1) (c, t) hnd2 hct
  · rw [hpre]
    exact hdisj _ (List.mem_map_of_mem _ hct)

theorem cellR_dNull {base delta : DF} {key suffix : String} {coal : Bool}
    (hjnd : (base.joinFull delta key suffix coal).cols.Nodup)
    (c : String) (t : DType) (hct : (c, t) ∈ dPairsD delta key coal)
    (pre : Row) (hpre : pre.map Prod.fst = base.cols) :
    cellR (pre ++ dNullD base delta key suffix coal) (renN base suffix c) = none := by
  obtain ⟨hnd1, hnd2, hdisj⟩ := joinFull_nodup_parts hjnd
  rw [cellR_append_right]
  · exact cellR_map_of_nodup (dPairsD delta key coal)
      (fun p => renN base suffix p.1) (fun _ => (none : Cell)) (c, t) hnd2 hct
  · rw [hpre]
    exact hdisj _ (List.mem_map_of_mem _ hct)

theorem cellR_bNull {base : DF} {key : String} {coal : Bool}
    (hnd : base.cols.Nodup) (rd : Row) (c : String) (t : DType)
    (hct : (c, t) ∈ base.schema) (x : Row) :
    cellR (bNullD base key coal rd ++ x) c =
      if coal = true ∧ c = key then cellR rd key else none := by
  rw [cellR_append_left c _ x (by rw [bNullD_names]; exact List.mem_map_of_mem _ hct)]
  exact cellR_map_of_nodup base.schema Prod.fst
    (fun p => if coal = true ∧ p.1 = key then cellR rd key else none) (c, t) hnd hct

theorem mem_schema_of_mem_cols {df : DF} {c : String} (hc : c ∈ df.cols) :
    ∃ t, (c, t) ∈ df.schema := by
  unfold DF.cols at hc
  obtain ⟨p, hp, he⟩ := List.mem_map.mp hc
  exact ⟨p.2, he ▸ hp⟩

/-- Under unique non-null keys, the cross-product join rows collapse to one
output row per left row plus the unmatched right rows. -/
theorem joinFull_rows (base delta : DF) (key suffix : String) (coal : Bool)
    (hud : (delta.rows.map (fun r => cellR r key)).Nodup)
    (hub : ∀ r ∈ base.rows, (cellR r key).isSome = true) :
    (base.joinFull delta key suffix coal).rows =
      base.rows.map (fun rb =>
        rb ++ match delta.rows.find? (fun rd => matchKeyB key rb rd) with
              | some rd => dPartD base delta key suffix coal rd
              | none => dNullD base delta key suffix coal)
      ++ (delta.rows.filter
          (fun rd => !(base.rows.any (fun rb => matchKeyB key rb rd)))).map
          (fun rd => bNullD base key coal rd ++ dPartD base delta key suffix coal rd) := by
  show concatMap _ base.rows ++ _ = _
  congr 1
  apply concatMap_eq_map
  intro rb hrb
  obtain ⟨kb, hkb⟩ := Option.isSome_iff_exists.mp (hub rb hrb)
  have hpred : ∀ rd ∈ delta.rows,
      (fun rd => matchKeyB key rb rd) rd = (fun rd => decide (cellR rd key = some kb)) rd := by
    intro rd _
    exact matchKeyB_eq key rb kb hkb rd
  rw [filterD_congr _ _ _ hpred, findq_congr _ _ _ hpred,
    filter_singleton_of_nodup (fun r => cellR r key) (some kb) delta.rows hud]
  cases delta.rows.find? (fun rd => decide (cellR rd key = some kb)) with
  | none => rfl
  | some rd => rfl

end HeadToHead

namespace HeadToHead

/-- The per-key content of the full outer join: a key found in both sides
yields the matched pair, a key found on one side yields that row padded
with nulls, and an absent key yields no row.  The key of a joined row is
read through `coalesce(key, key_suffix)`, which is the key itself for a
coalescing join and repairs the null left key of right-only rows in a
non-coalescing join. -/
theorem joinFull_find (base delta : DF) (key suffix : String) (coal : Bool)
    (hWb : base.WF) (hWd : delta.WF)
    (hkb : key ∈ base.cols) (hkd : key ∈ delta.cols)
    (hub : keyUniq base key) (hud : keyUniq delta key)
    (hjnd : (base.joinFull delta key suffix coal).cols.Nodup)
    (k : PVal) :
    (base.joinFull delta key suffix coal).rows.find?
        (fun r => decide (cOr (cellR r key) (cellR r (key ++ suffix)) = some k)) =
      match base.rowAt key k, delta.rowAt key k with
      | some rb, some rd => some (rb ++ dPartD base delta key suffix coal rd)
      | some rb, none => some (rb ++ dNullD base delta key suffix coal)
      | none, some rd =>
          some (bNullD base key coal rd ++ dPartD base delta key suffix coal rd)
      | none, none => none := by
  obtain ⟨hnd1, hnd2, hdisj⟩ := joinFull_nodup_parts hjnd
  rw [joinFull_rows base delta key suffix coal hud.2 hub.1, findq_append, findq_map]
  have hG : ∀ rb ∈ base.rows,
      (fun rb => decide (cOr
        (cellR (rb ++ match delta.rows.find? (fun rd => matchKeyB key rb rd) with
              | some rd => dPartD base delta key suffix coal rd
              | none => dNullD base delta key suffix coal) key)
        (cellR (rb ++ match delta.rows.find? (fun rd => matchKeyB key rb rd) with
              | some rd => dPartD base delta key suffix coal rd
              | none => dNullD base delta key suffix coal) (key ++ suffix)) = some k)) rb =
      (fun rb => decide (cellR rb key = some k)) rb := by
    intro rb hrb
    have hnames := hWb rb hrb
    obtain ⟨kb, hkbv⟩ := Option.isSome_iff_exists.mp (hub.1 rb hrb)
    simp only [cellR_pre_base rb _ key hnames hkb, hkbv, cOr]
  rw [findq_congr _ _ _ hG]
  cases hba : base.rowAt key k with
  | some rb =>
    obtain ⟨hrbm, hrbk⟩ := rowAt_mem hba
    have : base.rows.find? (fun rb => decide (cellR rb key = some k)) = some rb := hba
    rw [this]
    simp only [Option.map_some']
    have hfd : delta.rows.find? (fun rd => matchKeyB key rb rd) = delta.rowAt key k := by
      apply findq_congr
      intro rd _
      exact matchKeyB_eq key rb k hrbk rd
    rw [hfd]
    cases delta.rowAt key k with
    | some rd => rfl
    | none => rfl
  | none =>
    have : base.rows.find? (fun rb => decide (cellR rb key = some k)) = none := hba
    rw [this]
    simp only [Option.map_none']
    rw [findq_map, findq_filter]
    obtain ⟨tk, htk⟩ := mem_schema_of_mem_cols hkb
    have hG2 : ∀ rd ∈ delta.rows,
        (fun rd => (!(base.rows.any (fun rb => matchKeyB key rb rd))) &&
          (fun r => decide (cOr (cellR r key) (cellR r (key ++ suffix)) = some k))
            ((fun rd => bNullD base key coal rd ++
              dPartD base delta key suffix coal rd) rd)) rd =
        (fun rd => decide (cellR rd key = some k)) rd := by
      intro rd hrd
      obtain ⟨kd, hkdv⟩ := Option.isSome_iff_exists.mp (hud.1 rd hrd)
      have hkcell : cOr (cellR (bNullD base key coal rd ++
          dPartD base delta key suffix coal rd) key)
          (cellR (bNullD base key coal rd ++
            dPartD base delta key suffix coal rd) (key ++ suffix)) = some kd := by
        rw [cellR_bNull hnd1 rd key tk htk]
        cases coal with
        | true =>
          rw [if_pos (And.intro rfl rfl), hkdv]
          rfl
        | false =>
          simp only [show ((false = true ∧ key = key) = False) by simp, if_neg id]
          obtain ⟨td, htd⟩ := mem_schema_of_mem_cols hkd
          have htdp : (key, td) ∈ dPairsD delta key false := by
            unfold dPairsD
            exact List.mem_filter.mpr ⟨htd, by simp⟩
          have hren : renN base suffix key = key ++ suffix := by
            unfold renN
            rw [if_pos hkb]
          have := cellR_dPart hjnd rd key td htdp
            (bNullD base key false rd) (bNullD_names base key false rd)
          rw [hren] at this
          rw [this, hkdv]
          rfl
      simp only [hkcell]
      by_cases hp : cellR rd key = some k
      · have hunm : (base.rows.any (fun rb => matchKeyB key rb rd)) = false := by
          rw [List.any_eq_false]
          intro rb hrb
          intro hmb
          unfold matchKeyB at hmb
          rcases hb' : cellR rb key with _ | a
          · rw [hb'] at hmb
            cases hmb
          · rw [hb', hp] at hmb
            have hak : a = k := by simpa using hmb
            have := List.find?_eq_none.mp hba rb hrb
            rw [hb', hak] at this
            simp at this
        rw [hunm]
        rw [hp] at hkdv ⊢
        have : kd = k := by
          cases hkdv
          rfl
        subst this
        simp
      · have h1 : (decide (cellR rd key = some k)) = false := by simpa using hp
        have h2 : (decide ((some kd : Cell) = some k)) = false := by
          rw [hkdv] at hp
          simpa using hp
        rw [h1, h2, Bool.and_false]
    rw [findq_congr _ _ _ hG2]
    change Option.map _ (delta.rowAt key k) = _
    cases delta.rowAt key k with
    | some rd => rfl
    | none => rfl

end HeadToHead

namespace HeadToHead

/-! ### Reduction of the upserts to their pre-validation frames -/

theorem castColsTo_aligned (delta base : DF) (cs : List String)
    (h : ∀ c ∈ cs, delta.dtypeOf c = base.dtypeOf c) :
    castColsTo delta base cs = .ok delta := by
  induction cs with
  | nil => rfl
  | cons c cs ih =>
    unfold castColsTo
    rw [if_pos (h c (List.mem_cons_self c cs))]
    exact ih (fun c' hc' => h c' (List.mem_cons_of_mem _ hc'))

theorem ensureKey_eq (base delta : DF) (key : String) (h : key ∈ base.cols) :
    ensureKey base delta key = base := by
  unfold ensureKey
  rw [if_pos h]

theorem upsert_match_reduce (base delta : DF) (key : String)
    (hkb : key ∈ base.cols) (hkd : key ∈ delta.cols)
    (hal : ∀ c ∈ key :: overlapCols base delta key, delta.dtypeOf c = base.dtypeOf c) :
    upsert_match base delta key =
      ordenar_y_validar (umOut base delta key) head_to_head_schema true := by
  unfold upsert_match
  rw [if_pos hkd, ensureKey_eq base delta key hkb]
  dsimp only
  have hal' : ∀ c ∈ key :: base.cols.filter
      (fun c => decide (c ∈ delta.cols ∧ c ≠ key)),
      delta.dtypeOf c = base.dtypeOf c := hal
  rw [castColsTo_aligned delta base _ hal']
  rfl

theorem upsert_bets_reduce (base delta : DF) (key : String)
    (hkb : key ∈ base.cols) (hkd : key ∈ delta.cols)
    (hal : ∀ c ∈ key :: overlapCols base delta key, delta.dtypeOf c = base.dtypeOf c) :
    upsert_bets base delta key =
      ordenar_y_validar (buOut base delta key) head_to_head_schema true := by
  unfold upsert_bets
  rw [if_pos hkd, ensureKey_eq base delta key hkb]
  dsimp only
  have hal' : ∀ c ∈ key :: base.cols.filter
      (fun c => decide (c ∈ delta.cols ∧ c ≠ key)),
      delta.dtypeOf c = base.dtypeOf c := hal
  rw [castColsTo_aligned delta base _ hal']
  rfl

end HeadToHead

namespace HeadToHead

/-! ### Characterisation of `upsert_match` -/

theorem filterMap_opt_names (ns : List String) (F : String → Option DType)
    (h : ∀ c ∈ ns, (F c).isSome = true) :
    (ns.filterMap (fun c => (F c).map (fun t => (c, t)))).map Prod.fst = ns := by
  induction ns with
  | nil => rfl
  | cons n ns ih =>
    obtain ⟨t, ht⟩ := Option.isSome_iff_exists.mp (h n (List.mem_cons_self n ns))
    simp only [List.filterMap_cons, ht, Option.map_some', List.map_cons]
    rw [ih (fun c hc => h c (List.mem_cons_of_mem _ hc))]

theorem mem_overlapCols {base delta : DF} {key c : String} :
    c ∈ overlapCols base delta key ↔ (c ∈ base.cols ∧ c ∈ delta.cols ∧ c ≠ key) := by
  unfold overlapCols
  rw [List.mem_filter, decide_eq_true_eq]

theorem mem_boCols {base delta : DF} {key c : String} :
    c ∈ boCols base delta key ↔ (c ∈ base.cols ∧ c ∉ overlapCols base delta key) := by
  unfold boCols
  rw [List.mem_filter, decide_eq_true_eq]

theorem mem_dlCols {base delta : DF} {key c : String} :
    c ∈ dlCols base delta key ↔
      (c ∈ delta.cols ∧ c ∉ overlapCols base delta key ∧ c ≠ key) := by
  unfold dlCols
  rw [List.mem_filter, decide_eq_true_eq]

theorem key_mem_boCols {base delta : DF} {key : String} (hkb : key ∈ base.cols) :
    key ∈ boCols base delta key :=
  mem_boCols.mpr ⟨hkb, fun ho => (mem_overlapCols.mp ho).2.2 rfl⟩

theorem mem_boCols_of_not_delta {base delta : DF} {key c : String}
    (hc : c ∈ base.cols) (hnd : c ∉ delta.cols) : c ∈ boCols base delta key :=
  mem_boCols.mpr ⟨hc, fun ho => hnd (mem_overlapCols.mp ho).2.1⟩

theorem mem_dlCols_of_not_base {base delta : DF} {key c : String}
    (hc : c ∈ delta.cols) (hnb : c ∉ base.cols) (hne : c ≠ key) :
    c ∈ dlCols base delta key :=
  mem_dlCols.mpr ⟨hc, fun ho => hnb (mem_overlapCols.mp ho).1, hne⟩

theorem dl_not_base {base delta : DF} {key c : String}
    (hc : c ∈ dlCols base delta key) : c ∉ base.cols := by
  intro hb
  obtain ⟨hd, hno, hne⟩ := mem_dlCols.mp hc
  exact hno (mem_overlapCols.mpr ⟨hb, hd, hne⟩)

theorem dPairs_of_dl {delta : DF} {key c : String} (coal : Bool)
    (hc : c ∈ delta.cols) (hne : c ≠ key) :
    ∃ t, (c, t) ∈ dPairsD delta key coal ∧ (c, t) ∈ delta.schema := by
  obtain ⟨t, ht⟩ := mem_schema_of_mem_cols hc
  refine ⟨t, List.mem_filter.mpr ⟨ht, ?_⟩, ht⟩
  simp [hne]

theorem renN_of_not_base {base : DF} {suffix c : String} (h : c ∉ base.cols) :
    renN base suffix c = c := by
  unfold renN
  rw [if_neg h]

theorem renN_of_base {base : DF} {suffix c : String} (h : c ∈ base.cols) :
    renN base suffix c = c ++ suffix := by
  unfold renN
  rw [if_pos h]

theorem um_dtype_isSome {base delta : DF} {key : String}
    (hkd : key ∈ delta.cols)
    (hjnd : (base.joinFull delta key "_upd" true).cols.Nodup) :
    ∀ c ∈ boCols base delta key ++ overlapCols base delta key ++ dlCols base delta key,
      (((base.joinFull delta key "_upd" true).dtypeOf c).isSome = true) := by
  intro c hc
  rcases List.mem_append.mp hc with hc1 | hc2
  · rcases List.mem_append.mp hc1 with hb | ho
    · have hcb : c ∈ base.cols := (mem_boCols.mp hb).1
      rw [joinFull_dtypeOf_base base delta key "_upd" true c hcb]
      exact (dtypeOf_isSome_iff base c).mpr hcb
    · have hcb : c ∈ base.cols := (mem_overlapCols.mp ho).1
      rw [joinFull_dtypeOf_base base delta key "_upd" true c hcb]
      exact (dtypeOf_isSome_iff base c).mpr hcb
  · obtain ⟨hcd, -, hne⟩ := mem_dlCols.mp hc2
    obtain ⟨t, htp, -⟩ := dPairs_of_dl true hcd hne
    have := joinFull_dtypeOf_ren base delta key "_upd" true c t htp hjnd
    rw [renN_of_not_base (dl_not_base hc2)] at this
    rw [this]
    rfl

theorem umOut_cols {base delta : DF} {key : String}
    (hkd : key ∈ delta.cols)
    (hjnd : (base.joinFull delta key "_upd" true).cols.Nodup) :
    (umOut base delta key).cols =
      boCols base delta key ++ overlapCols base delta key ++ dlCols base delta key := by
  show (umSchema base delta key).map Prod.fst = _
  exact filterMap_opt_names _ _ (um_dtype_isSome hkd hjnd)

theorem um_names_nodup {base delta : DF} {key : String}
    (hjnd : (base.joinFull delta key "_upd" true).cols.Nodup)
    (hdnd : delta.cols.Nodup) :
    (boCols base delta key ++ overlapCols base delta key ++ dlCols base delta key).Nodup := by
  obtain ⟨hnd1, -, -⟩ := joinFull_nodup_parts hjnd
  have hbo : (boCols base delta key).Nodup := hnd1.filter _
  have hov : (overlapCols base delta key).Nodup := hnd1.filter _
  have hdl : (dlCols base delta key).Nodup := hdnd.filter _
  rw [List.nodup_append]
  refine ⟨?_, hdl, ?_⟩
  · rw [List.nodup_append]
    refine ⟨hbo, hov, ?_⟩
    intro c hcb hco
    exact (mem_boCols.mp hcb).2 hco
  · intro c hc hcd
    have hcb : c ∈ base.cols := by
      rcases List.mem_append.mp hc with h | h
      · exact (mem_boCols.mp h).1
      · exact (mem_overlapCols.mp h).1
    exact dl_not_base hcd hcb

theorem mem_umSchema {base delta : DF} {key : String}
    (hkd : key ∈ delta.cols)
    (hjnd : (base.joinFull delta key "_upd" true).cols.Nodup) :
    ∀ c ∈ boCols base delta key ++ overlapCols base delta key ++ dlCols base delta key,
      ∃ t, (c, t) ∈ umSchema base delta key := by
  intro c hc
  obtain ⟨t, ht⟩ := Option.isSome_iff_exists.mp (um_dtype_isSome hkd hjnd c hc)
  refine ⟨t, List.mem_filterMap.mpr ⟨c, hc, ?_⟩⟩
  rw [ht]
  rfl

/-- Reading a cell of a built `umOut` row. -/
theorem umOut_cellH {base delta : DF} {key : String}
    (hkd : key ∈ delta.cols)
    (hjnd : (base.joinFull delta key "_upd" true).cols.Nodup)
    (hdnd : delta.cols.Nodup)
    (r : Row) (c : String)
    (hc : c ∈ boCols base delta key ++ overlapCols base delta key ++ dlCols base delta key) :
    cellR ((umSchema base delta key).map (fun p =>
      (p.1, if p.1 ∈ overlapCols base delta key
            then cOr (cellR r (p.1 ++ "_upd")) (cellR r p.1)
            else cellR r p.1))) c =
      (if c ∈ overlapCols base delta key
       then cOr (cellR r (c ++ "_upd")) (cellR r c)
       else cellR r c) := by
  obtain ⟨t, ht⟩ := mem_umSchema hkd hjnd c hc
  have hnd : ((umSchema base delta key).map Prod.fst).Nodup := by
    rw [show (umSchema base delta key).map Prod.fst = _ from
      filterMap_opt_names _ _ (um_dtype_isSome hkd hjnd)]
    exact um_names_nodup hjnd hdnd
  exact cellR_map_of_nodup (umSchema base delta key) Prod.fst
    (fun p => if p.1 ∈ overlapCols base delta key
              then cOr (cellR r (p.1 ++ "_upd")) (cellR r p.1)
              else cellR r p.1) (c, t) hnd ht

theorem joinFull_keys_isSome (base delta : DF) (key suffix : String)
    (hWb : base.WF) (hkb : key ∈ base.cols)
    (hub1 : ∀ r ∈ base.rows, (cellR r key).isSome = true)
    (hud1 : ∀ r ∈ delta.rows, (cellR r key).isSome = true)
    (hnd1 : base.cols.Nodup) :
    ∀ r ∈ (base.joinFull delta key suffix true).rows, (cellR r key).isSome = true := by
  intro r hr
  obtain ⟨tk, htk⟩ := mem_schema_of_mem_cols hkb
  rcases List.mem_append.mp hr with h1 | h2
  · obtain ⟨rb, hrb, hrf⟩ := (mem_concatMap _ _ _).mp h1
    have hkey : ∀ x, cellR (rb ++ x) key = cellR rb key :=
      fun x => cellR_pre_base rb x key (hWb rb hrb) hkb
    rcases hfil : delta.rows.filter (fun rd => matchKeyB key rb rd) with _ | ⟨rd0, ms'⟩
    · rw [hfil] at hrf
      simp only [List.mem_singleton] at hrf
      rw [hrf, hkey]
      exact hub1 rb hrb
    · rw [hfil] at hrf
      obtain ⟨rd, -, hre⟩ := List.mem_map.mp hrf
      rw [← hre, hkey]
      exact hub1 rb hrb
  · obtain ⟨rd, hrdf, hre⟩ := List.mem_map.mp h2
    have hrdm : rd ∈ delta.rows := List.mem_of_mem_filter hrdf
    rw [← hre, cellR_bNull hnd1 rd key tk htk, if_pos (And.intro rfl rfl)]
    exact hud1 rd hrdm

end HeadToHead

namespace HeadToHead

theorem findq_map_congr {α β : Type} (f : α → β) (p : β → Bool) (q : α → Bool) (l : List α)
    (h : ∀ a ∈ l, p (f a) = q a) : (l.map f).find? p = (l.find? q).map f := by
  rw [findq_map]
  exact congrArg (Option.map f) (findq_congr _ _ _ h)

/-- Per-key content of the pre-validation Replace-Merge frame: keys of both
sides survive; an overlapping column reads `coalesce(delta, base)`; one-sided
columns pass through; the key column carries the key. -/
theorem umOut_valAt (base delta : DF) (key : String)
    (hWb : base.WF) (hWd : delta.WF) (hkb : key ∈ base.cols) (hkd : key ∈ delta.cols)
    (hub : keyUniq base key) (hud : keyUniq delta key)
    (hjnd : (base.joinFull delta key "_upd" true).cols.Nodup)
    (hdnd : delta.cols.Nodup) (k : PVal) :
    ((umOut base delta key).hasKey key k ↔ (base.hasKey key k ∨ delta.hasKey key k)) ∧
    (∀ c ∈ overlapCols base delta key,
      (umOut base delta key).valAt key k c = cOr (delta.valAt key k c) (base.valAt key k c)) ∧
    (∀ c ∈ base.cols, c ∉ delta.cols →
      (umOut base delta key).valAt key k c = base.valAt key k c) ∧
    (∀ c ∈ delta.cols, c ∉ base.cols → c ≠ key →
      (umOut base delta key).valAt key k c = delta.valAt key k c) ∧
    ((umOut base delta key).valAt key k key =
      if base.hasKey key k ∨ delta.hasKey key k then some k else none) := by
  obtain ⟨hnd1, hnd2, hdisj⟩ := joinFull_nodup_parts hjnd
  obtain ⟨tk, htk⟩ := mem_schema_of_mem_cols hkb
  have hkeymem : key ∈ boCols base delta key ++ overlapCols base delta key ++
      dlCols base delta key :=
    List.mem_append_left _ (List.mem_append_left _ (key_mem_boCols hkb))
  have hknov : key ∉ overlapCols base delta key :=
    fun ho => (mem_overlapCols.mp ho).2.2 rfl
  have hrows : (umOut base delta key).rows =
      (base.joinFull delta key "_upd" true).rows.map
        (fun r => (umSchema base delta key).map (fun p =>
          (p.1, if p.1 ∈ overlapCols base delta key
                then cOr (cellR r (p.1 ++ "_upd")) (cellR r p.1)
                else cellR r p.1))) := rfl
  have hpred : ∀ r ∈ (base.joinFull delta key "_upd" true).rows,
      (fun r => decide (cellR r key = some k))
        ((umSchema base delta key).map (fun p =>
          (p.1, if p.1 ∈ overlapCols base delta key
                then cOr (cellR r (p.1 ++ "_upd")) (cellR r p.1)
                else cellR r p.1))) =
      (fun r => decide (cOr (cellR r key) (cellR r (key ++ "_upd")) = some k)) r := by
    intro r hr
    show decide _ = decide _
    rw [umOut_cellH hkd hjnd hdnd r key hkeymem, if_neg hknov]
    obtain ⟨v, hv⟩ := Option.isSome_iff_exists.mp
      (joinFull_keys_isSome base delta key "_upd" hWb hkb hub.1 hud.1 hnd1 r hr)
    rw [hv]
    rfl
  have hrowAt : (umOut base delta key).rowAt key k =
      Option.map
        (fun r => (umSchema base delta key).map (fun p =>
          (p.1, if p.1 ∈ overlapCols base delta key
                then cOr (cellR r (p.1 ++ "_upd")) (cellR r p.1)
                else cellR r p.1)))
        ((match base.rowAt key k, delta.rowAt key k with
         | some rb, some rd => some (rb ++ dPartD base delta key "_upd" true rd)
         | some rb, none => some (rb ++ dNullD base delta key "_upd" true)
         | none, some rd =>
             some (bNullD base key true rd ++ dPartD base delta key "_upd" true rd)
         | none, none => none : Option Row)) := by
    show ((umOut base delta key).rows.find? _) = _
    rw [hrows, findq_map_congr _ _
      (fun r => decide (cOr (cellR r key) (cellR r (key ++ "_upd")) = some k)) _ hpred,
      joinFull_find base delta key "_upd" true hWb hWd hkb hkd hub hud hjnd k]
  rcases hba : base.rowAt key k with _ | rb <;> rcases hda : delta.rowAt key k with _ | rd
  · -- no row on either side
    rw [hba, hda] at hrowAt
    have hv : ∀ c, (umOut base delta key).valAt key k c = none := by
      intro c
      unfold DF.valAt
      rw [hrowAt]
      rfl
    have hnk1 : ¬ base.hasKey key k := by
      unfold DF.hasKey
      rw [hba]
      simp
    have hnk2 : ¬ delta.hasKey key k := by
      unfold DF.hasKey
      rw [hda]
      simp
    refine ⟨?_, ?_, ?_, ?_, ?_⟩
    · unfold DF.hasKey
      rw [hrowAt]
      constructor
      · intro h
        simp at h
      · rintro (h | h)
        · exact absurd h hnk1
        · exact absurd h hnk2
    · intro c hc
      rw [hv c]
      unfold DF.valAt
      rw [hba, hda]
      rfl
    · intro c hc hcd
      rw [hv c]
      unfold DF.valAt
      rw [hba]
    · intro c hc hcb hne
      rw [hv c]
      unfold DF.valAt
      rw [hda]
    · rw [hv key, if_neg]
      rintro (h | h)
      · exact hnk1 h
      · exact hnk2 h
  · -- delta-only row
    rw [hba, hda] at hrowAt
    obtain ⟨hrdm, hrdk⟩ := rowAt_mem hda
    have hval : ∀ c, c ∈ boCols base delta key ++ overlapCols base delta key ++
        dlCols base delta key →
        (umOut base delta key).valAt key k c =
          (if c ∈ overlapCols base delta key
           then cOr (cellR (bNullD base key true rd ++
                    dPartD base delta key "_upd" true rd) (c ++ "_upd"))
                    (cellR (bNullD base key true rd ++
                    dPartD base delta key "_upd" true rd) c)
           else cellR (bNullD base key true rd ++
                    dPartD base delta key "_upd" true rd) c) := by
      intro c hc
      unfold DF.valAt
      rw [hrowAt]
      simp only [Option.map_some']
      exact umOut_cellH hkd hjnd hdnd _ c hc
    have hbv : ∀ c, (base.valAt key k c) = none := by
      intro c
      unfold DF.valAt
      rw [hba]
    have hdv : ∀ c, (delta.valAt key k c) = cellR rd c := by
      intro c
      unfold DF.valAt
      rw [hda]
    refine ⟨?_, ?_, ?_, ?_, ?_⟩
    · unfold DF.hasKey
      rw [hrowAt, hba, hda]
      simp
    · intro c hc
      obtain ⟨hcb, hcd, hne⟩ := mem_overlapCols.mp hc
      rw [hval c (List.mem_append_left _ (List.mem_append_right _ hc)), if_pos hc]
      obtain ⟨t', ht', -⟩ := dPairs_of_dl true hcd hne
      have h2 := cellR_dPart hjnd rd c t' ht'
        (bNullD base key true rd) (bNullD_names base key true rd)
      rw [renN_of_base hcb] at h2
      rw [h2]
      obtain ⟨tc, htc⟩ := mem_schema_of_mem_cols hcb
      rw [cellR_bNull hnd1 rd c tc htc, if_neg (fun h => hne h.2), hbv, hdv]
    · intro c hc hcd
      have hbo : c ∈ boCols base delta key := mem_boCols_of_not_delta hc hcd
      have hnov : c ∉ overlapCols base delta key := (mem_boCols.mp hbo).2
      rw [hval c (List.mem_append_left _ (List.mem_append_left _ hbo)), if_neg hnov]
      obtain ⟨tc, htc⟩ := mem_schema_of_mem_cols hc
      have hne : c ≠ key := fun h => hcd (h ▸ hkd)
      rw [cellR_bNull hnd1 rd c tc htc, if_neg (fun h => hne h.2), hbv]
    · intro c hc hcb hne
      have hdl : c ∈ dlCols base delta key := mem_dlCols_of_not_base hc hcb hne
      have hnov : c ∉ overlapCols base delta key :=
        fun ho => hcb (mem_overlapCols.mp ho).1
      rw [hval c (List.mem_append_right _ hdl), if_neg hnov]
      obtain ⟨t', ht', -⟩ := dPairs_of_dl true hc hne
      have h2 := cellR_dPart hjnd rd c t' ht'
        (bNullD base key true rd) (bNullD_names base key true rd)
      rw [renN_of_not_base hcb] at h2
      rw [h2, hdv]
    · rw [hval key hkeymem, if_neg hknov,
        cellR_bNull hnd1 rd key tk htk, if_pos (And.intro rfl rfl), hrdk, if_pos]
      right
      unfold DF.hasKey
      rw [hda]
      rfl
  · -- base-only row
    rw [hba, hda] at hrowAt
    obtain ⟨hrbm, hrbk⟩ := rowAt_mem hba
    have hval : ∀ c, c ∈ boCols base delta key ++ overlapCols base delta key ++
        dlCols base delta key →
        (umOut base delta key).valAt key k c =
          (if c ∈ overlapCols base delta key
           then cOr (cellR (rb ++ dNullD base delta key "_upd" true) (c ++ "_upd"))
                    (cellR (rb ++ dNullD base delta key "_upd" true) c)
           else cellR (rb ++ dNullD base delta key "_upd" true) c) := by
      intro c hc
      unfold DF.valAt
      rw [hrowAt]
      simp only [Option.map_some']
      exact umOut_cellH hkd hjnd hdnd _ c hc
    have hbv : ∀ c, (base.valAt key k c) = cellR rb c := by
      intro c
      unfold DF.valAt
      rw [hba]
    have hdv : ∀ c, (delta.valAt key k c) = none := by
      intro c
      unfold DF.valAt
      rw [hda]
    refine ⟨?_, ?_, ?_, ?_, ?_⟩
    · unfold DF.hasKey
      rw [hrowAt, hba]
      simp
    · intro c hc
      obtain ⟨hcb, hcd, hne⟩ := mem_overlapCols.mp hc
      rw [hval c (List.mem_append_left _ (List.mem_append_right _ hc)), if_pos hc]
      obtain ⟨t', ht', -⟩ := dPairs_of_dl true hcd hne
      have h2 := cellR_dNull hjnd c t' ht' rb (hWb rb hrbm)
      rw [renN_of_base hcb] at h2
      rw [h2, cellR_pre_base rb _ c (hWb rb hrbm) hcb, hbv, hdv]
    · intro c hc hcd
      have hbo : c ∈ boCols base delta key := mem_boCols_of_not_delta hc hcd
      have hnov : c ∉ overlapCols base delta key := (mem_boCols.mp hbo).2
      rw [hval c (List.mem_append_left _ (List.mem_append_left _ hbo)), if_neg hnov,
        cellR_pre_base rb _ c (hWb rb hrbm) hc, hbv]
    · intro c hc hcb hne
      have hdl : c ∈ dlCols base delta key := mem_dlCols_of_not_base hc hcb hne
      have hnov : c ∉ overlapCols base delta key :=
        fun ho => hcb (mem_overlapCols.mp ho).1
      rw [hval c (List.mem_append_right _ hdl), if_neg hnov]
      obtain ⟨t', ht', -⟩ := dPairs_of_dl true hc hne
      have h2 := cellR_dNull hjnd c t' ht' rb (hWb rb hrbm)
      rw [renN_of_not_base hcb] at h2
      rw [h2, hdv]
    · rw [hval key hkeymem, if_neg hknov,
        cellR_pre_base rb _ key (hWb rb hrbm) hkb, hrbk, if_pos]
      left
      unfold DF.hasKey
      rw [hba]
      rfl
  · -- rows on both sides
    rw [hba, hda] at hrowAt
    obtain ⟨hrbm, hrbk⟩ := rowAt_mem hba
    obtain ⟨hrdm, hrdk⟩ := rowAt_mem hda
    have hval : ∀ c, c ∈ boCols base delta key ++ overlapCols base delta key ++
        dlCols base delta key →
        (umOut base delta key).valAt key k c =
          (if c ∈ overlapCols base delta key
           then cOr (cellR (rb ++ dPartD base delta key "_upd" true rd) (c ++ "_upd"))
                    (cellR (rb ++ dPartD base delta key "_upd" true rd) c)
           else cellR (rb ++ dPartD base delta key "_upd" true rd) c) := by
      intro c hc
      unfold DF.valAt
      rw [hrowAt]
      simp only [Option.map_some']
      exact umOut_cellH hkd hjnd hdnd _ c hc
    have hbv : ∀ c, (base.valAt key k c) = cellR rb c := by
      intro c
      unfold DF.valAt
      rw [hba]
    have hdv : ∀ c, (delta.valAt key k c) = cellR rd c := by
      intro c
      unfold DF.valAt
      rw [hda]
    refine ⟨?_, ?_, ?_, ?_, ?_⟩
    · unfold DF.hasKey
      rw [hrowAt, hba]
      simp
    · intro c hc
      obtain ⟨hcb, hcd, hne⟩ := mem_overlapCols.mp hc
      rw [hval c (List.mem_append_left _ (List.mem_append_right _ hc)), if_pos hc]
      obtain ⟨t', ht', -⟩ := dPairs_of_dl true hcd hne
      have h2 := cellR_dPart hjnd rd c t' ht' rb (hWb rb hrbm)
      rw [renN_of_base hcb] at h2
      rw [h2, cellR_pre_base rb _ c (hWb rb hrbm) hcb, hbv, hdv]
    · intro c hc hcd
      have hbo : c ∈ boCols base delta key := mem_boCols_of_not_delta hc hcd
      have hnov : c ∉ overlapCols base delta key := (mem_boCols.mp hbo).2
      rw [hval c (List.mem_append_left _ (List.mem_append_left _ hbo)), if_neg hnov,
        cellR_pre_base rb _ c (hWb rb hrbm) hc, hbv]
    · intro c hc hcb hne
      have hdl : c ∈ dlCols base delta key := mem_dlCols_of_not_base hc hcb hne
      have hnov : c ∉ overlapCols base delta key :=
        fun ho => hcb (mem_overlapCols.mp ho).1
      rw [hval c (List.mem_append_right _ hdl), if_neg hnov]
      obtain ⟨t', ht', -⟩ := dPairs_of_dl true hc hne
      have h2 := cellR_dPart hjnd rd c t' ht' rb (hWb rb hrbm)
      rw [renN_of_not_base hcb] at h2
      rw [h2, hdv]
    · rw [hval key hkeymem, if_neg hknov,
        cellR_pre_base rb _ key (hWb rb hrbm) hkb, hrbk, if_pos]
      left
      unfold DF.hasKey
      rw [hba]
      rfl

end HeadToHead

namespace HeadToHead

/-- Per-key content of `upsert_match` (helper): the validator only reorders
columns, so the `umOut` characterisation carries over to the output. -/
theorem upsert_match_valAt (base delta : DF) (key : String) (out : DF)
    (hR : mergeReady base delta key "_upd" true)
    (hok : upsert_match base delta key = .ok out) (k : PVal) :
    (out.hasKey key k ↔ (base.hasKey key k ∨ delta.hasKey key k)) ∧
    (∀ c ∈ overlapCols base delta key,
      out.valAt key k c = cOr (delta.valAt key k c) (base.valAt key k c)) ∧
    (∀ c ∈ base.cols, c ∉ delta.cols → out.valAt key k c = base.valAt key k c) ∧
    (∀ c ∈ delta.cols, c ∉ base.cols → c ≠ key →
      out.valAt key k c = delta.valAt key k c) ∧
    (out.valAt key k key =
      if base.hasKey key k ∨ delta.hasKey key k then some k else none) := by
  obtain ⟨hWb, hWd, hkb, hkd, hub, hud, hjnd, hdnd, hal⟩ := hR
  rw [upsert_match_reduce base delta key hkb hkd hal] at hok
  have hkmem : key ∈ (umOut base delta key).cols := by
    rw [umOut_cols hkd hjnd]
    exact List.mem_append_left _ (List.mem_append_left _ (key_mem_boCols hkb))
  obtain ⟨hhk, hvc⟩ := validar_valAt hok key (Or.inl hkmem) k
  have hum := umOut_valAt base delta key hWb hWd hkb hkd hub hud hjnd hdnd k
  refine ⟨?_, ?_, ?_, ?_, ?_⟩
  · rw [hhk]
    exact hum.1
  · intro c hc
    have hcm : c ∈ (umOut base delta key).cols := by
      rw [umOut_cols hkd hjnd]
      exact List.mem_append_left _ (List.mem_append_right _ hc)
    rw [hvc c (Or.inl hcm)]
    exact hum.2.1 c hc
  · intro c hc hcd
    have hcm : c ∈ (umOut base delta key).cols := by
      rw [umOut_cols hkd hjnd]
      exact List.mem_append_left _
        (List.mem_append_left _ (mem_boCols_of_not_delta hc hcd))
    rw [hvc c (Or.inl hcm)]
    exact hum.2.2.1 c hc hcd
  · intro c hc hcb hne
    have hcm : c ∈ (umOut base delta key).cols := by
      rw [umOut_cols hkd hjnd]
      exact List.mem_append_right _ (mem_dlCols_of_not_base hc hcb hne)
    rw [hvc c (Or.inl hcm)]
    exact hum.2.2.2.1 c hc hcb hne
  · rw [hvc key (Or.inl hkmem)]
    exact hum.2.2.2.2

end HeadToHead

namespace HeadToHead

/-! ### Characterisation of `upsert_bets` -/

theorem mem_of_lookupL {α : Type} {c : String} {t : α} {l : List (String × α)}
    (h : lookupL c l = some t) : (c, t) ∈ l := by
  induction l with
  | nil => cases h
  | cons p l ih =>
    unfold lookupL at h
    split at h
    · obtain ⟨c', t'⟩ := p
      cases h
      simp_all
    · exact List.mem_cons_of_mem _ (ih h)

theorem filter_fst_comm {α : Type} (q : String → Bool) (l : List (String × α)) :
    (l.filter (fun p => q p.1)).map Prod.fst = (l.map Prod.fst).filter q := by
  induction l with
  | nil => rfl
  | cons p l ih =>
    simp only [List.filter_cons, List.map_cons]
    by_cases h : q p.1 = true
    · simp [h, ih]
    · simp [h, ih]

theorem strAppend_cancel {a b s : String} (h : a ++ s = b ++ s) : a = b := by
  have hd : a.data ++ s.data = b.data ++ s.data := by
    have h2 := congrArg String.data h
    simpa [String.data_append] using h2
  have h3 : a.data = b.data := List.append_cancel_right hd
  cases a
  cases b
  exact congrArg String.mk h3

theorem mem_buDrop {base delta : DF} {key c : String}
    (h : c ∈ buDrop base delta key) :
    ∃ d, (d ∈ overlapCols base delta key ∨ d ∈ boCols base delta key) ∧
      c = d ++ "_r" ∧ (d ++ "_r") ∈ (base.joinFull delta key "_r" false).cols := by
  unfold buDrop at h
  obtain ⟨d, hd, he⟩ := List.mem_map.mp h
  obtain ⟨hd1, hd2⟩ := List.mem_filter.mp hd
  exact ⟨d, List.mem_append.mp hd1, he.symm, by simpa using hd2⟩

theorem not_mem_buDrop_of_base {base delta : DF} {key c : String}
    (hfr : noSuffixClash base delta "_r") (hc : c ∈ base.cols) :
    c ∉ buDrop base delta key := by
  intro h
  obtain ⟨d, hd, he, -⟩ := mem_buDrop h
  have hdb : d ∈ base.cols := by
    rcases hd with h' | h'
    · exact (mem_overlapCols.mp h').1
    · exact (mem_boCols.mp h').1
  exact (hfr d hdb).1 (he ▸ hc)

theorem not_mem_buDrop_of_delta {base delta : DF} {key c : String}
    (hfr : noSuffixClash base delta "_r") (hc : c ∈ delta.cols) :
    c ∉ buDrop base delta key := by
  intro h
  obtain ⟨d, hd, he, -⟩ := mem_buDrop h
  have hdb : d ∈ base.cols := by
    rcases hd with h' | h'
    · exact (mem_overlapCols.mp h').1
    · exact (mem_boCols.mp h').1
  exact (hfr d hdb).2 (he ▸ hc)

theorem buKeep_names_nodup {base delta : DF} {key : String}
    (hjnd : (base.joinFull delta key "_r" false).cols.Nodup) :
    ((buKeep base delta key).map Prod.fst).Nodup := by
  unfold buKeep
  have h := filter_fst_comm (fun c => decide (c ∉ buDrop base delta key))
    (base.joinFull delta key "_r" false).schema
  rw [h]
  exact hjnd.filter _

theorem mem_buKeep_of_base {base delta : DF} {key c : String} {t : DType}
    (hfr : noSuffixClash base delta "_r") (hc : c ∈ base.cols)
    (ht : lookupL c base.schema = some t) :
    (c, t) ∈ buKeep base delta key := by
  unfold buKeep
  refine List.mem_filter.mpr ⟨?_, ?_⟩
  · exact List.mem_append_left _ (mem_of_lookupL ht)
  · simpa using not_mem_buDrop_of_base hfr hc

theorem mem_buKeep_of_dl {base delta : DF} {key c : String} {t : DType}
    (hfr : noSuffixClash base delta "_r")
    (hct : (c, t) ∈ dPairsD delta key false) (hcb : c ∉ base.cols)
    (hcd : c ∈ delta.cols) :
    (c, t) ∈ buKeep base delta key := by
  unfold buKeep
  refine List.mem_filter.mpr ⟨?_, ?_⟩
  · refine List.mem_append_right _ ?_
    have := List.mem_map_of_mem (fun p => (renN base "_r" p.1, p.2)) hct
    simpa [renN_of_not_base hcb] using this
  · simpa using not_mem_buDrop_of_delta hfr hcd

theorem key_suffix_mem_joinCols {base delta : DF} {key : String}
    (hkb : key ∈ base.cols) (hkd : key ∈ delta.cols) :
    (key ++ "_r") ∈ (base.joinFull delta key "_r" false).cols := by
  rw [joinFull_cols]
  refine List.mem_append_right _ ?_
  obtain ⟨td, htd⟩ := mem_schema_of_mem_cols hkd
  have htp : (key, td) ∈ dPairsD delta key false :=
    List.mem_filter.mpr ⟨htd, by simp⟩
  have hm := List.mem_map_of_mem (fun p => renN base "_r" p.1) htp
  simpa [renN_of_base hkb] using hm

end HeadToHead

namespace HeadToHead

theorem buOut_cols (base delta : DF) (key : String) :
    (buOut base delta key).cols = (base.joinFull delta key "_r" false).cols.filter
      (fun c => decide (c ∉ buDrop base delta key)) := by
  show (buKeep base delta key).map Prod.fst = _
  unfold buKeep
  exact filter_fst_comm (fun c => decide (c ∉ buDrop base delta key)) _

theorem buOut_cellH {base delta : DF} {key : String}
    (hjnd : (base.joinFull delta key "_r" false).cols.Nodup)
    (r : Row) (c : String) (t : DType) (hct : (c, t) ∈ buKeep base delta key) :
    cellR ((buKeep base delta key).map (fun p =>
      (p.1,
       if p.1 ∈ overlapCols base delta key then
         some (padd ((cellR r p.1).getD (zeroOf p.2))
                    ((cellR r (p.1 ++ "_r")).getD (zeroOf p.2)))
       else if p.1 ∈ boCols base delta key ∧
           (p.1 ++ "_r") ∈ (base.joinFull delta key "_r" false).cols then
         cOr (cellR r p.1) (cellR r (p.1 ++ "_r"))
       else cellR r p.1))) c =
      (if c ∈ overlapCols base delta key then
         some (padd ((cellR r c).getD (zeroOf t))
                    ((cellR r (c ++ "_r")).getD (zeroOf t)))
       else if c ∈ boCols base delta key ∧
           (c ++ "_r") ∈ (base.joinFull delta key "_r" false).cols then
         cOr (cellR r c) (cellR r (c ++ "_r"))
       else cellR r c) :=
  cellR_map_of_nodup (buKeep base delta key) Prod.fst _ (c, t)
    (buKeep_names_nodup hjnd) hct

theorem base_suffix_not_joinCols {base delta : DF} {key c : String}
    (hfr : noSuffixClash base delta "_r") (hc : c ∈ base.cols) (hcd : c ∉ delta.cols) :
    (c ++ "_r") ∉ (base.joinFull delta key "_r" false).cols := by
  rw [joinFull_cols]
  intro hmem
  rcases List.mem_append.mp hmem with h1 | h2
  · exact (hfr c hc).1 h1
  · obtain ⟨p, hp, he⟩ := List.mem_map.mp h2
    have hpd : p.1 ∈ delta.cols := by
      have : p ∈ delta.schema := List.mem_of_mem_filter hp
      exact List.mem_map_of_mem Prod.fst this
    by_cases hb : p.1 ∈ base.cols
    · rw [renN_of_base hb] at he
      have : p.1 = c := strAppend_cancel he
      exact hcd (this ▸ hpd)
    · rw [renN_of_not_base hb] at he
      exact (hfr c hc).2 (he ▸ hpd)

/-- Per-key content of the pre-validation Additive-Merge frame. -/
theorem buOut_valAt (base delta : DF) (key : String)
    (hWb : base.WF) (hWd : delta.WF) (hkb : key ∈ base.cols) (hkd : key ∈ delta.cols)
    (hub : keyUniq base key) (hud : keyUniq delta key)
    (hjnd : (base.joinFull delta key "_r" false).cols.Nodup)
    (hdnd : delta.cols.Nodup) (hfr : noSuffixClash base delta "_r") (k : PVal) :
    ((buOut base delta key).hasKey key k ↔ (base.hasKey key k ∨ delta.hasKey key k)) ∧
    (∀ c ∈ overlapCols base delta key, ∀ t : DType, lookupL c base.schema = some t →
      (buOut base delta key).valAt key k c =
        if base.hasKey key k ∨ delta.hasKey key k
        then some (padd ((base.valAt key k c).getD (zeroOf t))
                        ((delta.valAt key k c).getD (zeroOf t)))
        else none) ∧
    (∀ c ∈ base.cols, c ∉ delta.cols →
      (buOut base delta key).valAt key k c = base.valAt key k c) ∧
    (∀ c ∈ delta.cols, c ∉ base.cols → c ≠ key →
      (buOut base delta key).valAt key k c = delta.valAt key k c) ∧
    ((buOut base delta key).valAt key k key =
      if base.hasKey key k ∨ delta.hasKey key k then some k else none) := by
  obtain ⟨hnd1, hnd2, hdisj⟩ := joinFull_nodup_parts hjnd
  obtain ⟨tk, htk⟩ := Option.isSome_iff_exists.mp
    ((lookupL_isSome_iff key base.schema).mpr hkb)
  have hkeep_k : (key, tk) ∈ buKeep base delta key := mem_buKeep_of_base hfr hkb htk
  have hknov : key ∉ overlapCols base delta key :=
    fun ho => (mem_overlapCols.mp ho).2.2 rfl
  have hkbo : key ∈ boCols base delta key := key_mem_boCols hkb
  have hksuf : (key ++ "_r") ∈ (base.joinFull delta key "_r" false).cols :=
    key_suffix_mem_joinCols hkb hkd
  have hrows : (buOut base delta key).rows =
      (base.joinFull delta key "_r" false).rows.map
        (fun r => (buKeep base delta key).map (fun p =>
          (p.1,
           if p.1 ∈ overlapCols base delta key then
             some (padd ((cellR r p.1).getD (zeroOf p.2))
                        ((cellR r (p.1 ++ "_r")).getD (zeroOf p.2)))
           else if p.1 ∈ boCols base delta key ∧
               (p.1 ++ "_r") ∈ (base.joinFull delta key "_r" false).cols then
             cOr (cellR r p.1) (cellR r (p.1 ++ "_r"))
           else cellR r p.1))) := rfl
  have hpred : ∀ r ∈ (base.joinFull delta key "_r" false).rows,
      (fun r => decide (cellR r key = some k))
        ((buKeep base delta key).map (fun p =>
          (p.1,
           if p.1 ∈ overlapCols base delta key then
             some (padd ((cellR r p.1).getD (zeroOf p.2))
                        ((cellR r (p.1 ++ "_r")).getD (zeroOf p.2)))
           else if p.1 ∈ boCols base delta key ∧
               (p.1 ++ "_r") ∈ (base.joinFull delta key "_r" false).cols then
             cOr (cellR r p.1) (cellR r (p.1 ++ "_r"))
           else cellR r p.1))) =
      (fun r => decide (cOr (cellR r key) (cellR r (key ++ "_r")) = some k)) r := by
    intro r hr
    show decide _ = decide _
    rw [buOut_cellH hjnd r key tk hkeep_k, if_neg hknov,
      if_pos (And.intro hkbo hksuf)]
  have hrowAt : (buOut base delta key).rowAt key k =
      Option.map
        (fun r => (buKeep base delta key).map (fun p =>
          (p.1,
           if p.1 ∈ overlapCols base delta key then
             some (padd ((cellR r p.1).getD (zeroOf p.2))
                        ((cellR r (p.1 ++ "_r")).getD (zeroOf p.2)))
           else if p.1 ∈ boCols base delta key ∧
               (p.1 ++ "_r") ∈ (base.joinFull delta key "_r" false).cols then
             cOr (cellR r p.1) (cellR r (p.1 ++ "_r"))
           else cellR r p.1)))
        ((match base.rowAt key k, delta.rowAt key k with
         | some rb, some rd => some (rb ++ dPartD base delta key "_r" false rd)
         | some rb, none => some (rb ++ dNullD base delta key "_r" false)
         | none, some rd =>
             some (bNullD base key false rd ++ dPartD base delta key "_r" false rd)
         | none, none => none : Option Row)) := by
    show ((buOut base delta key).rows.find? _) = _
    rw [hrows, findq_map_congr _ _
      (fun r => decide (cOr (cellR r key) (cellR r (key ++ "_r")) = some k)) _ hpred,
      joinFull_find base delta key "_r" false hWb hWd hkb hkd hub hud hjnd k]
  rcases hba : base.rowAt key k with _ | rb <;> rcases hda : delta.rowAt key k with _ | rd
  · rw [hba, hda] at hrowAt
    have hv : ∀ c, (buOut base delta key).valAt key k c = none := by
      intro c
      unfold DF.valAt
      rw [hrowAt]
      rfl
    have hnk1 : ¬ base.hasKey key k := by
      unfold DF.hasKey
      rw [hba]
      simp
    have hnk2 : ¬ delta.hasKey key k := by
      unfold DF.hasKey
      rw [hda]
      simp
    have hor : ¬ (base.hasKey key k ∨ delta.hasKey key k) := by
      rintro (h | h)
      · exact hnk1 h
      · exact hnk2 h
    refine ⟨?_, ?_, ?_, ?_, ?_⟩
    · unfold DF.hasKey
      rw [hrowAt]
      constructor
      · intro h
        simp at h
      · intro h
        exact absurd h hor
    · intro c hc t ht
      rw [hv c, if_neg hor]
    · intro c hc hcd
      rw [hv c]
      unfold DF.valAt
      rw [hba]
    · intro c hc hcb hne
      rw [hv c]
      unfold DF.valAt
      rw [hda]
    · rw [hv key, if_neg hor]
  · -- delta-only row
    rw [hba, hda] at hrowAt
    obtain ⟨hrdm, hrdk⟩ := rowAt_mem hda
    have hor : base.hasKey key k ∨ delta.hasKey key k := by
      right
      unfold DF.hasKey
      rw [hda]
      rfl
    have hval : ∀ c t, (c, t) ∈ buKeep base delta key →
        (buOut base delta key).valAt key k c =
          (if c ∈ overlapCols base delta key then
             some (padd ((cellR (bNullD base key false rd ++
                      dPartD base delta key "_r" false rd) c).getD (zeroOf t))
                        ((cellR (bNullD base key false rd ++
                      dPartD base delta key "_r" false rd) (c ++ "_r")).getD (zeroOf t)))
           else if c ∈ boCols base delta key ∧
               (c ++ "_r") ∈ (base.joinFull delta key "_r" false).cols then
             cOr (cellR (bNullD base key false rd ++
                      dPartD base delta key "_r" false rd) c)
                 (cellR (bNullD base key false rd ++
                      dPartD base delta key "_r" false rd) (c ++ "_r"))
           else cellR (bNullD base key false rd ++
                      dPartD base delta key "_r" false rd) c) := by
      intro c t hct
      unfold DF.valAt
      rw [hrowAt]
      simp only [Option.map_some']
      exact buOut_cellH hjnd _ c t hct
    have hbv : ∀ c, (base.valAt key k c) = none := by
      intro c
      unfold DF.valAt
      rw [hba]
    have hdv : ∀ c, (delta.valAt key k c) = cellR rd c := by
      intro c
      unfold DF.valAt
      rw [hda]
    refine ⟨?_, ?_, ?_, ?_, ?_⟩
    · unfold DF.hasKey
      rw [hrowAt]
      simpa using hor
    · intro c hc t ht
      obtain ⟨hcb, hcd, hne⟩ := mem_overlapCols.mp hc
      rw [hval c t (mem_buKeep_of_base hfr hcb ht), if_pos hc, if_pos hor]
      obtain ⟨tc, htc⟩ := mem_schema_of_mem_cols hcb
      obtain ⟨t', ht', -⟩ := dPairs_of_dl false hcd hne
      have h2 := cellR_dPart hjnd rd c t' ht'
        (bNullD base key false rd) (bNullD_names base key false rd)
      rw [renN_of_base hcb] at h2
      rw [h2, cellR_bNull hnd1 rd c tc htc, hbv, hdv]
      simp
    · intro c hc hcd
      obtain ⟨tc, htc⟩ := Option.isSome_iff_exists.mp
        ((lookupL_isSome_iff c base.schema).mpr hc)
      have hnov : c ∉ overlapCols base delta key :=
        fun ho => hcd (mem_overlapCols.mp ho).2.1
      have hnosuf : ¬ (c ∈ boCols base delta key ∧
          (c ++ "_r") ∈ (base.joinFull delta key "_r" false).cols) :=
        fun h => base_suffix_not_joinCols hfr hc hcd h.2
      rw [hval c tc (mem_buKeep_of_base hfr hc htc), if_neg hnov, if_neg hnosuf]
      obtain ⟨tc2, htc2⟩ := mem_schema_of_mem_cols hc
      have hne : c ≠ key := fun h => hcd (h ▸ hkd)
      rw [cellR_bNull hnd1 rd c tc2 htc2, hbv]
      simp [hne]
    · intro c hc hcb hne
      obtain ⟨t', ht', -⟩ := dPairs_of_dl false hc hne
      have hkeep : (c, t') ∈ buKeep base delta key :=
        mem_buKeep_of_dl hfr ht' hcb hc
      have hnov : c ∉ overlapCols base delta key :=
        fun ho => hcb (mem_overlapCols.mp ho).1
      have hnbo : ¬ (c ∈ boCols base delta key ∧
          (c ++ "_r") ∈ (base.joinFull delta key "_r" false).cols) :=
        fun h => hcb (mem_boCols.mp h.1).1
      rw [hval c t' hkeep, if_neg hnov, if_neg hnbo]
      have h2 := cellR_dPart hjnd rd c t' ht'
        (bNullD base key false rd) (bNullD_names base key false rd)
      rw [renN_of_not_base hcb] at h2
      rw [h2, hdv]
    · rw [hval key tk hkeep_k, if_neg hknov, if_pos (And.intro hkbo hksuf)]
      obtain ⟨tk2, htk2⟩ := mem_schema_of_mem_cols hkb
      obtain ⟨td, htd⟩ := mem_schema_of_mem_cols hkd
      have htp : (key, td) ∈ dPairsD delta key false :=
        List.mem_filter.mpr ⟨htd, by simp⟩
      have h2 := cellR_dPart hjnd rd key td htp
        (bNullD base key false rd) (bNullD_names base key false rd)
      rw [renN_of_base hkb] at h2
      rw [cellR_bNull hnd1 rd key tk2 htk2, h2, hrdk, if_pos hor]
      rfl
  · -- base-only row
    rw [hba, hda] at hrowAt
    obtain ⟨hrbm, hrbk⟩ := rowAt_mem hba
    have hor : base.hasKey key k ∨ delta.hasKey key k := by
      left
      unfold DF.hasKey
      rw [hba]
      rfl
    have hval : ∀ c t, (c, t) ∈ buKeep base delta key →
        (buOut base delta key).valAt key k c =
          (if c ∈ overlapCols base delta key then
             some (padd ((cellR (rb ++ dNullD base delta key "_r" false) c).getD (zeroOf t))
                        ((cellR (rb ++ dNullD base delta key "_r" false)
                          (c ++ "_r")).getD (zeroOf t)))
           else if c ∈ boCols base delta key ∧
               (c ++ "_r") ∈ (base.joinFull delta key "_r" false).cols then
             cOr (cellR (rb ++ dNullD base delta key "_r" false) c)
                 (cellR (rb ++ dNullD base delta key "_r" false) (c ++ "_r"))
           else cellR (rb ++ dNullD base delta key "_r" false) c) := by
      intro c t hct
      unfold DF.valAt
      rw [hrowAt]
      simp only [Option.map_some']
      exact buOut_cellH hjnd _ c t hct
    have hbv : ∀ c, (base.valAt key k c) = cellR rb c := by
      intro c
      unfold DF.valAt
      rw [hba]
    have hdv : ∀ c, (delta.valAt key k c) = none := by
      intro c
      unfold DF.valAt
      rw [hda]
    refine ⟨?_, ?_, ?_, ?_, ?_⟩
    · unfold DF.hasKey
      rw [hrowAt]
      simpa using hor
    · intro c hc t ht
      obtain ⟨hcb, hcd, hne⟩ := mem_overlapCols.mp hc
      rw [hval c t (mem_buKeep_of_base hfr hcb ht), if_pos hc, if_pos hor]
      obtain ⟨t', ht', -⟩ := dPairs_of_dl false hcd hne
      have h2 := cellR_dNull hjnd c t' ht' rb (hWb rb hrbm)
      rw [renN_of_base hcb] at h2
      rw [h2, cellR_pre_base rb _ c (hWb rb hrbm) hcb, hbv, hdv]
    · intro c hc hcd
      obtain ⟨tc, htc⟩ := Option.isSome_iff_exists.mp
        ((lookupL_isSome_iff c base.schema).mpr hc)
      have hnov : c ∉ overlapCols base delta key :=
        fun ho => hcd (mem_overlapCols.mp ho).2.1
      have hnosuf : ¬ (c ∈ boCols base delta key ∧
          (c ++ "_r") ∈ (base.joinFull delta key "_r" false).cols) :=
        fun h => base_suffix_not_joinCols hfr hc hcd h.2
      rw [hval c tc (mem_buKeep_of_base hfr hc htc), if_neg hnov, if_neg hnosuf,
        cellR_pre_base rb _ c (hWb rb hrbm) hc, hbv]
    · intro c hc hcb hne
      obtain ⟨t', ht', -⟩ := dPairs_of_dl false hc hne
      have hkeep : (c, t') ∈ buKeep base delta key :=
        mem_buKeep_of_dl hfr ht' hcb hc
      have hnov : c ∉ overlapCols base delta key :=
        fun ho => hcb (mem_overlapCols.mp ho).1
      have hnbo : ¬ (c ∈ boCols base delta key ∧
          (c ++ "_r") ∈ (base.joinFull delta key "_r" false).cols) :=
        fun h => hcb (mem_boCols.mp h.1).1
      rw [hval c t' hkeep, if_neg hnov, if_neg hnbo]
      have h2 := cellR_dNull hjnd c t' ht' rb (hWb rb hrbm)
      rw [renN_of_not_base hcb] at h2
      rw [h2, hdv]
    · rw [hval key tk hkeep_k, if_neg hknov, if_pos (And.intro hkbo hksuf),
        cellR_pre_base rb _ key (hWb rb hrbm) hkb, hrbk, if_pos hor]
      rfl
  · -- rows on both sides
    rw [hba, hda] at hrowAt
    obtain ⟨hrbm, hrbk⟩ := rowAt_mem hba
    obtain ⟨hrdm, hrdk⟩ := rowAt_mem hda
    have hor : base.hasKey key k ∨ delta.hasKey key k := by
      left
      unfold DF.hasKey
      rw [hba]
      rfl
    have hval : ∀ c t, (c, t) ∈ buKeep base delta key →
        (buOut base delta key).valAt key k c =
          (if c ∈ overlapCols base delta key then
             some (padd ((cellR (rb ++ dPartD base delta key "_r" false rd) c).getD
                      (zeroOf t))
                        ((cellR (rb ++ dPartD base delta key "_r" false rd)
                          (c ++ "_r")).getD (zeroOf t)))
           else if c ∈ boCols base delta key ∧
               (c ++ "_r") ∈ (base.joinFull delta key "_r" false).cols then
             cOr (cellR (rb ++ dPartD base delta key "_r" false rd) c)
                 (cellR (rb ++ dPartD base delta key "_r" false rd) (c ++ "_r"))
           else cellR (rb ++ dPartD base delta key "_r" false rd) c) := by
      intro c t hct
      unfold DF.valAt
      rw [hrowAt]
      simp only [Option.map_some']
      exact buOut_cellH hjnd _ c t hct
    have hbv : ∀ c, (base.valAt key k c) = cellR rb c := by
      intro c
      unfold DF.valAt
      rw [hba]
    have hdv : ∀ c, (delta.valAt key k c) = cellR rd c := by
      intro c
      unfold DF.valAt
      rw [hda]
    refine ⟨?_, ?_, ?_, ?_, ?_⟩
    · unfold DF.hasKey
      rw [hrowAt]
      simpa using hor
    · intro c hc t ht
      obtain ⟨hcb, hcd, hne⟩ := mem_overlapCols.mp hc
      rw [hval c t (mem_buKeep_of_base hfr hcb ht), if_pos hc, if_pos hor]
      obtain ⟨t', ht', -⟩ := dPairs_of_dl false hcd hne
      have h2 := cellR_dPart hjnd rd c t' ht' rb (hWb rb hrbm)
      rw [renN_of_base hcb] at h2
      rw [h2, cellR_pre_base rb _ c (hWb rb hrbm) hcb, hbv, hdv]
    · intro c hc hcd
      obtain ⟨tc, htc⟩ := Option.isSome_iff_exists.mp
        ((lookupL_isSome_iff c base.schema).mpr hc)
      have hnov : c ∉ overlapCols base delta key :=
        fun ho => hcd (mem_overlapCols.mp ho).2.1
      have hnosuf : ¬ (c ∈ boCols base delta key ∧
          (c ++ "_r") ∈ (base.joinFull delta key "_r" false).cols) :=
        fun h => base_suffix_not_joinCols hfr hc hcd h.2
      rw [hval c tc (mem_buKeep_of_base hfr hc htc), if_neg hnov, if_neg hnosuf,
        cellR_pre_base rb _ c (hWb rb hrbm) hc, hbv]
    · intro c hc hcb hne
      obtain ⟨t', ht', -⟩ := dPairs_of_dl false hc hne
      have hkeep : (c, t') ∈ buKeep base delta key :=
        mem_buKeep_of_dl hfr ht' hcb hc
      have hnov : c ∉ overlapCols base delta key :=
        fun ho => hcb (mem_overlapCols.mp ho).1
      have hnbo : ¬ (c ∈ boCols base delta key ∧
          (c ++ "_r") ∈ (base.joinFull delta key "_r" false).cols) :=
        fun h => hcb (mem_boCols.mp h.1).1
      rw [hval c t' hkeep, if_neg hnov, if_neg hnbo]
      have h2 := cellR_dPart hjnd rd c t' ht' rb (hWb rb hrbm)
      rw [renN_of_not_base hcb] at h2
      rw [h2, hdv]
    · rw [hval key tk hkeep_k, if_neg hknov, if_pos (And.intro hkbo hksuf),
        cellR_pre_base rb _ key (hWb rb hrbm) hkb, hrbk, if_pos hor]
      rfl

end HeadToHead

namespace HeadToHead

theorem mem_buOut_cols_of_base {base delta : DF} {key c : String}
    (hfr : noSuffixClash base delta "_r") (hc : c ∈ base.cols) :
    c ∈ (buOut base delta key).cols := by
  rw [buOut_cols]
  refine List.mem_filter.mpr ⟨?_, ?_⟩
  · rw [joinFull_cols]
    exact List.mem_append_left _ hc
  · simpa using not_mem_buDrop_of_base hfr hc

theorem mem_buOut_cols_of_dl {base delta : DF} {key c : String}
    (hfr : noSuffixClash base delta "_r") (hc : c ∈ delta.cols) (hcb : c ∉ base.cols) :
    c ∈ (buOut base delta key).cols := by
  rw [buOut_cols]
  refine List.mem_filter.mpr ⟨?_, ?_⟩
  · rw [joinFull_cols]
    refine List.mem_append_right _ ?_
    obtain ⟨t, ht⟩ := mem_schema_of_mem_cols hc
    have htp : (c, t) ∈ dPairsD delta key false := List.mem_filter.mpr ⟨ht, by simp⟩
    have hm := List.mem_map_of_mem (fun p => renN base "_r" p.1) htp
    simpa [renN_of_not_base hcb] using hm
  · simpa using not_mem_buDrop_of_delta hfr hc

/-- Per-key content of `upsert_bets` (helper). -/
theorem upsert_bets_valAt (base delta : DF) (key : String) (out : DF)
    (hR : mergeReady base delta key "_r" false)
    (hfr : noSuffixClash base delta "_r")
    (hok : upsert_bets base delta key = .ok out) (k : PVal) :
    (out.hasKey key k ↔ (base.hasKey key k ∨ delta.hasKey key k)) ∧
    (∀ c ∈ overlapCols base delta key, ∀ t : DType, lookupL c base.schema = some t →
      out.valAt key k c =
        if base.hasKey key k ∨ delta.hasKey key k
        then some (padd ((base.valAt key k c).getD (zeroOf t))
                        ((delta.valAt key k c).getD (zeroOf t)))
        else none) ∧
    (∀ c ∈ base.cols, c ∉ delta.cols → out.valAt key k c = base.valAt key k c) ∧
    (∀ c ∈ delta.cols, c ∉ base.cols → c ≠ key →
      out.valAt key k c = delta.valAt key k c) ∧
    (out.valAt key k key =
      if base.hasKey key k ∨ delta.hasKey key k then some k else none) := by
  obtain ⟨hWb, hWd, hkb, hkd, hub, hud, hjnd, hdnd, hal⟩ := hR
  rw [upsert_bets_reduce base delta key hkb hkd hal] at hok
  have hkmem : key ∈ (buOut base delta key).cols := mem_buOut_cols_of_base hfr hkb
  obtain ⟨hhk, hvc⟩ := validar_valAt hok key (Or.inl hkmem) k
  have hbu := buOut_valAt base delta key hWb hWd hkb hkd hub hud hjnd hdnd hfr k
  refine ⟨?_, ?_, ?_, ?_, ?_⟩
  · rw [hhk]
    exact hbu.1
  · intro c hc t ht
    have hcm : c ∈ (buOut base delta key).cols :=
      mem_buOut_cols_of_base hfr (mem_overlapCols.mp hc).1
    rw [hvc c (Or.inl hcm)]
    exact hbu.2.1 c hc t ht
  · intro c hc hcd
    have hcm : c ∈ (buOut base delta key).cols := mem_buOut_cols_of_base hfr hc
    rw [hvc c (Or.inl hcm)]
    exact hbu.2.2.1 c hc hcd
  · intro c hc hcb hne
    have hcm : c ∈ (buOut base delta key).cols := mem_buOut_cols_of_dl hfr hc hcb
    rw [hvc c (Or.inl hcm)]
    exact hbu.2.2.2.1 c hc hcb hne
  · rw [hvc key (Or.inl hkmem)]
    exact hbu.2.2.2.2

end HeadToHead

namespace HeadToHead

/-! ### Characterisation of `upsert_odds` -/

theorem mapME_ok {α β : Type} (f : α → Except MergeErr β) (g : α → β) (l : List α)
    (h : ∀ x ∈ l, f x = .ok (g x)) : mapME f l = .ok (l.map g) := by
  induction l with
  | nil => rfl
  | cons a l ih =>
    unfold mapME
    rw [h a (List.mem_cons_self a l), ih (fun x hx => h x (List.mem_cons_of_mem _ hx))]
    rfl

theorem mem_dedupAux {α : Type} [DecidableEq α] (x : α) (seen l : List α) :
    x ∈ dedupAux seen l ↔ (x ∈ l ∧ x ∉ seen) := by
  induction l generalizing seen with
  | nil => simp [dedupAux]
  | cons a l ih =>
    unfold dedupAux
    by_cases h : a ∈ seen
    · rw [if_pos h, ih]
      constructor
      · rintro ⟨hx, hs⟩
        exact ⟨List.mem_cons_of_mem _ hx, hs⟩
      · rintro ⟨hx, hs⟩
        rcases List.mem_cons.mp hx with rfl | hx'
        · exact absurd h hs
        · exact ⟨hx', hs⟩
    · rw [if_neg h]
      rw [List.mem_cons, ih]
      constructor
      · rintro (rfl | ⟨hx, hs⟩)
        · exact ⟨List.mem_cons_self _ _, h⟩
        · refine ⟨List.mem_cons_of_mem _ hx, fun hx' => hs (List.mem_cons_of_mem _ hx')⟩
      · rintro ⟨hx, hs⟩
        by_cases hxa : x = a
        · exact Or.inl hxa
        · right
          have hx' : x ∈ l := by
            rcases List.mem_cons.mp hx with h' | h'
            · exact absurd h' hxa
            · exact h'
          refine ⟨hx', fun hmem => ?_⟩
          rcases List.mem_cons.mp hmem with h' | h'
          · exact hxa h'
          · exact hs h' 

theorem mem_dedupF {α : Type} [DecidableEq α] (x : α) (l : List α) :
    x ∈ dedupF l ↔ x ∈ l := by
  unfold dedupF
  rw [mem_dedupAux]
  simp

theorem dedupAux_nodup {α : Type} [DecidableEq α] (seen l : List α) :
    (dedupAux seen l).Nodup := by
  induction l generalizing seen with
  | nil => exact List.nodup_nil
  | cons a l ih =>
    unfold dedupAux
    by_cases h : a ∈ seen
    · rw [if_pos h]
      exact ih seen
    · rw [if_neg h]
      refine List.nodup_cons.mpr ⟨?_, ih (a :: seen)⟩
      intro hmem
      exact ((mem_dedupAux a (a :: seen) l).mp hmem).2 (List.mem_cons_self _ _)

theorem dedupF_nodup {α : Type} [DecidableEq α] (l : List α) : (dedupF l).Nodup :=
  dedupAux_nodup [] l

theorem findq_eq_self {α : Type} [DecidableEq α] (v : α) (l : List α) :
    l.find? (fun x => decide (x = v)) = if v ∈ l then some v else none := by
  induction l with
  | nil => simp
  | cons a l ih =>
    by_cases h : a = v
    · subst h
      rw [List.find?_cons_of_pos _ (by simp), if_pos (List.mem_cons_self a l)]
    · rw [List.find?_cons_of_neg _ (by simpa using h), ih]
      by_cases hv : v ∈ l
      · rw [if_pos hv, if_pos (List.mem_cons_of_mem _ hv)]
      · rw [if_neg hv, if_neg]
        intro hmem
        rcases List.mem_cons.mp hmem with rfl | hm
        · exact h rfl
        · exact hv hm

theorem headq_map {α β : Type} (g : α → β) (l : List α) :
    (l.map g).head? = l.head?.map g := by
  cases l <;> rfl

theorem insertL_map {α β : Type} (le' : β → β → Bool) (le : α → α → Bool) (g : α → β)
    (h : ∀ x y, le' (g x) (g y) = le x y) (a : α) (l : List α) :
    insertL le' (g a) (l.map g) = (insertL le a l).map g := by
  induction l with
  | nil => rfl
  | cons b l ih =>
    show (if le' (g a) (g b) = true then g a :: g b :: List.map g l
          else g b :: insertL le' (g a) (List.map g l)) =
      List.map g (if le a b = true then a :: b :: l else b :: insertL le a l)
    rw [h a b]
    by_cases hle : le a b = true
    · rw [if_pos hle, if_pos hle]
      rfl
    · rw [if_neg hle, if_neg hle, List.map_cons, ih]

theorem sortL_map {α β : Type} (le' : β → β → Bool) (le : α → α → Bool) (g : α → β)
    (h : ∀ x y, le' (g x) (g y) = le x y) (l : List α) :
    sortL le' (l.map g) = (sortL le l).map g := by
  induction l with
  | nil => rfl
  | cons a l ih =>
    unfold sortL
    rw [List.map_cons]
    show insertL le' (g a) ((sortL le' (l.map g))) = _
    rw [ih, insertL_map le' le g h]

theorem mapD_congr {α β : Type} (f g : α → β) (l : List α)
    (h : ∀ a ∈ l, f a = g a) : l.map f = l.map g := by
  induction l with
  | nil => rfl
  | cons a l ih =>
    rw [List.map_cons, List.map_cons, h a (List.mem_cons_self a l),
      ih (fun a ha => h a (List.mem_cons_of_mem _ ha))]

theorem lookupL_map_const {α : Type} (c : String) (l : List String) (v : α) :
    lookupL c (l.map (fun x => (x, v))) = if c ∈ l then some v else none := by
  induction l with
  | nil => simp [lookupL]
  | cons a l ih =>
    rw [List.map_cons]
    unfold lookupL
    by_cases h : c = a
    · subst h
      rw [if_pos rfl, if_pos (List.mem_cons_self c l)]
    · rw [if_neg h, ih]
      by_cases hv : c ∈ l
      · rw [if_pos hv, if_pos (List.mem_cons_of_mem _ hv)]
      · rw [if_neg hv, if_neg]
        intro hmem
        rcases List.mem_cons.mp hmem with h' | hm
        · exact h h'
        · exact hv hm

theorem cellR_map_self (ns : List String) (F : String → Cell) (c : String)
    (hnd : ns.Nodup) (hc : c ∈ ns) :
    cellR (ns.map (fun x => (x, F x))) c = F c := by
  have h := cellR_map_of_nodup ns (fun x => x) F c (by simpa using hnd) hc
  simpa using h

theorem lookupL_map_self {α : Type} (ns : List String) (F : String → α) (c : String)
    (hnd : ns.Nodup) (hc : c ∈ ns) :
    lookupL c (ns.map (fun x => (x, F x))) = some (F c) := by
  have h := lookupL_map_of_nodup ns (fun x => x) F c (by simpa using hnd) hc
  simpa using h

theorem superType_self (t : DType) : superType t t = some t := by
  cases t <;> rfl

theorem superType_null_right (t : DType) : superType t .null = some t := by
  cases t <;> rfl

theorem superType_null_left (t : DType) : superType .null t = some t := by
  cases t <;> rfl

end HeadToHead

namespace HeadToHead

theorem filterMap_opt_eq {α : Type} (ns : List String) (F : String → Option α)
    (G : String → α) (h : ∀ c ∈ ns, F c = some (G c)) :
    ns.filterMap (fun c => (F c).map (fun t => (c, t))) = ns.map (fun c => (c, G c)) := by
  induction ns with
  | nil => rfl
  | cons n ns ih =>
    rw [List.filterMap_cons, h n (List.mem_cons_self n ns), Option.map_some',
      List.map_cons, ih (fun c hc => h c (List.mem_cons_of_mem _ hc))]

theorem alinear_lookup (df : DF) (todas : List String) (c : String) (hc : c ∈ todas) :
    lookupL c (df.schema ++
      (todas.filter (fun c => decide (c ∉ df.cols))).map (fun c => (c, DType.null))) =
      some ((df.dtypeOf c).getD .null) := by
  rw [lookupL_append]
  by_cases h : c ∈ df.cols
  · obtain ⟨t, ht⟩ := Option.isSome_iff_exists.mp ((dtypeOf_isSome_iff df c).mpr h)
    have ht2 : lookupL c df.schema = some t := ht
    rw [ht2]
    rw [show df.dtypeOf c = some t from ht]
    rfl
  · have hn : lookupL c df.schema = none := lookupL_eq_none_of_not_mem _ _ h
    have hn2 : df.dtypeOf c = none := hn
    rw [hn, hn2]
    rw [lookupL_map_const, if_pos (List.mem_filter.mpr ⟨hc, by simpa using h⟩)]
    rfl

theorem alinear_schema (df : DF) (todas : List String) :
    (alinear df todas).schema =
      todas.map (fun c => (c, (df.dtypeOf c).getD .null)) := by
  unfold alinear
  dsimp only
  exact filterMap_opt_eq todas _ _ (fun c hc => alinear_lookup df todas c hc)

theorem alinear_dtypeOf (df : DF) (todas : List String) (c : String)
    (hnd : todas.Nodup) (hc : c ∈ todas) :
    (alinear df todas).dtypeOf c = some ((df.dtypeOf c).getD .null) := by
  show lookupL c (alinear df todas).schema = _
  rw [alinear_schema]
  exact lookupL_map_self todas _ c hnd hc

theorem alinear_rows (df : DF) (todas : List String) (hW : df.WF) :
    (alinear df todas).rows =
      df.rows.map (fun r => todas.map (fun c => (c, cellR r c))) := by
  unfold alinear
  dsimp only [DF.select]
  rw [List.map_map]
  apply mapD_congr
  intro r hr
  show rowProj todas (r ++ _) = _
  rw [rowProj_eq_map]
  · apply mapD_congr
    intro c hc
    by_cases h : c ∈ df.cols
    · rw [cellR_append_left c r _ (by rw [hW r hr]; exact h)]
    · rw [cellR_append_right c r _ (by rw [hW r hr]; exact h)]
      have h1 : cellR ((todas.filter (fun c => decide (c ∉ df.cols))).map
          (fun c => (c, (none : Cell)))) c = none := by
        unfold cellR
        rw [lookupL_map_const]
        by_cases hf : c ∈ todas.filter (fun c => decide (c ∉ df.cols))
        · rw [if_pos hf]
        · rw [if_neg hf]
      have h2 : cellR r c = none := by
        unfold cellR
        rw [lookupL_eq_none_of_not_mem c r (by rw [hW r hr]; exact h)]
      rw [h1, h2]
  · intro c hc
    rw [lookupL_isSome_iff, List.map_append, hW r hr]
    by_cases h : c ∈ df.cols
    · exact List.mem_append_left _ h
    · refine List.mem_append_right _ ?_
      have : ((todas.filter (fun c => decide (c ∉ df.cols))).map
          (fun c => (c, (none : Cell)))).map Prod.fst =
          todas.filter (fun c => decide (c ∉ df.cols)) := by
        rw [List.map_map]
        exact List.map_id _
      rw [this]
      exact List.mem_filter.mpr ⟨hc, by simpa using h⟩

theorem exbind_ok {α β : Type} (a : α) (f : α → Except MergeErr β) :
    (Except.ok a >>= f) = f a := rfl

end HeadToHead

namespace HeadToHead

theorem dtypeOf_eq_none_of_not_mem (df : DF) (c : String) (h : c ∉ df.cols) :
    df.dtypeOf c = none :=
  lookupL_eq_none_of_not_mem c df.schema h

theorem cellR_eq_none_of_not_mem (r : Row) (c : String) (h : c ∉ r.map Prod.fst) :
    cellR r c = none := by
  unfold cellR
  rw [lookupL_eq_none_of_not_mem c r h]

theorem castRow_alinear (x : DF) (todas : List String) (G : String → DType)
    (hnd : todas.Nodup) (hWx : x.WF)
    (hGx : ∀ c ∈ todas, c ∈ x.cols → G c = (x.dtypeOf c).getD .null)
    (r : Row) (hr : r ∈ (alinear x todas).rows) :
    mapME (fun p =>
      if (alinear x todas).dtypeOf p.1 = some p.2 then Except.ok (p.1, cellR r p.1)
      else match castCell p.2 (cellR r p.1) with
        | some cell => Except.ok (p.1, cell)
        | none => Except.error (MergeErr.castFail p.1))
      (todas.map (fun c => (c, G c))) = .ok r := by
  rw [alinear_rows x todas hWx] at hr
  obtain ⟨rb, hrb, rfl⟩ := List.mem_map.mp hr
  have hcell : ∀ c ∈ todas,
      cellR (todas.map (fun c => (c, cellR rb c))) c = cellR rb c := by
    intro c hc
    exact cellR_map_self todas _ c hnd hc
  have hstep : ∀ p ∈ todas.map (fun c => (c, G c)),
      (if (alinear x todas).dtypeOf p.1 = some p.2
        then Except.ok (p.1, cellR (todas.map (fun c => (c, cellR rb c))) p.1)
        else match castCell p.2 (cellR (todas.map (fun c => (c, cellR rb c))) p.1) with
          | some cell => Except.ok (p.1, cell)
          | none => Except.error (MergeErr.castFail p.1)) =
      Except.ok (p.1, cellR rb p.1) := by
    intro p hp
    obtain ⟨c, hc, rfl⟩ := List.mem_map.mp hp
    dsimp only
    rw [alinear_dtypeOf x todas c hnd hc, hcell c hc]
    by_cases hxc : c ∈ x.cols
    · rw [hGx c hc hxc, if_pos rfl]
    · have hxn : x.dtypeOf c = none := dtypeOf_eq_none_of_not_mem x c hxc
      have hnone : cellR rb c = none :=
        cellR_eq_none_of_not_mem rb c (by rw [hWx rb hrb]; exact hxc)
      rw [hxn]
      simp only [Option.getD_none]
      by_cases hifc : (some DType.null : Option DType) = some (G c)
      · rw [if_pos hifc]
      · rw [if_neg hifc, hnone]
        rfl
  rw [mapME_ok _ (fun p => (p.1, cellR rb p.1)) _ hstep, List.map_map]
  rfl

end HeadToHead

namespace HeadToHead

theorem concatDiagonal_alinear (b d : DF) (todas : List String)
    (hnd : todas.Nodup) (hWb : b.WF) (hWd : d.WF)
    (hag : ∀ c, c ∈ b.cols → c ∈ d.cols → b.dtypeOf c = d.dtypeOf c) :
    concatDiagonal (alinear b todas) (alinear d todas) =
      .ok ⟨todas.map (fun c => (c, (b.dtypeOf c).getD ((d.dtypeOf c).getD .null))),
           (b.rows ++ d.rows).map (fun r => todas.map (fun c => (c, cellR r c)))⟩ := by
  have hGb : ∀ c ∈ todas, c ∈ b.cols →
      (b.dtypeOf c).getD ((d.dtypeOf c).getD .null) = (b.dtypeOf c).getD .null := by
    intro c hc hbc
    obtain ⟨tb, htb⟩ := Option.isSome_iff_exists.mp ((dtypeOf_isSome_iff b c).mpr hbc)
    rw [htb]
    rfl
  have hGd : ∀ c ∈ todas, c ∈ d.cols →
      (b.dtypeOf c).getD ((d.dtypeOf c).getD .null) = (d.dtypeOf c).getD .null := by
    intro c hc hdc
    obtain ⟨td, htd⟩ := Option.isSome_iff_exists.mp ((dtypeOf_isSome_iff d c).mpr hdc)
    by_cases hbc : c ∈ b.cols
    · rw [hag c hbc hdc, htd]
      rfl
    · rw [dtypeOf_eq_none_of_not_mem b c hbc, htd]
      rfl
  have hsup : ∀ c ∈ todas,
      superType ((b.dtypeOf c).getD .null) ((d.dtypeOf c).getD .null) =
        some ((b.dtypeOf c).getD ((d.dtypeOf c).getD .null)) := by
    intro c hc
    by_cases hbc : c ∈ b.cols
    · rw [hGb c hc hbc]
      by_cases hdc : c ∈ d.cols
      · have heq : (b.dtypeOf c).getD DType.null = (d.dtypeOf c).getD DType.null := by
          rw [hag c hbc hdc]
        rw [← heq]
        exact superType_self _
      · rw [dtypeOf_eq_none_of_not_mem d c hdc]
        exact superType_null_right _
    · rw [dtypeOf_eq_none_of_not_mem b c hbc]
      simp only [Option.getD_none]
      exact superType_null_left _
  have hsch : mapME (fun p =>
      match superType p.2 (((alinear d todas).dtypeOf p.1).getD .null) with
      | some t => Except.ok (p.1, t)
      | none => Except.error (MergeErr.superTypeFail p.1)) (alinear b todas).schema =
      .ok (todas.map (fun c => (c, (b.dtypeOf c).getD ((d.dtypeOf c).getD .null)))) := by
    rw [alinear_schema b todas]
    have hstep : ∀ p : String × DType,
        p ∈ todas.map (fun c => (c, (b.dtypeOf c).getD DType.null)) →
        (match superType p.2 (((alinear d todas).dtypeOf p.1).getD .null) with
         | some t => Except.ok (p.1, t)
         | none => Except.error (MergeErr.superTypeFail p.1)) =
        Except.ok (p.1, (b.dtypeOf p.1).getD ((d.dtypeOf p.1).getD .null)) := by
      intro p hp
      obtain ⟨c, hc, rfl⟩ := List.mem_map.mp hp
      dsimp only
      rw [alinear_dtypeOf d todas c hnd hc]
      simp only [Option.getD_some]
      rw [hsup c hc]
    have h := mapME_ok _
      (fun p : String × DType =>
        (p.1, (b.dtypeOf p.1).getD ((d.dtypeOf p.1).getD .null))) _ hstep
    rw [List.map_map] at h
    exact h
  have hra : mapME (fun r => mapME (fun p =>
      if (alinear b todas).dtypeOf p.1 = some p.2 then Except.ok (p.1, cellR r p.1)
      else match castCell p.2 (cellR r p.1) with
        | some cell => Except.ok (p.1, cell)
        | none => Except.error (MergeErr.castFail p.1))
      (todas.map (fun c => (c, (b.dtypeOf c).getD ((d.dtypeOf c).getD .null)))))
      (alinear b todas).rows = .ok ((alinear b todas).rows) := by
    have h := mapME_ok _ id ((alinear b todas).rows)
      (fun r hr => castRow_alinear b todas _ hnd hWb hGb r hr)
    rw [List.map_id] at h
    exact h
  have hrb : mapME (fun r => mapME (fun p =>
      if (alinear d todas).dtypeOf p.1 = some p.2 then Except.ok (p.1, cellR r p.1)
      else match castCell p.2 (cellR r p.1) with
        | some cell => Except.ok (p.1, cell)
        | none => Except.error (MergeErr.castFail p.1))
      (todas.map (fun c => (c, (b.dtypeOf c).getD ((d.dtypeOf c).getD .null)))))
      (alinear d todas).rows = .ok ((alinear d todas).rows) := by
    have h := mapME_ok _ id ((alinear d todas).rows)
      (fun r hr => castRow_alinear d todas _ hnd hWd hGd r hr)
    rw [List.map_id] at h
    exact h
  unfold concatDiagonal
  rw [hsch]
  simp only [exbind_ok]
  rw [hra]
  simp only [exbind_ok]
  rw [hrb]
  simp only [exbind_ok]
  rw [alinear_rows b todas hWb, alinear_rows d todas hWd, ← List.map_append]
  rfl

end HeadToHead

namespace HeadToHead

theorem filterq_map {α β : Type} (g : α → β) (p : β → Bool) (l : List α) :
    (l.map g).filter p = (l.filter (fun a => p (g a))).map g := by
  induction l with
  | nil => rfl
  | cons a l ih =>
    simp only [List.map_cons, List.filter_cons]
    by_cases h : p (g a)
    · rw [if_pos h, if_pos h, List.map_cons, ih]
    · rw [if_neg h, if_neg h, ih]

theorem filterB_congr {α : Type} (p q : α → Bool) (l : List α)
    (h : ∀ a ∈ l, p a = q a) : l.filter p = l.filter q := by
  induction l with
  | nil => rfl
  | cons a l ih =>
    simp only [List.filter_cons, h a (List.mem_cons_self a l),
      ih (fun a h' => h a (List.mem_cons_of_mem _ h'))]

theorem cellR_cons_self (c : String) (v : Cell) (t : Row) :
    cellR ((c, v) :: t) c = v := by
  unfold cellR lookupL
  rw [if_pos rfl]

theorem cellR_cons_ne (c c' : String) (v : Cell) (t : Row) (h : c ≠ c') :
    cellR ((c', v) :: t) c = cellR t c := by
  have hl : lookupL c ((c', v) :: t) = lookupL c t := by
    show (if c = c' then some v else lookupL c t) = lookupL c t
    rw [if_neg h]
  unfold cellR
  rw [hl]

/-- `rowAt` of the grouped frame over aligned rows: one hit exactly when the
key cell occurs, carrying the per-column aggregation of the key's group. -/
theorem group_alinear_rowAt (rows0 : List Row) (schT : List (String × DType))
    (todas : List String) (pk ts : String) (ant : List String)
    (hnd : todas.Nodup) (hpk : pk ∈ todas) (k : PVal) :
    (group_by_agg ⟨schT, rows0.map (fun r => todas.map (fun c => (c, cellR r c)))⟩
        pk ts ant todas).rowAt pk k =
      if (some k : Cell) ∈ rows0.map (fun r => cellR r pk)
      then some ((pk, (some k : Cell)) ::
        (todas.filter (fun c => decide (c ≠ pk))).map (fun c =>
          (c, match (sortL (aggLe ts c (decide (c ∉ ant)))
                (((rows0.map (fun r => todas.map (fun c => (c, cellR r c)))).filter
                  (fun r => decide (cellR r pk = some k))))).head? with
              | some r => cellR r c
              | none => none)))
      else none := by
  unfold group_by_agg DF.rowAt
  dsimp only
  have hkeys : (rows0.map (fun r => todas.map (fun c => (c, cellR r c)))).map
      (fun r => cellR r pk) = rows0.map (fun r => cellR r pk) := by
    rw [List.map_map]
    apply mapD_congr
    intro r hr
    exact cellR_map_self todas _ pk hnd hpk
  rw [hkeys]
  have hpred : ∀ kc ∈ dedupF (rows0.map (fun r => cellR r pk)),
      decide (cellR ((pk, kc) ::
        (todas.filter (fun c => decide (c ≠ pk))).map (fun c =>
          (c, match (sortL (aggLe ts c (decide (c ∉ ant)))
                (((rows0.map (fun r => todas.map (fun c => (c, cellR r c)))).filter
                  (fun r => decide (cellR r pk = kc))))).head? with
              | some r => cellR r c
              | none => none))) pk = some k) = decide (kc = some k) := by
    intro kc hkc
    rw [cellR_cons_self]
  rw [findq_map_congr _ _ _ _ hpred, findq_eq_self]
  by_cases hm : (some k : Cell) ∈ rows0.map (fun r => cellR r pk)
  · rw [if_pos ((mem_dedupF _ _).mpr hm), if_pos hm]
    rfl
  · rw [if_neg (fun hx => hm ((mem_dedupF _ _).mp hx)), if_neg hm]
    rfl

end HeadToHead

namespace HeadToHead

/-- `hasKey` of the grouped frame: exactly the key cells occurring in the
stacked rows. -/
theorem group_alinear_hasKey (rows0 : List Row) (schT : List (String × DType))
    (todas : List String) (pk ts : String) (ant : List String)
    (hnd : todas.Nodup) (hpk : pk ∈ todas) (k : PVal) :
    (group_by_agg ⟨schT, rows0.map (fun r => todas.map (fun c => (c, cellR r c)))⟩
        pk ts ant todas).hasKey pk k ↔ ∃ r ∈ rows0, cellR r pk = some k := by
  unfold DF.hasKey
  rw [group_alinear_rowAt rows0 schT todas pk ts ant hnd hpk k]
  by_cases hm : (some k : Cell) ∈ rows0.map (fun r => cellR r pk)
  · rw [if_pos hm]
    simp only [Option.isSome_some, true_iff]
    obtain ⟨r, hr, hrk⟩ := List.mem_map.mp hm
    exact ⟨r, hr, hrk⟩
  · rw [if_neg hm]
    simp only [Option.isSome_none, Bool.false_eq_true, false_iff]
    intro ⟨r, hr, hrk⟩
    exact hm (List.mem_map.mpr ⟨r, hr, hrk⟩)

/-- `valAt` of the grouped frame: per column, the head of the group's rows
under the column's candidate order, read back in the un-aligned rows. -/
theorem group_alinear_valAt (rows0 : List Row) (schT : List (String × DType))
    (todas : List String) (pk ts : String) (ant : List String)
    (hnd : todas.Nodup) (hpk : pk ∈ todas) (hts : ts ∈ todas) (k : PVal)
    (c : String) (hc : c ∈ todas) (hcpk : c ≠ pk) :
    (group_by_agg ⟨schT, rows0.map (fun r => todas.map (fun c => (c, cellR r c)))⟩
        pk ts ant todas).valAt pk k c =
      match (sortL (aggLe ts c (decide (c ∉ ant)))
          (rows0.filter (fun r => decide (cellR r pk = some k)))).head? with
      | some r => cellR r c
      | none => none := by
  unfold DF.valAt
  rw [group_alinear_rowAt rows0 schT todas pk ts ant hnd hpk k]
  have hgrp : (rows0.map (fun r => todas.map (fun c => (c, cellR r c)))).filter
      (fun r => decide (cellR r pk = some k)) =
      (rows0.filter (fun r => decide (cellR r pk = some k))).map
        (fun r => todas.map (fun c => (c, cellR r c))) := by
    rw [filterq_map]
    rw [filterB_congr _ (fun r => decide (cellR r pk = some k)) rows0
      (fun r hr => by rw [cellR_map_self todas _ pk hnd hpk])]
  by_cases hm : (some k : Cell) ∈ rows0.map (fun r => cellR r pk)
  · rw [if_pos hm]
    dsimp only
    have hcell : cellR ((pk, (some k : Cell)) ::
        (todas.filter (fun c => decide (c ≠ pk))).map (fun c =>
          (c, match (sortL (aggLe ts c (decide (c ∉ ant)))
                (((rows0.map (fun r => todas.map (fun c => (c, cellR r c)))).filter
                  (fun r => decide (cellR r pk = some k))))).head? with
              | some r => cellR r c
              | none => none))) c =
        (match (sortL (aggLe ts c (decide (c ∉ ant)))
            (((rows0.map (fun r => todas.map (fun c => (c, cellR r c)))).filter
              (fun r => decide (cellR r pk = some k))))).head? with
         | some r => cellR r c
         | none => none) := by
      rw [cellR_cons_ne c pk _ _ hcpk]
      have hmem : c ∈ todas.filter (fun c => decide (c ≠ pk)) :=
        List.mem_filter.mpr ⟨hc, by simpa using hcpk⟩
      unfold cellR
      rw [lookupL_map_self _ _ c (hnd.filter _) hmem]
    rw [hcell, hgrp]
    have hsort : sortL (aggLe ts c (decide (c ∉ ant)))
        ((rows0.filter (fun r => decide (cellR r pk = some k))).map
          (fun r => todas.map (fun c => (c, cellR r c)))) =
        (sortL (aggLe ts c (decide (c ∉ ant)))
          (rows0.filter (fun r => decide (cellR r pk = some k)))).map
          (fun r => todas.map (fun c => (c, cellR r c))) := by
      apply sortL_map
      intro x y
      unfold aggLe
      rw [cellR_map_self todas _ c hnd hc, cellR_map_self todas _ c hnd hc,
        cellR_map_self todas _ ts hnd hts, cellR_map_self todas _ ts hnd hts]
    rw [hsort, headq_map]
    cases hh : (sortL (aggLe ts c (decide (c ∉ ant)))
        (rows0.filter (fun r => decide (cellR r pk = some k)))).head? with
    | none => rfl
    | some r =>
      simp only [Option.map_some']
      rw [cellR_map_self todas _ c hnd hc]
  · rw [if_neg hm]
    have h0 : rows0.filter (fun r => decide (cellR r pk = some k)) = [] := by
      apply filterD_eq_nil
      intro r hr
      by_cases hx : cellR r pk = some k
      · exact absurd (List.mem_map.mpr ⟨r, hr, hx⟩) hm
      · simpa using hx
    rw [h0]
    rfl

end HeadToHead

namespace HeadToHead

/-- Per-key content of the Timestamp-Arbitrated Merge: a key appears iff it
appears in either input's rows; every united non-key column reads the head
of the key's candidates under `aggLe` (null-last, then timestamp descending
unless the column prefers oldest), read in the stacked original rows. -/
theorem upsert_odds_valAt (b d : DF) (pk ts : String) (rec ant : List String) (out : DF)
    (hok : upsert_odds b d pk ts rec ant = .ok out)
    (hready : oddsReady b d) (k : PVal) :
    (out.hasKey pk k ↔ ∃ r ∈ b.rows ++ d.rows, cellR r pk = some k) ∧
    (∀ c, c ∈ dedupF (b.cols ++ d.cols) → c ≠ pk →
      out.valAt pk k c =
        match (sortL (aggLe ts c (decide (c ∉ ant)))
            ((b.rows ++ d.rows).filter (fun r => decide (cellR r pk = some k)))).head? with
        | some r => cellR r c
        | none => none) := by
  obtain ⟨hWb, hWd, hag⟩ := hready
  have hnd : (dedupF (b.cols ++ d.cols)).Nodup := dedupF_nodup _
  unfold upsert_odds at hok
  dsimp only at hok
  split_ifs at hok with hpkT htsT
  rw [concatDiagonal_alinear b d (dedupF (b.cols ++ d.cols)) hnd hWb hWd hag] at hok
  simp only [exbind_ok] at hok
  have hcols : ∀ c ∈ dedupF (b.cols ++ d.cols),
      c ∈ (group_by_agg ⟨(dedupF (b.cols ++ d.cols)).map (fun c =>
            (c, (b.dtypeOf c).getD ((d.dtypeOf c).getD .null))),
          (b.rows ++ d.rows).map (fun r => (dedupF (b.cols ++ d.cols)).map
            (fun c => (c, cellR r c)))⟩
          pk ts ant (dedupF (b.cols ++ d.cols))).cols := by
    intro c hcT
    show c ∈ List.map Prod.fst (group_by_agg _ pk ts ant _).schema
    unfold group_by_agg
    dsimp only
    simp only [List.map_cons]
    by_cases hcp : c = pk
    · exact hcp ▸ List.mem_cons_self _ _
    · refine List.mem_cons_of_mem _ ?_
      have hsome : ∀ c ∈ (dedupF (b.cols ++ d.cols)).filter (fun c => decide (c ≠ pk)),
          DF.dtypeOf ⟨(dedupF (b.cols ++ d.cols)).map (fun c =>
              (c, (b.dtypeOf c).getD ((d.dtypeOf c).getD .null))),
            (b.rows ++ d.rows).map (fun r => (dedupF (b.cols ++ d.cols)).map
              (fun c => (c, cellR r c)))⟩ c =
            some ((b.dtypeOf c).getD ((d.dtypeOf c).getD .null)) := by
        intro c hcf
        exact lookupL_map_self _ _ c hnd (List.mem_filter.mp hcf).1
      rw [filterMap_opt_eq _ _ _ hsome, List.map_map]
      have : (Prod.fst ∘ fun c : String =>
          (c, (b.dtypeOf c).getD ((d.dtypeOf c).getD DType.null))) = id := rfl
      rw [this, List.map_id]
      exact List.mem_filter.mpr ⟨hcT, by simpa using hcp⟩
  obtain ⟨hkeq, hvals⟩ := validar_valAt hok pk (Or.inl (hcols pk hpkT)) k
  constructor
  · rw [hkeq]
    exact group_alinear_hasKey (b.rows ++ d.rows) _ _ pk ts ant hnd hpkT k
  · intro c hcT hcpk
    rw [hvals c (Or.inl (hcols c hcT))]
    exact group_alinear_valAt (b.rows ++ d.rows) _ _ pk ts ant hnd hpkT htsT k c hcT hcpk

end HeadToHead

namespace HeadToHead

theorem pvalLe_total (x y : PVal) : (pvalLe x y || pvalLe y x) = true := by
  cases x <;> cases y <;> simp [pvalLe, pvalRank, le_total]

theorem pvalLe_trans (x y z : PVal) :
    pvalLe x y = true → pvalLe y z = true → pvalLe x z = true := by
  cases x <;> cases y <;> cases z <;> simp [pvalLe, pvalRank] <;>
    exact fun h1 h2 => le_trans h1 h2

theorem mem_insertL {α : Type} (le : α → α → Bool) (a x : α) (l : List α) :
    x ∈ insertL le a l ↔ x = a ∨ x ∈ l := by
  induction l with
  | nil => simp [insertL]
  | cons b l ih =>
    unfold insertL
    by_cases hab : le a b
    · rw [if_pos hab]
      simp
    · rw [if_neg hab]
      simp only [List.mem_cons, ih]
      tauto

theorem mem_sortL {α : Type} (le : α → α → Bool) (x : α) (l : List α) :
    x ∈ sortL le l ↔ x ∈ l := by
  induction l with
  | nil => simp [sortL]
  | cons a l ih =>
    unfold sortL
    rw [mem_insertL, ih]
    simp

theorem insertL_ne_nil {α : Type} (le : α → α → Bool) (a : α) (l : List α) :
    insertL le a l ≠ [] := by
  cases l with
  | nil => simp [insertL]
  | cons b t =>
    unfold insertL
    split <;> simp

theorem sortL_eq_nil_iff {α : Type} (le : α → α → Bool) (l : List α) :
    sortL le l = [] ↔ l = [] := by
  cases l with
  | nil => simp [sortL]
  | cons a l =>
    unfold sortL
    simp only [insertL_ne_nil]
    simp

theorem sortL_head_mem {α : Type} (le : α → α → Bool) (l : List α) (m : α)
    (h : (sortL le l).head? = some m) : m ∈ l := by
  rw [← mem_sortL le m l]
  cases hs : sortL le l with
  | nil => rw [hs] at h; cases h
  | cons b t =>
    rw [hs] at h
    have : b = m := Option.some.inj h
    rw [← this]
    exact List.mem_cons_self _ _

theorem sortL_head_min {α : Type} (le : α → α → Bool)
    (htot : ∀ a b, (le a b || le b a) = true)
    (htrans : ∀ a b c, le a b = true → le b c = true → le a c = true) :
    ∀ (l : List α) (m : α), (sortL le l).head? = some m → ∀ x ∈ l, le m x = true := by
  intro l
  induction l with
  | nil => intro m h; cases h
  | cons a l ih =>
    intro m h x hx
    show le m x = true
    have hsa : sortL le (a :: l) = insertL le a (sortL le l) := rfl
    rw [hsa] at h
    cases hs : sortL le l with
    | nil =>
      rw [hs] at h
      have hm : m = a := by
        have : (insertL le a []).head? = some a := rfl
        rw [this] at h
        exact (Option.some.inj h).symm
      have hl : l = [] := (sortL_eq_nil_iff le l).mp hs
      subst hl
      rcases List.mem_cons.mp hx with hxa | hxl
      · rw [hm, hxa]
        have := htot a a
        simpa using this
      · cases hxl
    | cons b t =>
      rw [hs] at h
      have hb : ∀ y ∈ l, le b y = true := by
        intro y hy
        exact ih b (by rw [hs]; rfl) y hy
      unfold insertL at h
      by_cases hab : le a b
      · rw [if_pos hab] at h
        have hm : m = a := (Option.some.inj h).symm
        rcases List.mem_cons.mp hx with hxa | hxl
        · rw [hm, hxa]
          have := htot a a
          simpa using this
        · rw [hm]
          exact htrans a b x hab (hb x hxl)
      · rw [if_neg hab] at h
        have hm : m = b := (Option.some.inj h).symm
        rcases List.mem_cons.mp hx with hxa | hxl
        · rw [hm, hxa]
          have := htot a b
          rcases Bool.or_eq_true_iff.mp this with h1 | h2
          · exact absurd h1 hab
          · exact h2
        · rw [hm]
          exact hb x hxl

end HeadToHead

namespace HeadToHead

theorem cellLeTs_total (desc : Bool) (a b : Cell) :
    (cellLeTs desc a b || cellLeTs desc b a) = true := by
  cases a with
  | none => rfl
  | some x =>
    cases b with
    | none => rfl
    | some y =>
      show ((if desc then pvalLe y x else pvalLe x y) ||
        (if desc then pvalLe x y else pvalLe y x)) = true
      cases desc
      · simpa using pvalLe_total x y
      · simpa using pvalLe_total y x

theorem cellLeTs_trans (desc : Bool) (a b c : Cell) :
    cellLeTs desc a b = true → cellLeTs desc b c = true → cellLeTs desc a c = true := by
  cases a with
  | none => intro _ _; rfl
  | some x =>
    cases b with
    | none => intro h _; cases h
    | some y =>
      cases c with
      | none => intro _ h; cases h
      | some z =>
        show (if desc then pvalLe y x else pvalLe x y) = true →
          (if desc then pvalLe z y else pvalLe y z) = true →
          (if desc then pvalLe z x else pvalLe x z) = true
        cases desc
        · intro h1 h2
          simp only [Bool.false_eq_true, if_false] at h1 h2 ⊢
          exact pvalLe_trans x y z h1 h2
        · intro h1 h2
          simp only [if_true] at h1 h2 ⊢
          exact pvalLe_trans z y x h2 h1

theorem aggLe_total (ts c : String) (desc : Bool) (r1 r2 : Row) :
    (aggLe ts c desc r1 r2 || aggLe ts c desc r2 r1) = true := by
  unfold aggLe
  dsimp only
  by_cases h : (cellR r1 c).isNone = (cellR r2 c).isNone
  · rw [if_pos h, if_pos h.symm]
    exact cellLeTs_total desc _ _
  · rw [if_neg h, if_neg (fun hx => h hx.symm)]
    cases hn1 : (cellR r1 c).isNone <;> cases hn2 : (cellR r2 c).isNone <;> simp_all

theorem aggLe_trans (ts c : String) (desc : Bool) (r1 r2 r3 : Row) :
    aggLe ts c desc r1 r2 = true → aggLe ts c desc r2 r3 = true →
    aggLe ts c desc r1 r3 = true := by
  unfold aggLe
  dsimp only
  cases hn1 : (cellR r1 c).isNone <;> cases hn2 : (cellR r2 c).isNone <;>
    cases hn3 : (cellR r3 c).isNone <;> simp_all <;>
    exact fun a b => cellLeTs_trans desc _ _ _ a b

end HeadToHead

namespace HeadToHead

/-- The aggregated value of a column is null exactly when every candidate in
the group is null. -/
theorem aggHead_null_iff (ts c : String) (desc : Bool) (grp : List Row) :
    (match (sortL (aggLe ts c desc) grp).head? with
     | some r => cellR r c
     | none => none) = none ↔ ∀ r ∈ grp, cellR r c = none := by
  cases hh : (sortL (aggLe ts c desc) grp).head? with
  | none =>
    have hg : grp = [] := by
      cases hg : sortL (aggLe ts c desc) grp with
      | nil => exact (sortL_eq_nil_iff _ _).mp hg
      | cons a t => rw [hg] at hh; cases hh
    subst hg
    simp
  | some m =>
    dsimp only
    constructor
    · intro hv r hr
      have hmin := sortL_head_min (aggLe ts c desc) (aggLe_total ts c desc)
        (aggLe_trans ts c desc) grp m hh r hr
      unfold aggLe at hmin
      dsimp only at hmin
      rw [hv] at hmin
      simp only [Option.isNone_none] at hmin
      by_cases hn : cellR r c = none
      · exact hn
      · exfalso
        have hfalse : (cellR r c).isNone = false := by
          cases hcc : cellR r c with
          | none => exact absurd hcc hn
          | some w => rfl
        rw [hfalse] at hmin
        simp at hmin
    · intro hall
      exact hall m (sortL_head_mem _ _ _ hh)

/-- A non-null aggregated timestamp (descending order) is the maximum
non-null timestamp of the group. -/
theorem aggHead_max (ts : String) (grp : List Row) (v : PVal)
    (hv : (match (sortL (aggLe ts ts true) grp).head? with
           | some r => cellR r ts
           | none => none) = some v) :
    (∃ r ∈ grp, cellR r ts = some v) ∧
    (∀ r ∈ grp, ∀ w, cellR r ts = some w → pvalLe w v = true) := by
  rcases hh : (sortL (aggLe ts ts true) grp).head? with _ | m
  · rw [hh] at hv
    cases hv
  · rw [hh] at hv
    dsimp only at hv
    have hm : m ∈ grp := sortL_head_mem _ _ _ hh
    refine ⟨⟨m, hm, hv⟩, ?_⟩
    intro r hr w hw
    have hmin := sortL_head_min (aggLe ts ts true) (aggLe_total ts ts true)
      (aggLe_trans ts ts true) grp m hh r hr
    unfold aggLe at hmin
    dsimp only at hmin
    rw [hv, hw] at hmin
    simp only [Option.isNone_some, if_true] at hmin
    simpa [cellLeTs] using hmin

end HeadToHead

namespace HeadToHead

theorem exbind_ok_iff {α β : Type} (ma : Except MergeErr α) (f : α → Except MergeErr β)
    (b : β) : (ma >>= f) = .ok b ↔ ∃ a, ma = .ok a ∧ f a = .ok b := by
  cases ma with
  | error e =>
    constructor
    · intro h
      exact absurd h (by intro hx; cases hx)
    · rintro ⟨a, ha, _⟩
      cases ha
  | ok a =>
    constructor
    · intro h
      exact ⟨a, rfl, h⟩
    · rintro ⟨a', ha', hf⟩
      rw [Except.ok.inj ha']
      exact hf

theorem lookupL_of_mem_nodup {α : Type} (l : List (String × α)) (c : String) (v : α)
    (hmem : (c, v) ∈ l) (hnd : (l.map Prod.fst).Nodup) : lookupL c l = some v := by
  induction l with
  | nil => cases hmem
  | cons p l ih =>
    obtain ⟨c', v'⟩ := p
    simp only [List.map_cons, List.nodup_cons] at hnd
    rcases List.mem_cons.mp hmem with heq | hmem'
    · obtain ⟨h1, h2⟩ := Prod.mk.injEq .. ▸ heq
      injection heq with h1 h2
      subst h1
      subst h2
      show (if c = c then some v else lookupL c l) = some v
      rw [if_pos rfl]
    · have hne : c ≠ c' := by
        intro hx
        subst hx
        exact hnd.1 (List.mem_map.mpr ⟨(c, v), hmem', rfl⟩)
      show (if c = c' then some v' else lookupL c l) = some v
      rw [if_neg hne]
      exact ih hmem' hnd.2

/-- An `ok` result of the validator carries the canonical schema as a
prefix, its declared dtypes intact, with only non-canonical extras after. -/
theorem validar_shape {df out : DF} {esq : List (String × DType)} {pe : Bool}
    (hok : ordenar_y_validar df esq pe = .ok out)
    (hnd : (esq.map Prod.fst).Nodup) :
    ∃ e, out.schema = esq ++ e ∧
      (∀ p ∈ e, p.1 ∉ esq.map Prod.fst) ∧
      (∀ p ∈ esq, out.dtypeOf p.1 = some p.2) := by
  obtain ⟨hcov, htype, hout⟩ := validar_ok hok
  have hsch : out.schema =
      (esq.map Prod.fst).filterMap (fun c => (lookupL c df.schema).map (fun t => (c, t))) ++
      (df.cols.filter (fun c => decide (c ∉ esq.map Prod.fst))).filterMap
        (fun c => (lookupL c df.schema).map (fun t => (c, t))) := by
    rw [hout]
    show ((esq.map Prod.fst) ++ _).filterMap _ = _
    rw [List.filterMap_append]
  have hcanon : (esq.map Prod.fst).filterMap
      (fun c => (lookupL c df.schema).map (fun t => (c, t))) = esq := by
    have hstep : ∀ c ∈ esq.map Prod.fst,
        (lookupL c df.schema).map (fun t => (c, t)) =
        (lookupL c esq).map (fun t => (c, t)) := by
      intro c hc
      rw [show lookupL c df.schema = df.dtypeOf c from rfl, htype c hc]
    rw [List.filterMap_congr hstep]
    exact selfFilterMap_eq esq hnd
  refine ⟨_, by rw [hsch, hcanon], ?_, ?_⟩
  · intro p hp
    obtain ⟨c, hc, hpc⟩ := List.mem_filterMap.mp hp
    obtain ⟨t, _, hpt⟩ := Option.map_eq_some'.mp hpc
    have := (List.mem_filter.mp hc).2
    rw [← hpt]
    simpa using this
  · intro p hp
    show lookupL p.1 out.schema = some p.2
    rw [hsch, hcanon, lookupL_append,
      lookupL_of_mem_nodup esq p.1 p.2 hp hnd]

end HeadToHead

namespace HeadToHead

theorem canon_names_nodup : (head_to_head_schema.map Prod.fst).Nodup := by decide

theorem upsert_match_validated (base delta : DF) (key : String) (out : DF)
    (hok : upsert_match base delta key = .ok out) :
    ∃ df', ordenar_y_validar df' head_to_head_schema true = .ok out := by
  unfold upsert_match at hok
  dsimp only at hok
  by_cases hk : key ∈ delta.cols
  · rw [if_pos hk] at hok
    obtain ⟨d', hd', hval⟩ := (exbind_ok_iff _ _ _).mp hok
    exact ⟨_, hval⟩
  · rw [if_neg hk] at hok
    cases hok

theorem upsert_bets_validated (base delta : DF) (key : String) (out : DF)
    (hok : upsert_bets base delta key = .ok out) :
    ∃ df', ordenar_y_validar df' head_to_head_schema true = .ok out := by
  unfold upsert_bets at hok
  dsimp only at hok
  by_cases hk : key ∈ delta.cols
  · rw [if_pos hk] at hok
    obtain ⟨d', hd', hval⟩ := (exbind_ok_iff _ _ _).mp hok
    exact ⟨_, hval⟩
  · rw [if_neg hk] at hok
    cases hok

theorem upsert_odds_validated (base delta : DF) (pk ts : String)
    (rec ant : List String) (out : DF)
    (hok : upsert_odds base delta pk ts rec ant = .ok out) :
    ∃ df', ordenar_y_validar df' head_to_head_schema true = .ok out := by
  unfold upsert_odds at hok
  dsimp only at hok
  split_ifs at hok with h1 h2
  obtain ⟨combo, hcombo, hval⟩ := (exbind_ok_iff _ _ _).mp hok
  exact ⟨_, hval⟩

end HeadToHead

namespace HeadToHead

theorem cellNum_getD_i (cl : Cell) (h : cellNum .i64 cl = true) :
    ∃ x : Int, cl.getD (zeroOf .i64) = .i x := by
  cases cl with
  | none => exact ⟨0, rfl⟩
  | some v =>
    cases v with
    | i x => exact ⟨x, rfl⟩
    | f x => simp [cellNum] at h
    | s x => simp [cellNum] at h

theorem valAt_eq_none_of_not_hasKey (df : DF) (key : String) (k : PVal) (c : String)
    (h : ¬ df.hasKey key k) : df.valAt key k c = none := by
  unfold DF.valAt
  cases hr : df.rowAt key k with
  | none => rfl
  | some r =>
    exact absurd (by unfold DF.hasKey; rw [hr]; rfl) h

end HeadToHead

namespace HeadToHead

/-! ### The binary64 rounding of Float64 sums -/

theorem rne_intCast (n : ℤ) : rne (n : ℚ) = n := by
  unfold rne
  rw [Int.floor_intCast]
  rw [if_pos (by norm_num)]

theorem roundD_zero : roundD 0 = 0 := by
  unfold roundD
  rw [if_pos rfl]

theorem log2_eq {q : ℚ} {L : ℤ} (h0 : 0 < q) (h1 : (2:ℚ) ^ L ≤ q)
    (h2 : q < (2:ℚ) ^ (L + 1)) : Int.log 2 q = L := by
  have ha : L ≤ Int.log 2 q := by
    rw [← Int.zpow_le_iff_le_log Nat.one_lt_two h0]
    exact_mod_cast h1
  have hb : Int.log 2 q < L + 1 := by
    rw [← Int.lt_zpow_iff_log_lt Nat.one_lt_two h0]
    exact_mod_cast h2
  omega

/-- A rational already on the binary64 grid (53-bit significand) rounds to
itself. -/
theorem roundD_exact (m e : ℤ) (hm0 : m ≠ 0) (hm : |m| < 2 ^ 53) :
    roundD ((m : ℚ) * 2 ^ e) = (m : ℚ) * 2 ^ e := by
  have h2 : (0:ℚ) < 2 := by norm_num
  have h2ne : (2:ℚ) ≠ 0 := by norm_num
  have h2e : (0:ℚ) < 2 ^ e := zpow_pos h2 e
  have hmq : (m : ℚ) ≠ 0 := Int.cast_ne_zero.mpr hm0
  have hq0 : (m : ℚ) * 2 ^ e ≠ 0 := mul_ne_zero hmq (ne_of_gt h2e)
  have habs : |(m:ℚ) * 2 ^ e| = |(m:ℚ)| * 2 ^ e := by
    rw [abs_mul, abs_of_pos h2e]
  have hmlt : |(m:ℚ)| < 2 ^ (53:ℕ) := by
    rw [← Int.cast_abs]
    exact_mod_cast hm
  have hup : |(m:ℚ) * 2 ^ e| < 2 ^ (e + 53) := by
    rw [habs]
    calc |(m:ℚ)| * 2 ^ e < 2 ^ (53:ℕ) * 2 ^ e := mul_lt_mul_of_pos_right hmlt h2e
      _ = 2 ^ (e + 53) := by
          rw [← zpow_natCast (2:ℚ) 53, ← zpow_add₀ h2ne]
          norm_num [add_comm]
  have hL : Int.log 2 |(m:ℚ) * 2 ^ e| ≤ e + 52 := by
    have h := (Int.lt_zpow_iff_log_lt Nat.one_lt_two (abs_pos.mpr hq0)).mp
      (by exact_mod_cast hup)
    omega
  unfold roundD
  rw [if_neg hq0]
  set L := Int.log 2 |(m:ℚ) * 2 ^ e| with hLdef
  have hEe : 0 ≤ e - (L - 52) := by omega
  have hs : ((m:ℚ) * 2 ^ e) / 2 ^ (L - 52) =
      ((m * 2 ^ (e - (L - 52)).toNat : ℤ) : ℚ) := by
    rw [div_eq_iff (ne_of_gt (zpow_pos h2 (L - 52)))]
    push_cast
    rw [← zpow_natCast (2:ℚ) (e - (L - 52)).toNat, Int.toNat_of_nonneg hEe,
      mul_assoc, ← zpow_add₀ h2ne]
    have he : e - (L - 52) + (L - 52) = e := by omega
    rw [he]
  rw [hs, rne_intCast, ← hs]
  exact div_mul_cancel₀ _ (ne_of_gt (zpow_pos h2 (L - 52)))

theorem roundD_intCast (n : ℤ) (h0 : n ≠ 0) (h : |n| < 2 ^ 53) :
    roundD (n : ℚ) = n := by
  have := roundD_exact n 0 h0 h
  simpa using this

theorem roundD_one : roundD (1:ℚ) = 1 := by
  have := roundD_intCast 1 one_ne_zero (by norm_num)
  simpa using this

/-- The tie at the edge of the 53-bit significand: `2^53 + 1` is halfway
between the representable neighbours `2^53` and `2^53 + 2`, and ties-to-even
sends it down to `2^53` — the increment is absorbed. -/
theorem roundD_tie : roundD ((2:ℚ) ^ 53 + 1) = 2 ^ 53 := by
  have hpos : (0:ℚ) < 2 ^ 53 + 1 := by positivity
  have hq0 : ((2:ℚ) ^ 53 + 1) ≠ 0 := ne_of_gt hpos
  have habs : |(2:ℚ) ^ 53 + 1| = 2 ^ 53 + 1 := abs_of_pos hpos
  have hlog : Int.log 2 ((2:ℚ) ^ 53 + 1) = 53 := by
    apply log2_eq hpos
    · norm_num
    · norm_num
  unfold roundD
  rw [if_neg hq0, habs, hlog]
  have he : (53:ℤ) - 52 = 1 := by norm_num
  rw [he]
  have hs : ((2:ℚ) ^ 53 + 1) / 2 ^ (1:ℤ) = 2 ^ 52 + 1/2 := by
    rw [zpow_one, div_eq_iff (two_ne_zero)]
    ring
  rw [hs]
  unfold rne
  have hfl : ⌊(2:ℚ) ^ 52 + 1/2⌋ = 2 ^ 52 := by
    apply Int.floor_eq_iff.mpr
    constructor
    · push_cast
      norm_num
    · push_cast
      norm_num
  rw [hfl]
  rw [if_neg (by push_cast; norm_num), if_neg (by push_cast; norm_num),
    if_pos ⟨2 ^ 51, by norm_num⟩]
  push_cast
  rw [zpow_one]
  ring

end HeadToHead

namespace HeadToHead

theorem padd_i (a b : Int) : padd (.i a) (.i b) = .i (a + b) := rfl

theorem padd_f (a b : ℚ) : padd (.f a) (.f b) = .f (roundD (a + b)) := rfl

/-- The accumulated value of an Int64 overlap column is insensitive to the
order of the two delta batches (integer addition is exact; the Float64 case
fails under binary64 rounding, see the C8 counterexample). -/
theorem bets_val_comm {t : DType} (hnum : t = .i64)
    (B K1 K2 : Prop) [Decidable B] [Decidable K1] [Decidable K2]
    (b0 v1 v2 : Cell)
    (hb : cellNum t b0 = true) (h1 : cellNum t v1 = true) (h2 : cellNum t v2 = true)
    (hbB : ¬B → b0 = none) (h1K : ¬K1 → v1 = none) (h2K : ¬K2 → v2 = none) :
    (if (B ∨ K1) ∨ K2
      then some (padd ((if B ∨ K1
              then some (padd (b0.getD (zeroOf t)) (v1.getD (zeroOf t)))
              else none).getD (zeroOf t)) (v2.getD (zeroOf t)))
      else none) =
    (if (B ∨ K2) ∨ K1
      then some (padd ((if B ∨ K2
              then some (padd (b0.getD (zeroOf t)) (v2.getD (zeroOf t)))
              else none).getD (zeroOf t)) (v1.getD (zeroOf t)))
      else none) := by
  subst hnum
  obtain ⟨x1, hx1⟩ := cellNum_getD_i v1 h1
  obtain ⟨x2, hx2⟩ := cellNum_getD_i v2 h2
  by_cases hB : B
  · obtain ⟨xb, hxb⟩ := cellNum_getD_i b0 hb
    simp only [hB, true_or, or_true, if_true, Option.getD_some]
    rw [hxb, hx1, hx2]
    show some (PVal.i (xb + x1 + x2)) = some (PVal.i (xb + x2 + x1))
    rw [Int.add_right_comm]
  · rw [hbB hB]
    by_cases hK1 : K1 <;> by_cases hK2 : K2
    · simp only [hB, hK1, hK2, true_or, or_true, false_or, or_false,
        if_true, Option.getD_some]
      rw [hx1, hx2]
      show some (PVal.i (0 + x1 + x2)) = some (PVal.i (0 + x2 + x1))
      rw [Int.add_right_comm]
    · rw [h2K hK2]
      simp only [hB, hK1, hK2, true_or, or_true, false_or, or_false,
        if_true, if_false, Option.getD_some, Option.getD_none]
      rw [hx1]
      show some (PVal.i (0 + x1 + 0)) = some (PVal.i (0 + x1))
      rw [Int.add_zero]
    · rw [h1K hK1]
      simp only [hB, hK1, hK2, true_or, or_true, false_or, or_false,
        if_true, if_false, Option.getD_some, Option.getD_none]
      rw [hx2]
      show some (PVal.i (0 + x2)) = some (PVal.i (0 + x2 + 0))
      rw [Int.add_zero]
    · simp only [hB, hK1, hK2, false_or, or_false, if_false]

end HeadToHead

namespace HeadToHead

theorem cOr_self_left (a b : Cell) : cOr a (cOr a b) = cOr a b := by
  cases a <;> rfl

/-- C1: Replace-Merge computes a full outer join on the key — a key appears
in the result iff it appears in either input — and resolves every
overlapping non-key column as `coalesce(delta, base)` (delta's value when
non-null, else base's); one-sided columns pass through unchanged, and the
key column carries the key of every surviving row. -/
theorem claim_C1 (base delta : DF) (key : String) (out : DF)
    (hR : mergeReady base delta key "_upd" true)
    (hok : upsert_match base delta key = .ok out) (k : PVal) :
    (out.hasKey key k ↔ (base.hasKey key k ∨ delta.hasKey key k)) ∧
    (∀ c ∈ overlapCols base delta key,
      out.valAt key k c = cOr (delta.valAt key k c) (base.valAt key k c)) ∧
    (∀ c ∈ base.cols, c ∉ delta.cols → out.valAt key k c = base.valAt key k c) ∧
    (∀ c ∈ delta.cols, c ∉ base.cols → c ≠ key →
      out.valAt key k c = delta.valAt key k c) ∧
    (out.valAt key k key =
      if base.hasKey key k ∨ delta.hasKey key k then some k else none) :=
  upsert_match_valAt base delta key out hR hok k

theorem claim_C1_witness :
    mergeReady wBase wDeltaM "MatchId" "_upd" true ∧
    upsert_match wBase wDeltaM "MatchId" =
      .ok (getOk (upsert_match wBase wDeltaM "MatchId")) ∧
    (((getOk (upsert_match wBase wDeltaM "MatchId")).hasKey "MatchId" (.i 7) ↔
        (wBase.hasKey "MatchId" (.i 7) ∨ wDeltaM.hasKey "MatchId" (.i 7))) ∧
     (∀ c ∈ overlapCols wBase wDeltaM "MatchId",
       (getOk (upsert_match wBase wDeltaM "MatchId")).valAt "MatchId" (.i 7) c =
         cOr (wDeltaM.valAt "MatchId" (.i 7) c) (wBase.valAt "MatchId" (.i 7) c)) ∧
     (∀ c ∈ wBase.cols, c ∉ wDeltaM.cols →
       (getOk (upsert_match wBase wDeltaM "MatchId")).valAt "MatchId" (.i 7) c =
         wBase.valAt "MatchId" (.i 7) c) ∧
     (∀ c ∈ wDeltaM.cols, c ∉ wBase.cols → c ≠ "MatchId" →
       (getOk (upsert_match wBase wDeltaM "MatchId")).valAt "MatchId" (.i 7) c =
         wDeltaM.valAt "MatchId" (.i 7) c) ∧
     ((getOk (upsert_match wBase wDeltaM "MatchId")).valAt "MatchId" (.i 7) "MatchId" =
       if wBase.hasKey "MatchId" (.i 7) ∨ wDeltaM.hasKey "MatchId" (.i 7)
       then some (.i 7) else none)) :=
  ⟨by decide, rfl,
   claim_C1 wBase wDeltaM "MatchId" (getOk (upsert_match wBase wDeltaM "MatchId"))
     (by decide) rfl (.i 7)⟩

end HeadToHead

namespace HeadToHead

/-- C2: Additive-Merge sets every overlapping non-key column of a joined
row to `coalesce(base, 0) + coalesce(delta, 0)` (per the column's declared
dtype zero); in particular a base turnover of 100 for match 7 plus a delta
turnover of 50 yields 150. -/
theorem claim_C2 (base delta : DF) (key : String) (out : DF)
    (hR : mergeReady base delta key "_r" false)
    (hfr : noSuffixClash base delta "_r")
    (hok : upsert_bets base delta key = .ok out) (k : PVal) :
    (∀ c ∈ overlapCols base delta key, ∀ t : DType, lookupL c base.schema = some t →
      out.valAt key k c =
        if base.hasKey key k ∨ delta.hasKey key k
        then some (padd ((base.valAt key k c).getD (zeroOf t))
                        ((delta.valAt key k c).getD (zeroOf t)))
        else none) ∧
    (getOk (upsert_bets wBase wDeltaB "MatchId")).valAt "MatchId" (.i 7) "TurnOver_SGD" =
      some (.f 150) :=
  ⟨(upsert_bets_valAt base delta key out hR hfr hok k).2.1, by
    show some (PVal.f (roundD (100 + 50))) = some (PVal.f 150)
    rw [show ((100:ℚ) + 50) = ((150:ℤ) : ℚ) by norm_num,
      roundD_intCast 150 (by norm_num) (by norm_num)]
    norm_num⟩

theorem claim_C2_witness :
    mergeReady wBase wDeltaB "MatchId" "_r" false ∧
    noSuffixClash wBase wDeltaB "_r" ∧
    upsert_bets wBase wDeltaB "MatchId" =
      .ok (getOk (upsert_bets wBase wDeltaB "MatchId")) ∧
    ((∀ c ∈ overlapCols wBase wDeltaB "MatchId", ∀ t : DType,
        lookupL c wBase.schema = some t →
        (getOk (upsert_bets wBase wDeltaB "MatchId")).valAt "MatchId" (.i 7) c =
          if wBase.hasKey "MatchId" (.i 7) ∨ wDeltaB.hasKey "MatchId" (.i 7)
          then some (padd ((wBase.valAt "MatchId" (.i 7) c).getD (zeroOf t))
                          ((wDeltaB.valAt "MatchId" (.i 7) c).getD (zeroOf t)))
          else none) ∧
     (getOk (upsert_bets wBase wDeltaB "MatchId")).valAt "MatchId" (.i 7) "TurnOver_SGD" =
       some (.f 150)) :=
  ⟨by decide, by decide, rfl,
   claim_C2 wBase wDeltaB "MatchId" (getOk (upsert_bets wBase wDeltaB "MatchId"))
     (by decide) (by decide) rfl (.i 7)⟩

/-- C9: the validator fails with the missing-columns error (and returns no
table) on every input table lacking at least one canonical column. -/
theorem claim_C9 (df : DF) (pe : Bool) (c0 : String)
    (hc0 : c0 ∈ head_to_head_schema.map Prod.fst) (hmiss : c0 ∉ df.cols) :
    ∃ cs, ordenar_y_validar df head_to_head_schema pe = .error (.missingColumns cs) ∧
      cs ≠ [] := by
  unfold ordenar_y_validar
  dsimp only
  have hne : (head_to_head_schema.map Prod.fst).filter
      (fun c => decide (c ∉ df.cols)) ≠ [] :=
    List.ne_nil_of_mem (List.mem_filter.mpr ⟨hc0, by simpa using hmiss⟩)
  rw [if_pos hne]
  exact ⟨_, rfl, hne⟩

theorem claim_C9_witness :
    "BetType" ∈ head_to_head_schema.map Prod.fst ∧
    "BetType" ∉ (⟨[("MatchId", DType.i64)], []⟩ : DF).cols ∧
    ∃ cs, ordenar_y_validar (⟨[("MatchId", DType.i64)], []⟩ : DF) head_to_head_schema
        true = .error (.missingColumns cs) ∧ cs ≠ [] :=
  ⟨by decide, by decide,
   claim_C9 (⟨[("MatchId", DType.i64)], []⟩ : DF) true "BetType" (by decide) (by decide)⟩

end HeadToHead

namespace HeadToHead

/-- C5 counterexample: the Timestamp-Arbitrated Merge does not fail when the
delta lacks the key column — the key/timestamp checks run against the union
of both inputs' columns, so a base-side key suffices and the merge returns a
table. -/
theorem claim_C5_counterexample :
    "MatchId" ∉ wOddsDeltaNoKey.cols ∧
    upsert_odds wOddsBase wOddsDeltaNoKey "MatchId" "ModifiedOn"
      preferir_reciente preferir_antiguo =
      .ok (getOk (upsert_odds wOddsBase wOddsDeltaNoKey "MatchId" "ModifiedOn"
        preferir_reciente preferir_antiguo)) :=
  ⟨by decide, rfl⟩

/-- C5 (amended): the join-based merges (`upsert_match`, `upsert_bets`) fail
with the missing-key error whenever the delta lacks the key; `upsert_odds`
fails with it only when the key is absent from both inputs. -/
theorem claim_C5_amended :
    (∀ base delta : DF, ∀ key : String, key ∉ delta.cols →
      upsert_match base delta key = .error (.missingKey key)) ∧
    (∀ base delta : DF, ∀ key : String, key ∉ delta.cols →
      upsert_bets base delta key = .error (.missingKey key)) ∧
    (∀ base delta : DF, ∀ pk ts : String, ∀ rec ant : List String,
      pk ∉ base.cols → pk ∉ delta.cols →
      upsert_odds base delta pk ts rec ant = .error (.missingKey pk)) := by
  refine ⟨?_, ?_, ?_⟩
  · intro base delta key hk
    unfold upsert_match
    rw [if_neg hk]
  · intro base delta key hk
    unfold upsert_bets
    rw [if_neg hk]
  · intro base delta pk ts rec ant hb hd
    unfold upsert_odds
    dsimp only
    have hnp : pk ∉ dedupF (base.cols ++ delta.cols) := by
      intro hx
      rcases List.mem_append.mp ((mem_dedupF _ _).mp hx) with h | h
      exacts [hb h, hd h]
    rw [if_neg hnp]

theorem claim_C5_amended_witness :
    "MatchId" ∉ wOddsDeltaNoKey.cols ∧
    "MatchId" ∉ wOddsDeltaNoKey.cols ∧
    upsert_match wBase wOddsDeltaNoKey "MatchId" = .error (.missingKey "MatchId") ∧
    upsert_bets wBase wOddsDeltaNoKey "MatchId" = .error (.missingKey "MatchId") ∧
    upsert_odds wOddsDeltaNoKey wOddsDeltaNoKey "MatchId" "ModifiedOn"
      preferir_reciente preferir_antiguo = .error (.missingKey "MatchId") :=
  ⟨by decide, by decide,
   claim_C5_amended.1 wBase wOddsDeltaNoKey "MatchId" (by decide),
   claim_C5_amended.2.1 wBase wOddsDeltaNoKey "MatchId" (by decide),
   claim_C5_amended.2.2 wOddsDeltaNoKey wOddsDeltaNoKey "MatchId" "ModifiedOn"
     preferir_reciente preferir_antiguo (by decide) (by decide)⟩

/-- C6 counterexample: a text column present and non-null on both sides of
the Additive-Merge yields the concatenation `"a" ++ "b" = "ab"`, not the
base-preferred value `"a"` — the merge accumulates every overlap column,
whatever its dtype. -/
theorem claim_C6_counterexample :
    wBase.valAt "MatchId" (.i 7) "EventDate" = some (.s "a") ∧
    wDeltaS.valAt "MatchId" (.i 7) "EventDate" = some (.s "b") ∧
    (getOk (upsert_bets wBase wDeltaS "MatchId")).valAt "MatchId" (.i 7) "EventDate" =
      some (.s "ab") ∧
    some (PVal.s "ab") ≠ some (PVal.s "a") :=
  ⟨by decide, by decide, by decide, by decide⟩

/-- C6 (amended): an overlapping text column behaves like every other
overlap column of the Additive-Merge — `coalesce(base, "0") + coalesce
(delta, "0")` — so with both sides non-null the result is the
concatenation of base's and delta's values (delta appended to base), not
the base value alone. -/
theorem claim_C6_amended (base delta : DF) (key : String) (out : DF)
    (hR : mergeReady base delta key "_r" false)
    (hfr : noSuffixClash base delta "_r")
    (hok : upsert_bets base delta key = .ok out) (k : PVal)
    (c : String) (hc : c ∈ overlapCols base delta key)
    (ht : lookupL c base.schema = some .str)
    (a b : String)
    (ha : base.valAt key k c = some (.s a)) (hb : delta.valAt key k c = some (.s b))
    (hk : base.hasKey key k) :
    out.valAt key k c = some (.s (a ++ b)) := by
  have h := (upsert_bets_valAt base delta key out hR hfr hok k).2.1 c hc .str ht
  rw [h, if_pos (Or.inl hk), ha, hb]
  rfl

theorem claim_C6_amended_witness :
    mergeReady wBase wDeltaS "MatchId" "_r" false ∧
    noSuffixClash wBase wDeltaS "_r" ∧
    upsert_bets wBase wDeltaS "MatchId" =
      .ok (getOk (upsert_bets wBase wDeltaS "MatchId")) ∧
    "EventDate" ∈ overlapCols wBase wDeltaS "MatchId" ∧
    lookupL "EventDate" wBase.schema = some .str ∧
    wBase.valAt "MatchId" (.i 7) "EventDate" = some (.s "a") ∧
    wDeltaS.valAt "MatchId" (.i 7) "EventDate" = some (.s "b") ∧
    wBase.hasKey "MatchId" (.i 7) ∧
    (getOk (upsert_bets wBase wDeltaS "MatchId")).valAt "MatchId" (.i 7) "EventDate" =
      some (.s ("a" ++ "b")) :=
  ⟨by decide, by decide, rfl, by decide, by decide, by decide, by decide, by decide,
   claim_C6_amended wBase wDeltaS "MatchId" (getOk (upsert_bets wBase wDeltaS "MatchId"))
     (by decide) (by decide) rfl (.i 7) "EventDate" (by decide) (by decide)
     "a" "b" (by decide) (by decide) (by decide)⟩

end HeadToHead

namespace HeadToHead

/-- C3: the Timestamp-Arbitrated Merge stacks the rows of both inputs, groups
them by the key (a key survives iff some stacked row carries it), and fills
every united non-key column with the first candidate of the key's group
under the order "is-null ascending, then the timestamp column — descending
unless the column is in the oldest-wins set"; if every candidate of the
group is null the result is null. -/
theorem claim_C3 (b d : DF) (pk ts : String) (rec ant : List String) (out : DF)
    (hok : upsert_odds b d pk ts rec ant = .ok out)
    (hready : oddsReady b d) (k : PVal) :
    (out.hasKey pk k ↔ ∃ r ∈ b.rows ++ d.rows, cellR r pk = some k) ∧
    (∀ c, c ∈ dedupF (b.cols ++ d.cols) → c ≠ pk →
      out.valAt pk k c =
        match (sortL (aggLe ts c (decide (c ∉ ant)))
            ((b.rows ++ d.rows).filter (fun r => decide (cellR r pk = some k)))).head? with
        | some r => cellR r c
        | none => none) ∧
    (∀ c, c ∈ dedupF (b.cols ++ d.cols) → c ≠ pk →
      (∀ r ∈ (b.rows ++ d.rows).filter (fun r => decide (cellR r pk = some k)),
        cellR r c = none) →
      out.valAt pk k c = none) := by
  obtain ⟨h1, h2⟩ := upsert_odds_valAt b d pk ts rec ant out hok hready k
  refine ⟨h1, h2, ?_⟩
  intro c hc hcp hall
  rw [h2 c hc hcp]
  exact (aggHead_null_iff ts c (decide (c ∉ ant)) _).mpr hall

theorem claim_C3_witness :
    upsert_odds wOddsBase wOddsDelta "MatchId" "ModifiedOn"
        preferir_reciente preferir_antiguo =
      .ok (getOk (upsert_odds wOddsBase wOddsDelta "MatchId" "ModifiedOn"
        preferir_reciente preferir_antiguo)) ∧
    oddsReady wOddsBase wOddsDelta ∧
    (((getOk (upsert_odds wOddsBase wOddsDelta "MatchId" "ModifiedOn"
          preferir_reciente preferir_antiguo)).hasKey "MatchId" (.i 1) ↔
        ∃ r ∈ wOddsBase.rows ++ wOddsDelta.rows, cellR r "MatchId" = some (.i 1)) ∧
     (∀ c, c ∈ dedupF (wOddsBase.cols ++ wOddsDelta.cols) → c ≠ "MatchId" →
       (getOk (upsert_odds wOddsBase wOddsDelta "MatchId" "ModifiedOn"
           preferir_reciente preferir_antiguo)).valAt "MatchId" (.i 1) c =
         match (sortL (aggLe "ModifiedOn" c (decide (c ∉ preferir_antiguo)))
             ((wOddsBase.rows ++ wOddsDelta.rows).filter
               (fun r => decide (cellR r "MatchId" = some (.i 1))))).head? with
         | some r => cellR r c
         | none => none) ∧
     (∀ c, c ∈ dedupF (wOddsBase.cols ++ wOddsDelta.cols) → c ≠ "MatchId" →
       (∀ r ∈ (wOddsBase.rows ++ wOddsDelta.rows).filter
           (fun r => decide (cellR r "MatchId" = some (.i 1))),
         cellR r c = none) →
       (getOk (upsert_odds wOddsBase wOddsDelta "MatchId" "ModifiedOn"
           preferir_reciente preferir_antiguo)).valAt "MatchId" (.i 1) c = none)) :=
  ⟨rfl, by decide,
   claim_C3 wOddsBase wOddsDelta "MatchId" "ModifiedOn"
     preferir_reciente preferir_antiguo
     (getOk (upsert_odds wOddsBase wOddsDelta "MatchId" "ModifiedOn"
       preferir_reciente preferir_antiguo)) rfl (by decide) (.i 1)⟩

/-- C10: the timestamp column itself is arbitrated like any other non-key
column: per key group (over the stacked input rows) the output `ModifiedOn`
is null exactly when every candidate timestamp is null, and a non-null
output is a candidate that is maximal under the value order — the maximum
non-null timestamp. -/
theorem claim_C10 (b d : DF) (pk ts : String) (rec ant : List String) (out : DF)
    (hok : upsert_odds b d pk ts rec ant = .ok out)
    (hready : oddsReady b d) (hanti : ts ∉ ant) (htpk : ts ≠ pk)
    (hts : ts ∈ dedupF (b.cols ++ d.cols)) (k : PVal) :
    (out.valAt pk k ts = none ↔
      ∀ r ∈ (b.rows ++ d.rows).filter (fun r => decide (cellR r pk = some k)),
        cellR r ts = none) ∧
    (∀ v, out.valAt pk k ts = some v →
      (∃ r ∈ (b.rows ++ d.rows).filter (fun r => decide (cellR r pk = some k)),
        cellR r ts = some v) ∧
      (∀ r ∈ (b.rows ++ d.rows).filter (fun r => decide (cellR r pk = some k)),
        ∀ w, cellR r ts = some w → pvalLe w v = true)) := by
  have h2 := (upsert_odds_valAt b d pk ts rec ant out hok hready k).2 ts hts htpk
  rw [decide_eq_true (by simpa using hanti : (ts ∉ ant : Prop))] at h2
  constructor
  · rw [h2]
    exact aggHead_null_iff ts ts true _
  · intro v hv
    rw [h2] at hv
    exact aggHead_max ts _ v hv

theorem claim_C10_witness :
    upsert_odds wOddsBase wOddsDelta "MatchId" "ModifiedOn"
        preferir_reciente preferir_antiguo =
      .ok (getOk (upsert_odds wOddsBase wOddsDelta "MatchId" "ModifiedOn"
        preferir_reciente preferir_antiguo)) ∧
    oddsReady wOddsBase wOddsDelta ∧
    "ModifiedOn" ∉ preferir_antiguo ∧
    "ModifiedOn" ∈ dedupF (wOddsBase.cols ++ wOddsDelta.cols) ∧
    (((getOk (upsert_odds wOddsBase wOddsDelta "MatchId" "ModifiedOn"
          preferir_reciente preferir_antiguo)).valAt "MatchId" (.i 1) "ModifiedOn" =
        none ↔
      ∀ r ∈ (wOddsBase.rows ++ wOddsDelta.rows).filter
          (fun r => decide (cellR r "MatchId" = some (.i 1))),
        cellR r "ModifiedOn" = none) ∧
     (∀ v, (getOk (upsert_odds wOddsBase wOddsDelta "MatchId" "ModifiedOn"
          preferir_reciente preferir_antiguo)).valAt "MatchId" (.i 1) "ModifiedOn" =
          some v →
       (∃ r ∈ (wOddsBase.rows ++ wOddsDelta.rows).filter
           (fun r => decide (cellR r "MatchId" = some (.i 1))),
         cellR r "ModifiedOn" = some v) ∧
       (∀ r ∈ (wOddsBase.rows ++ wOddsDelta.rows).filter
           (fun r => decide (cellR r "MatchId" = some (.i 1))),
         ∀ w, cellR r "ModifiedOn" = some w → pvalLe w v = true))) :=
  ⟨rfl, by decide, by decide, by decide,
   claim_C10 wOddsBase wOddsDelta "MatchId" "ModifiedOn"
     preferir_reciente preferir_antiguo
     (getOk (upsert_odds wOddsBase wOddsDelta "MatchId" "ModifiedOn"
       preferir_reciente preferir_antiguo)) rfl (by decide) (by decide) (by decide)
     (by decide) (.i 1)⟩

end HeadToHead

namespace HeadToHead

/-- C4: every table returned by any of the three merge strategies carries the
canonical schema as a prefix — all 27 canonical columns, in order, with
exactly their declared dtypes — followed only by non-canonical extras. -/
theorem claim_C4 :
    (∀ (base delta : DF) (key : String) (out : DF),
      upsert_match base delta key = .ok out →
      ∃ e, out.schema = head_to_head_schema ++ e ∧
        (∀ p ∈ e, p.1 ∉ head_to_head_schema.map Prod.fst) ∧
        (∀ p ∈ head_to_head_schema, out.dtypeOf p.1 = some p.2)) ∧
    (∀ (base delta : DF) (key : String) (out : DF),
      upsert_bets base delta key = .ok out →
      ∃ e, out.schema = head_to_head_schema ++ e ∧
        (∀ p ∈ e, p.1 ∉ head_to_head_schema.map Prod.fst) ∧
        (∀ p ∈ head_to_head_schema, out.dtypeOf p.1 = some p.2)) ∧
    (∀ (base delta : DF) (pk ts : String) (rec ant : List String) (out : DF),
      upsert_odds base delta pk ts rec ant = .ok out →
      ∃ e, out.schema = head_to_head_schema ++ e ∧
        (∀ p ∈ e, p.1 ∉ head_to_head_schema.map Prod.fst) ∧
        (∀ p ∈ head_to_head_schema, out.dtypeOf p.1 = some p.2)) := by
  refine ⟨?_, ?_, ?_⟩
  · intro base delta key out hok
    obtain ⟨df', hval⟩ := upsert_match_validated base delta key out hok
    exact validar_shape hval canon_names_nodup
  · intro base delta key out hok
    obtain ⟨df', hval⟩ := upsert_bets_validated base delta key out hok
    exact validar_shape hval canon_names_nodup
  · intro base delta pk ts rec ant out hok
    obtain ⟨df', hval⟩ := upsert_odds_validated base delta pk ts rec ant out hok
    exact validar_shape hval canon_names_nodup

theorem claim_C4_witness :
    upsert_match wBase wDeltaM "MatchId" =
      .ok (getOk (upsert_match wBase wDeltaM "MatchId")) ∧
    ∃ e, (getOk (upsert_match wBase wDeltaM "MatchId")).schema =
        head_to_head_schema ++ e ∧
      (∀ p ∈ e, p.1 ∉ head_to_head_schema.map Prod.fst) ∧
      (∀ p ∈ head_to_head_schema,
        (getOk (upsert_match wBase wDeltaM "MatchId")).dtypeOf p.1 = some p.2) :=
  ⟨rfl, claim_C4.1 wBase wDeltaM "MatchId"
    (getOk (upsert_match wBase wDeltaM "MatchId")) rfl⟩

end HeadToHead

namespace HeadToHead

/-- With a canonically-shaped base and delta columns drawn from the canonical
set, the Replace-Merge output carries exactly the canonical schema. -/
theorem upsert_match_canonical (base delta : DF) (key : String) (out : DF)
    (hR : mergeReady base delta key "_upd" true)
    (hbase : base.cols = head_to_head_schema.map Prod.fst)
    (hsub : ∀ c ∈ delta.cols, c ∈ base.cols)
    (hok : upsert_match base delta key = .ok out) :
    out.schema = head_to_head_schema := by
  obtain ⟨hWb, hWd, hkb, hkd, hub, hud, hjnd, hdnd, hal⟩ := hR
  rw [upsert_match_reduce base delta key hkb hkd hal] at hok
  have hcov : ∀ c ∈ (umOut base delta key).cols, c ∈ head_to_head_schema.map Prod.fst := by
    intro c hc
    rw [umOut_cols hkd hjnd] at hc
    rw [← hbase]
    rcases List.mem_append.mp hc with h | h
    · rcases List.mem_append.mp h with h' | h'
      · exact (mem_boCols.mp h').1
      · exact (mem_overlapCols.mp h').1
    · exact hsub c (mem_dlCols.mp h).1
  exact (validar_schema_canonical hok canon_names_nodup hcov).1

/-- C7: Replace-Merge is idempotent under re-application of the same delta:
with canonical inputs, merging the delta into the first merge's result again
leaves the schema and the per-key content of every canonical column
unchanged. -/
theorem claim_C7 (base delta r1 r2 : DF) (key : String)
    (hbase : base.cols = head_to_head_schema.map Prod.fst)
    (hsub : ∀ c ∈ delta.cols, c ∈ base.cols)
    (hR1 : mergeReady base delta key "_upd" true)
    (h1 : upsert_match base delta key = .ok r1)
    (hR2 : mergeReady r1 delta key "_upd" true)
    (h2 : upsert_match r1 delta key = .ok r2) :
    r2.schema = r1.schema ∧
    ∀ k : PVal, (r2.hasKey key k ↔ r1.hasKey key k) ∧
      ∀ c ∈ head_to_head_schema.map Prod.fst,
        r2.valAt key k c = r1.valAt key k c := by
  have hsch1 : r1.schema = head_to_head_schema :=
    upsert_match_canonical base delta key r1 hR1 hbase hsub h1
  have hr1cols : r1.cols = head_to_head_schema.map Prod.fst := by
    show r1.schema.map Prod.fst = _
    rw [hsch1]
  have hsub2 : ∀ c ∈ delta.cols, c ∈ r1.cols := by
    intro c hc
    rw [hr1cols, ← hbase]
    exact hsub c hc
  have hsch2 : r2.schema = head_to_head_schema :=
    upsert_match_canonical r1 delta key r2 hR2 hr1cols hsub2 h2
  refine ⟨by rw [hsch1, hsch2], ?_⟩
  intro k
  have hv1 := upsert_match_valAt base delta key r1 hR1 h1 k
  have hv2 := upsert_match_valAt r1 delta key r2 hR2 h2 k
  have hkiff : r1.hasKey key k ↔ (base.hasKey key k ∨ delta.hasKey key k) := hv1.1
  constructor
  · rw [hv2.1, hkiff]
    tauto
  · intro c hcn
    by_cases hck : c = key
    · subst hck
      rw [hv2.2.2.2.2, hv1.2.2.2.2]
      have hcond : (r1.hasKey c k ∨ delta.hasKey c k) ↔
          (base.hasKey c k ∨ delta.hasKey c k) := by
        rw [hkiff]
        tauto
      exact if_congr hcond rfl rfl
    · by_cases hcd : c ∈ delta.cols
      · have hcb : c ∈ base.cols := hsub c hcd
        have ho1 : c ∈ overlapCols base delta key := mem_overlapCols.mpr ⟨hcb, hcd, hck⟩
        have ho2 : c ∈ overlapCols r1 delta key :=
          mem_overlapCols.mpr ⟨by rw [hr1cols, ← hbase]; exact hcb, hcd, hck⟩
        rw [hv2.2.1 c ho2, hv1.2.1 c ho1]
        exact cOr_self_left _ _
      · have hc1 : c ∈ r1.cols := by rw [hr1cols]; exact hcn
        rw [hv2.2.2.1 c hc1 hcd]

end HeadToHead

namespace HeadToHead

theorem claim_C7_witness :
    wBase.cols = head_to_head_schema.map Prod.fst ∧
    (∀ c ∈ wDeltaM.cols, c ∈ wBase.cols) ∧
    mergeReady wBase wDeltaM "MatchId" "_upd" true ∧
    upsert_match wBase wDeltaM "MatchId" =
      .ok (getOk (upsert_match wBase wDeltaM "MatchId")) ∧
    mergeReady (getOk (upsert_match wBase wDeltaM "MatchId")) wDeltaM
      "MatchId" "_upd" true ∧
    upsert_match (getOk (upsert_match wBase wDeltaM "MatchId")) wDeltaM "MatchId" =
      .ok (getOk (upsert_match (getOk (upsert_match wBase wDeltaM "MatchId"))
        wDeltaM "MatchId")) ∧
    ((getOk (upsert_match (getOk (upsert_match wBase wDeltaM "MatchId"))
        wDeltaM "MatchId")).schema =
      (getOk (upsert_match wBase wDeltaM "MatchId")).schema ∧
     ∀ k : PVal,
       ((getOk (upsert_match (getOk (upsert_match wBase wDeltaM "MatchId"))
           wDeltaM "MatchId")).hasKey "MatchId" k ↔
         (getOk (upsert_match wBase wDeltaM "MatchId")).hasKey "MatchId" k) ∧
       ∀ c ∈ head_to_head_schema.map Prod.fst,
         (getOk (upsert_match (getOk (upsert_match wBase wDeltaM "MatchId"))
            wDeltaM "MatchId")).valAt "MatchId" k c =
           (getOk (upsert_match wBase wDeltaM "MatchId")).valAt "MatchId" k c) :=
  ⟨by decide, by decide, by decide, rfl, by decide, rfl,
   claim_C7 wBase wDeltaM (getOk (upsert_match wBase wDeltaM "MatchId"))
     (getOk (upsert_match (getOk (upsert_match wBase wDeltaM "MatchId"))
       wDeltaM "MatchId")) "MatchId"
     (by decide) (by decide) (by decide) rfl (by decide) rfl⟩

end HeadToHead

namespace HeadToHead

/-- C8 counterexample: over a Float64 accumulator column the Additive-Merge
is not order-insensitive.  With a base turnover of `2^53` and delta batches
adding `1` and `-2^53`, merging D1 then D2 leaves `0` — the `+1` is absorbed
by binary64 ties-to-even rounding next to `2^53` — while D2 then D1 leaves
`1`: same key, same overlapping numeric column, different totals. -/
theorem claim_C8_counterexample :
    (getOk (upsert_bets (getOk (upsert_bets fBase fD1 "MatchId")) fD2 "MatchId")).valAt
        "MatchId" (.i 7) "TurnOver_SGD" = some (.f 0) ∧
    (getOk (upsert_bets (getOk (upsert_bets fBase fD2 "MatchId")) fD1 "MatchId")).valAt
        "MatchId" (.i 7) "TurnOver_SGD" = some (.f 1) ∧
    (some (PVal.f 0) : Cell) ≠ some (.f 1) := by
  have key1 : fBase.hasKey "MatchId" (.i 7) := by decide
  have hA1 := (upsert_bets_valAt fBase fD1 "MatchId"
      (getOk (upsert_bets fBase fD1 "MatchId")) (by decide) (by decide) rfl (.i 7)).2.1
      "TurnOver_SGD" (by decide) .f64 (by decide)
  rw [if_pos (Or.inl key1),
      show fBase.valAt "MatchId" (.i 7) "TurnOver_SGD" = some (.f (2 ^ 53)) from rfl,
      show fD1.valAt "MatchId" (.i 7) "TurnOver_SGD" = some (.f 1) from rfl] at hA1
  have hA1' : (getOk (upsert_bets fBase fD1 "MatchId")).valAt "MatchId" (.i 7)
      "TurnOver_SGD" = some (.f ((2:ℚ) ^ 53)) := by
    rw [hA1]
    show some (PVal.f (roundD ((2:ℚ) ^ 53 + 1))) = some (PVal.f ((2:ℚ) ^ 53))
    rw [roundD_tie]
  have key1' : (getOk (upsert_bets fBase fD1 "MatchId")).hasKey "MatchId" (.i 7) := by
    decide
  have hA2 := (upsert_bets_valAt (getOk (upsert_bets fBase fD1 "MatchId")) fD2 "MatchId"
      (getOk (upsert_bets (getOk (upsert_bets fBase fD1 "MatchId")) fD2 "MatchId"))
      (by decide) (by decide) rfl (.i 7)).2.1 "TurnOver_SGD" (by decide) .f64 (by decide)
  rw [if_pos (Or.inl key1'), hA1',
      show fD2.valAt "MatchId" (.i 7) "TurnOver_SGD" = some (.f (-(2 ^ 53))) from rfl] at hA2
  refine ⟨?_, ?_, ?_⟩
  · rw [hA2]
    show some (PVal.f (roundD ((2:ℚ) ^ 53 + -(2 ^ 53)))) = some (PVal.f 0)
    rw [show ((2:ℚ) ^ 53 + -(2 ^ 53)) = 0 by ring, roundD_zero]
  · have hB1 := (upsert_bets_valAt fBase fD2 "MatchId"
        (getOk (upsert_bets fBase fD2 "MatchId")) (by decide) (by decide) rfl (.i 7)).2.1
        "TurnOver_SGD" (by decide) .f64 (by decide)
    rw [if_pos (Or.inl key1),
        show fBase.valAt "MatchId" (.i 7) "TurnOver_SGD" = some (.f (2 ^ 53)) from rfl,
        show fD2.valAt "MatchId" (.i 7) "TurnOver_SGD" = some (.f (-(2 ^ 53))) from rfl]
      at hB1
    have hB1' : (getOk (upsert_bets fBase fD2 "MatchId")).valAt "MatchId" (.i 7)
        "TurnOver_SGD" = some (.f 0) := by
      rw [hB1]
      show some (PVal.f (roundD ((2:ℚ) ^ 53 + -(2 ^ 53)))) = some (PVal.f 0)
      rw [show ((2:ℚ) ^ 53 + -(2 ^ 53)) = 0 by ring, roundD_zero]
    have key2' : (getOk (upsert_bets fBase fD2 "MatchId")).hasKey "MatchId" (.i 7) := by
      decide
    have hB2 := (upsert_bets_valAt (getOk (upsert_bets fBase fD2 "MatchId")) fD1 "MatchId"
        (getOk (upsert_bets (getOk (upsert_bets fBase fD2 "MatchId")) fD1 "MatchId"))
        (by decide) (by decide) rfl (.i 7)).2.1 "TurnOver_SGD" (by decide) .f64 (by decide)
    rw [if_pos (Or.inl key2'), hB1',
        show fD1.valAt "MatchId" (.i 7) "TurnOver_SGD" = some (.f 1) from rfl] at hB2
    rw [hB2]
    show some (PVal.f (roundD ((0:ℚ) + 1))) = some (PVal.f 1)
    rw [show ((0:ℚ) + 1) = 1 by norm_num, roundD_one]
  · intro h
    have h2 := Option.some.inj h
    have h3 : (0:ℚ) = 1 := by injection h2
    norm_num at h3

/-- C8 (amended): Additive-Merge is order-insensitive on the overlapping
Int64 accumulator columns — integer addition is exact, so applying delta
batches D1 then D2 and D2 then D1 produces the same per-key value.  Over
Float64 columns the property fails: binary64 rounding makes the totals
depend on the batch order (see the counterexample). -/
theorem claim_C8_amended (base d1 d2 r1 r12 r2 r21 : DF) (key : String)
    (hR1 : mergeReady base d1 key "_r" false) (hf1 : noSuffixClash base d1 "_r")
    (h1 : upsert_bets base d1 key = .ok r1)
    (hR12 : mergeReady r1 d2 key "_r" false) (hf12 : noSuffixClash r1 d2 "_r")
    (h12 : upsert_bets r1 d2 key = .ok r12)
    (hR2 : mergeReady base d2 key "_r" false) (hf2 : noSuffixClash base d2 "_r")
    (h2 : upsert_bets base d2 key = .ok r2)
    (hR21 : mergeReady r2 d1 key "_r" false) (hf21 : noSuffixClash r2 d1 "_r")
    (h21 : upsert_bets r2 d1 key = .ok r21)
    (k : PVal) (c : String)
    (hc1 : c ∈ overlapCols base d1 key) (hc2 : c ∈ overlapCols base d2 key)
    (ht : lookupL c base.schema = some .i64)
    (ht1 : lookupL c r1.schema = some .i64) (ht2 : lookupL c r2.schema = some .i64)
    (hn0 : cellNum .i64 (base.valAt key k c) = true)
    (hn1 : cellNum .i64 (d1.valAt key k c) = true)
    (hn2 : cellNum .i64 (d2.valAt key k c) = true) :
    r12.valAt key k c = r21.valAt key k c := by
  have hv1 := upsert_bets_valAt base d1 key r1 hR1 hf1 h1 k
  have hv2 := upsert_bets_valAt base d2 key r2 hR2 hf2 h2 k
  have hv12 := upsert_bets_valAt r1 d2 key r12 hR12 hf12 h12 k
  have hv21 := upsert_bets_valAt r2 d1 key r21 hR21 hf21 h21 k
  obtain ⟨hcb, hcd1, hck⟩ := mem_overlapCols.mp hc1
  obtain ⟨-, hcd2, -⟩ := mem_overlapCols.mp hc2
  have hc12 : c ∈ overlapCols r1 d2 key :=
    mem_overlapCols.mpr ⟨(lookupL_isSome_iff c r1.schema).mp (by rw [ht1]; rfl), hcd2, hck⟩
  have hc21 : c ∈ overlapCols r2 d1 key :=
    mem_overlapCols.mpr ⟨(lookupL_isSome_iff c r2.schema).mp (by rw [ht2]; rfl), hcd1, hck⟩
  rw [hv12.2.1 c hc12 .i64 ht1, hv21.2.1 c hc21 .i64 ht2,
    hv1.2.1 c hc1 .i64 ht, hv2.2.1 c hc2 .i64 ht]
  simp only [hv1.1, hv2.1]
  exact bets_val_comm rfl (base.hasKey key k) (d1.hasKey key k) (d2.hasKey key k)
    (base.valAt key k c) (d1.valAt key k c) (d2.valAt key k c) hn0 hn1 hn2
    (valAt_eq_none_of_not_hasKey base key k c)
    (valAt_eq_none_of_not_hasKey d1 key k c)
    (valAt_eq_none_of_not_hasKey d2 key k c)

end HeadToHead

namespace HeadToHead

theorem claim_C8_amended_witness :
    mergeReady wBase wDeltaI "MatchId" "_r" false ∧
    noSuffixClash wBase wDeltaI "_r" ∧
    upsert_bets wBase wDeltaI "MatchId" =
      .ok (getOk (upsert_bets wBase wDeltaI "MatchId")) ∧
    mergeReady (getOk (upsert_bets wBase wDeltaI "MatchId")) wDeltaI2
      "MatchId" "_r" false ∧
    noSuffixClash (getOk (upsert_bets wBase wDeltaI "MatchId")) wDeltaI2 "_r" ∧
    upsert_bets (getOk (upsert_bets wBase wDeltaI "MatchId")) wDeltaI2 "MatchId" =
      .ok (getOk (upsert_bets (getOk (upsert_bets wBase wDeltaI "MatchId"))
        wDeltaI2 "MatchId")) ∧
    mergeReady wBase wDeltaI2 "MatchId" "_r" false ∧
    noSuffixClash wBase wDeltaI2 "_r" ∧
    upsert_bets wBase wDeltaI2 "MatchId" =
      .ok (getOk (upsert_bets wBase wDeltaI2 "MatchId")) ∧
    mergeReady (getOk (upsert_bets wBase wDeltaI2 "MatchId")) wDeltaI
      "MatchId" "_r" false ∧
    noSuffixClash (getOk (upsert_bets wBase wDeltaI2 "MatchId")) wDeltaI "_r" ∧
    upsert_bets (getOk (upsert_bets wBase wDeltaI2 "MatchId")) wDeltaI "MatchId" =
      .ok (getOk (upsert_bets (getOk (upsert_bets wBase wDeltaI2 "MatchId"))
        wDeltaI "MatchId")) ∧
    "FinalHomeScore" ∈ overlapCols wBase wDeltaI "MatchId" ∧
    "FinalHomeScore" ∈ overlapCols wBase wDeltaI2 "MatchId" ∧
    lookupL "FinalHomeScore" wBase.schema = some .i64 ∧
    lookupL "FinalHomeScore" (getOk (upsert_bets wBase wDeltaI "MatchId")).schema =
      some .i64 ∧
    lookupL "FinalHomeScore" (getOk (upsert_bets wBase wDeltaI2 "MatchId")).schema =
      some .i64 ∧
    cellNum .i64 (wBase.valAt "MatchId" (.i 7) "FinalHomeScore") = true ∧
    cellNum .i64 (wDeltaI.valAt "MatchId" (.i 7) "FinalHomeScore") = true ∧
    cellNum .i64 (wDeltaI2.valAt "MatchId" (.i 7) "FinalHomeScore") = true ∧
    (getOk (upsert_bets (getOk (upsert_bets wBase wDeltaI "MatchId"))
        wDeltaI2 "MatchId")).valAt "MatchId" (.i 7) "FinalHomeScore" =
      (getOk (upsert_bets (getOk (upsert_bets wBase wDeltaI2 "MatchId"))
        wDeltaI "MatchId")).valAt "MatchId" (.i 7) "FinalHomeScore" :=
  ⟨by decide, by decide, rfl, by decide, by decide, rfl,
   by decide, by decide, rfl, by decide, by decide, rfl,
   by decide, by decide, by decide, by decide, by decide,
   by decide, by decide, by decide,
   claim_C8_amended wBase wDeltaI wDeltaI2
     (getOk (upsert_bets wBase wDeltaI "MatchId"))
     (getOk (upsert_bets (getOk (upsert_bets wBase wDeltaI "MatchId"))
       wDeltaI2 "MatchId"))
     (getOk (upsert_bets wBase wDeltaI2 "MatchId"))
     (getOk (upsert_bets (getOk (upsert_bets wBase wDeltaI2 "MatchId"))
       wDeltaI "MatchId"))
     "MatchId"
     (by decide) (by decide) rfl (by decide) (by decide) rfl
     (by decide) (by decide) rfl (by decide) (by decide) rfl
     (.i 7) "FinalHomeScore" (by decide) (by decide)
     (by decide) (by decide) (by decide) (by decide) (by decide) (by decide)⟩

end HeadToHead
